import Mathlib

/-!
# RDB parser of redis-proxy-resharding: a shallow embedding

The Go program reads a Redis RDB snapshot and turns every key into a
RESTORE command.  This file embeds `rdb.go` and `lzf.go` as Lean
functions and states properties of the embedded code.

Conventions of the embedding:

* a byte is a `Nat` (a real byte is below 256); a Go `string` or `[]byte`
  is a `List Nat`;
* `uint64` arithmetic is `Nat` arithmetic reduced modulo `2^64` where the
  Go code can wrap;
* the global variables `Replace`, `SkipRDB`, `currentTimestamp` and the
  function `CRC64Update` (declared outside the four source files) are the
  fields of `Env`;
* the buffered reader is the list of bytes not yet consumed, the output
  channel is the list of commands sent so far;
* a Go `error` and a Go run-time panic are both values of `Err`;
  `Err.isPanic` tells them apart;
* the parser is mutated in place in Go, so every operation is a function
  from the parser to a result and the parser after the call, the parser
  after a failed call included.
-/

namespace RDB

/-- Go byte slices and strings, as lists of byte values. -/
abbrev Bytes := List Nat

/-! ## Constants of `rdb.go` -/

def rdbOpAux : Nat := 0xFA
def rdbOpResizeDB : Nat := 0xFB
def rdbOpDB : Nat := 0xFE
def rdbOpExpirySec : Nat := 0xFD
def rdbOpExpiryMSec : Nat := 0xFC
def rdbOpEOF : Nat := 0xFF

def rdbLen6Bit : Nat := 0x0
def rdbLen14bit : Nat := 0x1
def rdbLen32Bit : Nat := 0x2
def rdbLenEnc : Nat := 0x3

def Type32Bit : Nat := 0x80
def Type64Bit : Nat := 0x81

def rdbOpString : Nat := 0x00
def rdbOpList : Nat := 0x01
def rdbOpSet : Nat := 0x02
def rdbOpZset : Nat := 0x03
def rdbOpHash : Nat := 0x04
def rdbOpZset2 : Nat := 0x05
def rdbOpModule2 : Nat := 0x07
def rdbOpZipmap : Nat := 0x09
def rdbOpZiplist : Nat := 0x0a
def rdbOpIntset : Nat := 0x0b
def rdbOpSortedSet : Nat := 0x0c
def rdbOpHashmap : Nat := 0x0d
def rdbOpListQuicklist : Nat := 0x0e
def rdbOpStreamListpacks : Nat := 0x0f

def RdbModuleOpcodeEOF : Nat := 0
def RdbModuleOpcodeSInt : Nat := 1
def RdbModuleOpcodeUInt : Nat := 2
def RdbModuleOpcodeFloat : Nat := 3
def RdbModuleOpcodeDouble : Nat := 4
def RdbModuleOpcodeString : Nat := 5

/-- The signature `REDIS`. -/
def rdbSignature : Bytes := [0x52, 0x45, 0x44, 0x49, 0x53]

/-- The string `RESTORE`. -/
def restoreCommand : Bytes := [0x52, 0x45, 0x53, 0x54, 0x4F, 0x52, 0x45]

/-- The string `REPLACE`. -/
def replaceArg : Bytes := [0x52, 0x45, 0x50, 0x4C, 0x41, 0x43, 0x45]

/-! ## Errors and panics -/

/-- Every way a call can fail: the errors of `rdb.go`, the two errors of
the Go reader, and the run-time panics.  `outOfFuel` is not a failure of
the Go code: it marks a loop of the embedding that was cut short, and the
loops are given enough fuel for it never to occur. -/
inductive Err where
  | EOF
  | ErrUnexpectedEOF
  | ErrWrongSignature
  | ErrVersionUnsupported
  | ErrUnsupportedOp
  | ErrUnsupportedStringEnc
  | notImp
  | illegalModuleOpcode (got expect : Nat)
  | unsupportedModule
  | panicNeverReached
  | panicIndexOutOfRange
  | panicMakeSlice
  | outOfFuel
  deriving DecidableEq, Repr

/-- Whether a failure is a Go run-time panic rather than a returned error. -/
def Err.isPanic : Err → Bool
  | .panicNeverReached => true
  | .panicIndexOutOfRange => true
  | .panicMakeSlice => true
  | _ => false

/-! ## Machine integers and the Go library functions the parser calls -/

/-- Conversion of an integer to `int8`. -/
def toInt8 (n : Nat) : Int :=
  if n % 256 < 128 then (n % 256 : Nat) else ((n % 256 : Nat) : Int) - 256

/-- Conversion of a `uint64` to `int` (64 bits). -/
def toInt64 (n : Nat) : Int :=
  if n % 2 ^ 64 < 2 ^ 63 then ((n % 2 ^ 64 : Nat) : Int) else ((n % 2 ^ 64 : Nat) : Int) - 2 ^ 64

/-- Subtraction of two `uint64`. -/
def sub64 (a b : Nat) : Nat := (a % 2 ^ 64 + 2 ^ 64 - b % 2 ^ 64) % 2 ^ 64

/-- Multiplication of two `uint64`. -/
def mul64 (a b : Nat) : Nat := (a * b) % 2 ^ 64

/-- Value of a byte list read with the most significant byte first. -/
def beValue (b : Bytes) : Nat := b.foldl (fun acc x => acc * 256 + x) 0

/-- Value of a byte list read with the least significant byte first. -/
def leValue : Bytes → Nat
  | [] => 0
  | x :: xs => x + 256 * leValue xs

/-- Go `binary.BigEndian.Uint32`: panics on a slice shorter than 4. -/
def BigEndian_Uint32 (b : Bytes) : Except Err Nat :=
  if b.length < 4 then .error .panicIndexOutOfRange else .ok (beValue (b.take 4))

/-- Go `binary.BigEndian.Uint64`: panics on a slice shorter than 8. -/
def BigEndian_Uint64 (b : Bytes) : Except Err Nat :=
  if b.length < 8 then .error .panicIndexOutOfRange else .ok (beValue (b.take 8))

/-- Go `binary.LittleEndian.Uint64`: panics on a slice shorter than 8. -/
def LittleEndian_Uint64 (b : Bytes) : Except Err Nat :=
  if b.length < 8 then .error .panicIndexOutOfRange else .ok (leValue (b.take 8))

/-- The `n` low bytes of `v`, least significant first. -/
def leBytes : Nat → Nat → Bytes
  | 0, _ => []
  | n + 1, v => v % 256 :: leBytes n (v / 256)

/-- Go `binary.LittleEndian.PutUint64` into a fresh 8-byte buffer. -/
def LittleEndian_PutUint64 (v : Nat) : Bytes := leBytes 8 v

/-- Go `binary.LittleEndian.PutUint16` into a fresh 2-byte buffer, after
the conversion `uint16(version)` of an `int`. -/
def LittleEndian_PutUint16 (version : Int) : Bytes := leBytes 2 (version % 65536).toNat

/-- Go `fmt.Sprint` and `fmt.Sprintf("%d")` of an unsigned integer. -/
def decimal (n : Nat) : Bytes := (Nat.toDigits 10 n).map Char.toNat

/-- Go `strconv.Atoi` on a string of 1 to 18 bytes (the fast path): an
optional sign, then decimal digits only.  `none` is the syntax error. -/
def atoiDigits : Bytes → Nat → Option Nat
  | [], acc => some acc
  | ch :: rest, acc =>
    if (ch + 256 - 48) % 256 > 9 then none
    else atoiDigits rest (acc * 10 + (ch + 256 - 48) % 256)

/-- Go `strconv.Atoi`, see `atoiDigits`. -/
def Atoi (s : Bytes) : Option Int :=
  match s with
  | [] => none
  | c :: rest =>
    if c = 0x2D then
      (if rest.length < 1 then none else (atoiDigits rest 0).map (fun n => - (n : Int)))
    else if c = 0x2B then
      (if rest.length < 1 then none else (atoiDigits rest 0).map (fun n => (n : Int)))
    else (atoiDigits s 0).map (fun n => (n : Int))

/-! ## `lzf.go` -/

/-- The literal loop of `lzfDecompressNew`: `n` iterations of
`out[o] = in[i]; i++; o++`. -/
def lzfLiteral : Nat → Bytes → Nat → Nat → Bytes → Except Err (Nat × Nat × Bytes)
  | 0, _, i, o, out => .ok (i, o, out)
  | n + 1, inp, i, o, out =>
    if h : i < inp.length then
      if o < out.length then lzfLiteral n inp (i + 1) (o + 1) (out.set o (inp.get ⟨i, h⟩))
      else .error .panicIndexOutOfRange
    else .error .panicIndexOutOfRange

/-- The back-reference loop of `lzfDecompressNew`: `n` iterations of
`out[o] = out[ref]; ref++; o++`, with `ref` a signed index. -/
def lzfBackref : Nat → Int → Nat → Bytes → Except Err (Nat × Bytes)
  | 0, _, o, out => .ok (o, out)
  | n + 1, ref, o, out =>
    if 0 ≤ ref then
      if h : ref.toNat < out.length then
        if o < out.length then lzfBackref n (ref + 1) (o + 1) (out.set o (out.get ⟨ref.toNat, h⟩))
        else .error .panicIndexOutOfRange
      else .error .panicIndexOutOfRange
    else .error .panicIndexOutOfRange

/-- One read `int(in[i])`. -/
def lzfIn (inp : Bytes) (i : Nat) : Except Err Nat :=
  if h : i < inp.length then .ok (inp.get ⟨i, h⟩) else .error .panicIndexOutOfRange

/-- The outer loop of `lzfDecompressNew`, at most `fuel` iterations. -/
def lzfLoop : Nat → Bytes → Int → Nat → Nat → Bytes → Except Err Bytes
  | 0, _, inLen, i, _, out => if (i : Int) < inLen then .error .outOfFuel else .ok out
  | fuel + 1, inp, inLen, i, o, out =>
    if (i : Int) < inLen then
      match lzfIn inp i with
      | .error e => .error e
      | .ok ctrl =>
        if ctrl < 32 then
          match lzfLiteral (ctrl + 1) inp (i + 1) o out with
          | .error e => .error e
          | .ok (i2, o2, out2) => lzfLoop fuel inp inLen i2 o2 out2
        else
          if ctrl >>> 5 = 7 then
            match lzfIn inp (i + 1) with
            | .error e => .error e
            | .ok ext =>
              match lzfIn inp (i + 2) with
              | .error e => .error e
              | .ok d =>
                match lzfBackref (ctrl >>> 5 + ext + 2) ((o : Int) - (((ctrl &&& 0x1f) <<< 8 : Nat) : Int) - (d : Int) - 1) o out with
                | .error e => .error e
                | .ok (o2, out2) => lzfLoop fuel inp inLen (i + 3) o2 out2
          else
            match lzfIn inp (i + 1) with
            | .error e => .error e
            | .ok d =>
              match lzfBackref (ctrl >>> 5 + 2) ((o : Int) - (((ctrl &&& 0x1f) <<< 8 : Nat) : Int) - (d : Int) - 1) o out with
              | .error e => .error e
              | .ok (o2, out2) => lzfLoop fuel inp inLen (i + 2) o2 out2
    else .ok out

/-- Go `lzfDecompressNew(in, inLen, outLen)`.  `make` panics on a negative
length; for every other length the allocation is taken to succeed: the
limit of the run-time, above which `make` panics too, is not modelled
here.  Every iteration advances `i`, so `inLen` iterations are enough
(`lzfDecompressNew_noFuel`). -/
def lzfDecompressNew (inp : Bytes) (inLen outLen : Int) : Except Err Bytes :=
  if outLen < 0 then .error .panicMakeSlice
  else lzfLoop inLen.toNat inp inLen 0 0 (List.replicate outLen.toNat 0)

/-! ## The parser state -/

/-- Go `RedisCommand`; `BulkSize` is never assigned and keeps its zero value. -/
structure RedisCommand where
  Command : List Bytes
  BulkSize : Int
  deriving DecidableEq, Repr

/-- The state functions of `rdb.go`, as tags.  The Go value `nil` of type
`state` is `none : Option State`. -/
inductive State where
  | stateMagic
  | stateOp
  | stateResizeDB
  | stateAux
  | stateDB
  | stateExpirySec
  | stateExpiryMSec
  | stateKey
  | stateCopyString
  | stateCopySetOrList
  | stateCopyHash
  | stateCopyZset
  | stateCopyZset2
  | stateCopyQuicklist
  | stateCopyListpacks
  | stateCopyModule2
  | stateCRC64
  | statePadding
  deriving DecidableEq, Repr

/-- The globals the parser reads, and the checksum function it calls.
`CRC64Update` is declared outside the four source files. -/
structure Env where
  Replace : Bool
  SkipRDB : Bool
  currentTimestamp : Nat
  CRC64Update : Nat → Bytes → Nat

/-- Go `Parser`.  `reader` holds the bytes not yet consumed, `output` the
commands sent on the channel so far; `counter` is `none` for a nil pointer.
`rawData` is the capture buffer (nil and empty are both `[]`). -/
structure Parser where
  reader : Bytes
  output : List RedisCommand
  length : Int
  hash : Nat
  rawData : Bytes
  key : Bytes
  expiry : Nat
  counter : Option Nat
  rdbVersion : Int
  rdbVersion16bit : Bytes
  valueState : Option State
  currentOp : Nat
  deriving DecidableEq, Repr

/-- A parser method: result or failure, and the parser after the call. -/
def M (α : Type) : Type := Parser → Except Err α × Parser

/-- Return a value, parser unchanged. -/
def M.pure {α : Type} (a : α) : M α := fun p => (.ok a, p)

/-- Sequencing: a failure of the first call is returned at once. -/
def M.bind {α β : Type} (m : M α) (f : α → M β) : M β := fun p =>
  match m p with
  | (.ok a, q) => f a q
  | (.error e, q) => (.error e, q)

instance : Monad M where
  pure := M.pure
  bind := M.bind

/-- Fail with an error or a panic. -/
def fail {α : Type} (e : Err) : M α := fun p => (.error e, p)

/-- Use the result of a library call that can panic. -/
def liftE {α : Type} (r : Except Err α) : M α := fun p => (r, p)

/-- Go `parser.reader.ReadByte()`. -/
def readByte : M Nat := fun p =>
  match p.reader with
  | [] => (.error .EOF, p)
  | b :: rest => (.ok b, { p with reader := rest })

/-- Go `safeRead`: `io.ReadFull` of `n` bytes.  On a short stream the bytes
that are left are consumed and the error is `EOF` when there were none,
`ErrUnexpectedEOF` otherwise.  The allocation `make([]byte, n)` is taken
to succeed. -/
def safeRead (n : Nat) : M Bytes := fun p =>
  if n ≤ p.reader.length then (.ok (p.reader.take n), { p with reader := p.reader.drop n })
  else if p.reader = [] then (.error .EOF, p)
  else (.error .ErrUnexpectedEOF, { p with reader := [] })

/-- Go `commandWrite`. -/
def commandWrite (save : Bool) (data : Bytes) : M Unit := fun p =>
  if !save then (.ok (), p) else (.ok (), { p with rawData := p.rawData ++ data })

/-- Go `appendVersion`. -/
def appendVersion : M Unit := fun p =>
  (.ok (), { p with rawData := p.rawData ++ p.rdbVersion16bit })

/-- Go `buildCRCData`. -/
def buildCRCData (env : Env) : M Unit := fun p =>
  (.ok (), { p with rawData := p.rawData ++ LittleEndian_PutUint64 (env.CRC64Update 0 p.rawData) })

/-- The command `keep` builds from the parser. -/
def mkCommand (env : Env) (p : Parser) : RedisCommand :=
  if env.Replace then
    { Command := [restoreCommand, p.key, decimal p.expiry, p.rawData, replaceArg], BulkSize := 0 }
  else
    { Command := [restoreCommand, p.key, decimal p.expiry, p.rawData], BulkSize := 0 }

/-- The send on the channel and the counter increment of `keep`. -/
def emit (env : Env) (cmd : RedisCommand) : M Unit := fun p =>
  if !env.SkipRDB then
    (.ok (), { p with output := p.output ++ [cmd],
                      counter := p.counter.map (fun c => (c + 1) % 2 ^ 64) })
  else (.ok (), p)

/-- Go `keep`. -/
def keep (env : Env) : M Unit := do
  appendVersion
  buildCRCData env
  let cmd ← (fun p => (.ok (mkCommand env p), p) : M RedisCommand)
  emit env cmd
  (fun p => (.ok (), { p with rawData := [], expiry := 0 }) : M Unit)

/-- Go `readLength`. -/
def readLength (save : Bool) : M (Nat × Int) := do
  let pfx ← readByte
  commandWrite save [pfx]
  let kind := (pfx &&& 0xC0) >>> 6
  if kind = rdbLen6Bit then
    pure (pfx &&& 0x3F, -1)
  else if kind = rdbLen14bit then do
    let data ← readByte
    commandWrite save [data]
    pure (((pfx &&& 0x3F) <<< 8) ||| data, -1)
  else if kind = rdbLen32Bit then
    if pfx = Type32Bit then do
      let data ← safeRead 4
      commandWrite save data
      let v ← liftE (BigEndian_Uint32 data)
      pure (v, -1)
    else if pfx = Type64Bit then do
      let data ← safeRead 8
      commandWrite save data
      let v ← liftE (BigEndian_Uint64 data)
      pure (v, -1)
    else fail .panicNeverReached
  else if kind = rdbLenEnc then
    pure (0, toInt8 (pfx &&& 0x3F))
  else fail .panicNeverReached

/-- The integer of an integer-encoded string, as `readString` computes it
from the `1 << encoding` bytes read. -/
def intOfData (encoding : Int) (data : Bytes) : Nat :=
  if encoding = 0 then data.getD 0 0
  else if encoding = 1 then (data.getD 0 0 ||| (data.getD 1 0 <<< 8)) % 2 ^ 32
  else if encoding = 2 then
    (data.getD 0 0 ||| (data.getD 1 0 <<< 8) ||| (data.getD 2 0 <<< 16) ||| (data.getD 3 0 <<< 24)) % 2 ^ 32
  else 0

/-- Go `readString`. -/
def readString (save : Bool) : M Bytes := do
  let (length, encoding) ← readLength false
  if encoding = -1 then do
    let data ← safeRead length
    commandWrite save data
    pure data
  else if encoding = 0 ∨ encoding = 1 ∨ encoding = 2 then do
    let data ← safeRead (1 <<< encoding.toNat)
    commandWrite save data
    pure (decimal (intOfData encoding data))
  else if encoding = 3 then do
    let (clength, _) ← readLength save
    let (length, _) ← readLength save
    let data ← safeRead clength
    commandWrite save data
    liftE (lzfDecompressNew data (toInt64 clength) (toInt64 length))
  else fail .ErrUnsupportedStringEnc

/-- Go `copyString`. -/
def copyString (save : Bool) : M Unit := do
  let (length, encoding) ← readLength save
  if encoding = -1 then do
    let data ← safeRead length
    commandWrite save data
  else if encoding = 0 ∨ encoding = 1 ∨ encoding = 2 then do
    let data ← safeRead (1 <<< encoding.toNat)
    commandWrite save data
  else if encoding = 3 then do
    let (clength, _) ← readLength save
    let _ ← readLength save
    let data ← safeRead clength
    commandWrite save data
  else fail .ErrUnsupportedStringEnc

/-! ## The state functions -/

/-- Go `stateMagic`. -/
def stateMagic : M (Option State) := do
  let signature ← safeRead 5
  if signature ≠ rdbSignature then fail .ErrWrongSignature
  else do
    let versionRaw ← safeRead 4
    match Atoi versionRaw with
    | none => fail .ErrWrongSignature
    | some version =>
      if version > 9 then fail .ErrVersionUnsupported
      else do
        (fun p => (.ok (), { p with rdbVersion := version,
                                    rdbVersion16bit := LittleEndian_PutUint16 version }) : M Unit)
        pure (some .stateOp)

/-- The assignment `parser.valueState = s` followed by `return stateKey, nil`. -/
def toKey (s : State) : M (Option State) := fun p =>
  (.ok (some .stateKey), { p with valueState := some s })

/-- Go `stateOp`. -/
def stateOp : M (Option State) := do
  let op ← readByte
  (fun p => (.ok (), { p with currentOp := op }) : M Unit)
  commandWrite (decide (op ≠ rdbOpDB ∧ op ≠ rdbOpExpirySec ∧ op ≠ rdbOpExpiryMSec ∧
    op ≠ rdbOpAux ∧ op ≠ rdbOpResizeDB)) [op]
  if op = rdbOpDB then pure (some .stateDB)
  else if op = rdbOpExpirySec then pure (some .stateExpirySec)
  else if op = rdbOpExpiryMSec then pure (some .stateExpiryMSec)
  else if op = rdbOpString ∨ op = rdbOpZipmap ∨ op = rdbOpIntset ∨ op = rdbOpZiplist ∨
      op = rdbOpSortedSet ∨ op = rdbOpHashmap then toKey .stateCopyString
  else if op = rdbOpList ∨ op = rdbOpSet then toKey .stateCopySetOrList
  else if op = rdbOpZset then toKey .stateCopyZset
  else if op = rdbOpZset2 then toKey .stateCopyZset2
  else if op = rdbOpHash then toKey .stateCopyHash
  else if op = rdbOpModule2 then toKey .stateCopyModule2
  else if op = rdbOpAux then pure (some .stateAux)
  else if op = rdbOpResizeDB then pure (some .stateResizeDB)
  else if op = rdbOpListQuicklist then toKey .stateCopyQuicklist
  else if op = rdbOpStreamListpacks then toKey .stateCopyListpacks
  else if op = rdbOpEOF then
    (fun p => (.ok (if p.rdbVersion > 4 then some State.stateCRC64 else some State.statePadding), p)
      : M (Option State))
  else fail .ErrUnsupportedOp

/-- Go `stateResizeDB`. -/
def stateResizeDB : M (Option State) := do
  let _ ← readLength false
  let _ ← readLength false
  pure (some .stateOp)

/-- Go `stateAux`. -/
def stateAux : M (Option State) := do
  let _ ← readString false
  let _ ← readString false
  pure (some .stateOp)

/-- Go `stateDB`. -/
def stateDB : M (Option State) := do
  let _ ← readLength false
  pure (some .stateOp)

/-- Go `stateExpirySec`.  The comparison `timeGap < 0` is between unsigned
values and never holds. -/
def stateExpirySec (env : Env) : M (Option State) := do
  let expiry ← safeRead 4
  let fd ← liftE (LittleEndian_Uint64 expiry)
  let timeGap := sub64 fd env.currentTimestamp
  (fun p => (.ok (), { p with expiry := mul64 timeGap 1000 }) : M Unit)
  pure (some .stateOp)

/-- Go `stateExpiryMSec`. -/
def stateExpiryMSec (env : Env) : M (Option State) := do
  let expiry ← safeRead 8
  let fc ← liftE (LittleEndian_Uint64 expiry)
  let timeGap := sub64 fc (mul64 env.currentTimestamp 1000)
  if fc < mul64 env.currentTimestamp 1000 then
    (fun p => (.ok (), { p with expiry := 1 }) : M Unit)
  else
    (fun p => (.ok (), { p with expiry := timeGap }) : M Unit)
  pure (some .stateOp)

/-- Go `stateKey`. -/
def stateKey : M (Option State) := do
  let key ← readString false
  (fun p => (.ok p.valueState, { p with key := key }) : M (Option State))

/-- A Go loop `for i = 0; i < n; i++` whose body does not use `i`. -/
def loopN (body : M Unit) : Nat → M Unit
  | 0 => pure ()
  | n + 1 => do
    body
    loopN body n

/-- Go `stateCopyString`. -/
def stateCopyString (env : Env) : M (Option State) := do
  copyString true
  keep env
  pure (some .stateOp)

/-- Go `stateCopySetOrList`. -/
def stateCopySetOrList (env : Env) : M (Option State) := do
  let (length, _) ← readLength true
  loopN (copyString true) length
  keep env
  pure (some .stateOp)

/-- Go `stateCopyHash`. -/
def stateCopyHash (env : Env) : M (Option State) := do
  let (length, _) ← readLength true
  loopN (do copyString true; copyString true) length
  keep env
  pure (some .stateOp)

/-- The body of the loop of `stateCopyZset`. -/
def zsetEntry : M Unit := do
  copyString true
  let dlen ← readByte
  commandWrite true [dlen]
  if dlen < 0xFD then do
    let double ← safeRead dlen
    commandWrite true double
  else pure ()

/-- Go `stateCopyZset`. -/
def stateCopyZset (env : Env) : M (Option State) := do
  let (length, _) ← readLength true
  loopN zsetEntry length
  keep env
  pure (some .stateOp)

/-- The body of the loop of `stateCopyZset2`: the 8 score bytes are read
and decoded into a value that is not used. -/
def zset2Entry : M Unit := do
  copyString true
  let scoreBytes ← safeRead 8
  let _ ← liftE (LittleEndian_Uint64 scoreBytes)
  pure ()

/-- Go `stateCopyZset2`. -/
def stateCopyZset2 (env : Env) : M (Option State) := do
  let (length, _) ← readLength true
  loopN zset2Entry length
  keep env
  pure (some .stateOp)

/-- Go `stateCopyQuicklist`. -/
def stateCopyQuicklist (env : Env) : M (Option State) := do
  let (listLen, _) ← readLength true
  loopN (copyString true) listLen
  keep env
  pure (some .stateOp)

/-- Go `stateCopyListpacks`. -/
def stateCopyListpacks : M (Option State) := fail .notImp

/-- Go `stateCRC64`. -/
def stateCRC64 : M (Option State) := do
  let _ ← safeRead 8
  pure (some .statePadding)

/-- Go `statePadding`. -/
def statePadding : M (Option State) := pure none

/-- Go `readUnsigned`. -/
def readUnsigned (save : Bool) : M Nat := do
  let (val, _) ← readLength save
  if val ≠ RdbModuleOpcodeUInt then fail (.illegalModuleOpcode val RdbModuleOpcodeUInt)
  else do
    let (value, _) ← readLength save
    pure value

/-- Go `readDouble`; the score bytes are written whatever `save` is. -/
def readDouble (save : Bool) : M Nat := do
  let (val, _) ← readLength save
  if val ≠ RdbModuleOpcodeDouble then fail (.illegalModuleOpcode val RdbModuleOpcodeDouble)
  else do
    let scoreBytes ← safeRead 8
    commandWrite true scoreBytes
    let _ ← liftE (LittleEndian_Uint64 scoreBytes)
    pure 0

/-- Go `readStringBuffer`. -/
def readStringBuffer (save : Bool) : M Nat := do
  let (val, _) ← readLength save
  if val ≠ RdbModuleOpcodeString then fail (.illegalModuleOpcode val RdbModuleOpcodeString)
  else do
    copyString save
    pure 0

/-- The final `readLength` of both filter copiers, with its check. -/
def moduleEOF (env : Env) : M (Option State) := do
  let (eof, _) ← readLength true
  if eof ≠ RdbModuleOpcodeEOF then fail (.illegalModuleOpcode eof RdbModuleOpcodeEOF)
  else do
    keep env
    pure (some .stateOp)

/-- The body of the loop of `stateCopyBloomFilter`. -/
def bloomEntry : M Unit := do
  let _ ← readUnsigned true
  let _ ← readDouble true
  let _ ← readUnsigned true
  let _ ← readDouble true
  let _ ← readUnsigned true
  let _ ← readUnsigned true
  let _ ← readStringBuffer true
  let _ ← readUnsigned true
  pure ()

/-- Go `stateCopyBloomFilter`; the loop bound is `int(nfilters)`. -/
def stateCopyBloomFilter (env : Env) : M (Option State) := do
  let _ ← readUnsigned true
  let nfilters ← readUnsigned true
  let _ ← readUnsigned true
  let _ ← readUnsigned true
  loopN bloomEntry (toInt64 nfilters).toNat
  moduleEOF env

/-- The body of the loop of `stateCopyCuckooFilter`. -/
def cuckooEntry : M Unit := do
  let _ ← readUnsigned true
  let _ ← readStringBuffer true
  pure ()

/-- Go `stateCopyCuckooFilter`. -/
def stateCopyCuckooFilter (env : Env) : M (Option State) := do
  let numFilters ← readUnsigned true
  let _ ← readUnsigned true
  let _ ← readUnsigned true
  let _ ← readUnsigned true
  let _ ← readUnsigned true
  let _ ← readUnsigned true
  let _ ← readUnsigned true
  loopN cuckooEntry numFilters
  moduleEOF env

/-- Go `stateCopyModule2`. -/
def stateCopyModule2 (env : Env) : M (Option State) := do
  let (length, _) ← readLength true
  if length = 3465209449566631940 then stateCopyBloomFilter env
  else if length = 3465209449562641412 then stateCopyCuckooFilter env
  else fail .unsupportedModule

/-- The call `state(parser)` of the loop of `ParseRDB`. -/
def callState (env : Env) : State → M (Option State)
  | .stateMagic => stateMagic
  | .stateOp => stateOp
  | .stateResizeDB => stateResizeDB
  | .stateAux => stateAux
  | .stateDB => stateDB
  | .stateExpirySec => stateExpirySec env
  | .stateExpiryMSec => stateExpiryMSec env
  | .stateKey => stateKey
  | .stateCopyString => stateCopyString env
  | .stateCopySetOrList => stateCopySetOrList env
  | .stateCopyHash => stateCopyHash env
  | .stateCopyZset => stateCopyZset env
  | .stateCopyZset2 => stateCopyZset2 env
  | .stateCopyQuicklist => stateCopyQuicklist env
  | .stateCopyListpacks => stateCopyListpacks
  | .stateCopyModule2 => stateCopyModule2 env
  | .stateCRC64 => stateCRC64
  | .statePadding => statePadding

/-- The loop `for state != nil` of `ParseRDB`, at most `fuel` iterations. -/
def runStates (env : Env) : Nat → Option State → Parser → Except Err Unit × Parser
  | _, none, p => (.ok (), p)
  | 0, some _, p => (.error .outOfFuel, p)
  | fuel + 1, some st, p =>
    match callState env st p with
    | (.ok next, q) => runStates env fuel next q
    | (.error e, q) => (.error e, q)

/-- The parser `ParseRDB` creates. -/
def newParser (reader : Bytes) (output : List RedisCommand) (counter : Option Nat) : Parser :=
  { reader := reader, output := output, length := 0, hash := 0, rawData := [], key := [],
    expiry := 0, counter := counter, rdbVersion := 0, rdbVersion16bit := [],
    valueState := none, currentOp := 0 }

/-- Go `ParseRDB`.  `env.currentTimestamp` is the clock value the parse
uses.  Every state function that returns to `stateOp` is reached from a
`stateOp` that consumed a byte, so three iterations for each input byte
and three more are enough (`ParseRDB_fuel_enough`). -/
def ParseRDB (env : Env) (reader : Bytes) (output : List RedisCommand) (counter : Option Nat) :
    Except Err Unit × Parser :=
  runStates env (3 * reader.length + 3) (some .stateMagic) (newParser reader output counter)

/-! ## Vocabulary of the statements -/

/-- Argument `i` of a command (`argv[i]`), empty when there is none. -/
def RedisCommand.arg (c : RedisCommand) (i : Nat) : Bytes := c.Command.getD i []

/-- The parser once `bs` has been consumed from the stream, leaving `rest`,
with `bs` appended to the capture buffer when `save` is set. -/
def Parser.advance (p : Parser) (save : Bool) (bs rest : Bytes) : Parser :=
  { p with reader := rest, rawData := if save then p.rawData ++ bs else p.rawData }

/-- The payload `keep` frames from capture `c` and version bytes `v`. -/
def framed (env : Env) (c v : Bytes) : Bytes :=
  c ++ v ++ LittleEndian_PutUint64 (env.CRC64Update 0 (c ++ v))

/-- All of `b` but its last `n` bytes. -/
def withoutLast (n : Nat) (b : Bytes) : Bytes := b.take (b.length - n)

/-- The last `n` bytes of `b`. -/
def lastBytes (n : Nat) (b : Bytes) : Bytes := b.drop (b.length - n)

/-- A payload carries a valid suffix for version bytes `v`: the checksum of
everything before the last 8 bytes is the little-endian value of the last 8
bytes, and the 2 bytes before those are `v`. -/
def WellFramed (env : Env) (v payload : Bytes) : Prop :=
  env.CRC64Update 0 (withoutLast 8 payload) = leValue (lastBytes 8 payload) ∧
  lastBytes 2 (withoutLast 8 payload) = v

/-- The copier `stateOp` selects for a value opcode; `none` for every other
byte. -/
def copierOf (op : Nat) : Option State :=
  if op = rdbOpString ∨ op = rdbOpZipmap ∨ op = rdbOpIntset ∨ op = rdbOpZiplist ∨
      op = rdbOpSortedSet ∨ op = rdbOpHashmap then some .stateCopyString
  else if op = rdbOpList ∨ op = rdbOpSet then some .stateCopySetOrList
  else if op = rdbOpZset then some .stateCopyZset
  else if op = rdbOpZset2 then some .stateCopyZset2
  else if op = rdbOpHash then some .stateCopyHash
  else if op = rdbOpModule2 then some .stateCopyModule2
  else if op = rdbOpListQuicklist then some .stateCopyQuicklist
  else if op = rdbOpStreamListpacks then some .stateCopyListpacks
  else none

/-- The state functions `stateOp` can store in `valueState`. -/
def State.isCopier : State → Bool
  | .stateCopyString => true
  | .stateCopySetOrList => true
  | .stateCopyHash => true
  | .stateCopyZset => true
  | .stateCopyZset2 => true
  | .stateCopyQuicklist => true
  | .stateCopyListpacks => true
  | .stateCopyModule2 => true
  | _ => false

/-- The state function `stateOp` returns for a framing opcode; `none` for
every other byte. -/
def framingOf (op : Nat) : Option State :=
  if op = rdbOpDB then some .stateDB
  else if op = rdbOpExpirySec then some .stateExpirySec
  else if op = rdbOpExpiryMSec then some .stateExpiryMSec
  else if op = rdbOpAux then some .stateAux
  else if op = rdbOpResizeDB then some .stateResizeDB
  else none

/-- Equality of results is decidable. -/
instance instDecidableEqResult {α : Type} [DecidableEq α] : DecidableEq (Except Err α)
  | .ok a, .ok b =>
    if h : a = b then isTrue (by rw [h]) else isFalse (by intro h2; cases h2; exact h rfl)
  | .error a, .error b =>
    if h : a = b then isTrue (by rw [h]) else isFalse (by intro h2; cases h2; exact h rfl)
  | .ok _, .error _ => isFalse (by intro h; cases h)
  | .error _, .ok _ => isFalse (by intro h; cases h)

/-! ## Relations between the parser before and after a call -/

/-- The parser `q` is the parser `p` after some reading: bytes were consumed
from the front of the stream and bytes were appended to the capture buffer
(none when `save` is false); no other field changed. -/
def Reads (save : Bool) (p q : Parser) : Prop :=
  ∃ consumed written, p.reader = consumed ++ q.reader ∧
    q = { p with reader := q.reader, rawData := p.rawData ++ written } ∧
    (save = false → written = [])

/-- Every call of `m`, failed calls included, relates the parser before the
call to the parser after it by `R`. -/
def Always {α : Type} (R : Parser → Parser → Prop) (m : M α) : Prop :=
  ∀ p, R p (m p).2

/-- The parser `q` is the parser `p` after a copy: the bytes consumed from
the front of the stream are exactly the bytes appended to the capture
buffer, in the same order, and no other field changed. -/
def Copies (p q : Parser) : Prop :=
  ∃ bs, p.reader = bs ++ q.reader ∧ q = p.advance true bs q.reader

/-- Every successful call of `m` relates the parser before the call to the
parser after it by `R`. -/
def OnOk {α : Type} (R : Parser → Parser → Prop) (m : M α) : Prop :=
  ∀ p a q, m p = (.ok a, q) → R p q

/-- The shape of a value copier: it reads, and then either fails, or calls
`keep` on the parser as the reading left it and continues with `stateOp`. -/
def EndsWithKeep (env : Env) (m : M (Option State)) : Prop :=
  ∀ p, match m p with
    | (.ok next, q) => next = some State.stateOp ∧ ∃ mid, Reads true p mid ∧ q = (keep env mid).2
    | (.error _, q) => Reads true p q

/-- A copier that succeeds has copied and then called `keep`: the parser
after the call is `keep` applied to a parser `mid` that `Copies` relates to
the parser before the call. -/
def CopiesThenKeep (env : Env) (m : M (Option State)) : Prop :=
  ∀ p next q, m p = (.ok next, q) → ∃ mid, Copies p mid ∧ q = (keep env mid).2

/-- What one call `state(parser)` of the loop of `ParseRDB` does, from the
parser `p` before the call to the result `r` and the parser `q` after it.
A failed call changed at most the stream, the capture buffer and
`currentOp`.  A successful call is described state by state. -/
def Summary (env : Env) (st : State) (p : Parser) (r : Except Err (Option State))
    (q : Parser) : Prop :=
  match r with
  | .error _ => ∃ mid, Reads true p mid ∧ q = { mid with currentOp := q.currentOp }
  | .ok next =>
    match st with
    | .stateMagic => next = some .stateOp ∧ ∃ mid, Reads false p mid ∧
        q = { mid with rdbVersion := q.rdbVersion, rdbVersion16bit := q.rdbVersion16bit } ∧
        q.rdbVersion16bit.length = 2
    | .stateOp => ∃ op rest, p.reader = op :: rest ∧
        ((∃ c, copierOf op = some c ∧ next = some .stateKey ∧
            q = { p with reader := rest, currentOp := op, rawData := p.rawData ++ [op],
                         valueState := some c }) ∨
         (copierOf op = none ∧ ∃ s, framingOf op = some s ∧ next = some s ∧
            q = { p with reader := rest, currentOp := op }) ∨
         (copierOf op = none ∧ framingOf op = none ∧ op = rdbOpEOF ∧
            next = some (if p.rdbVersion > 4 then State.stateCRC64 else State.statePadding) ∧
            q = { p with reader := rest, currentOp := op, rawData := p.rawData ++ [op] }))
    | .stateResizeDB => next = some .stateOp ∧ Reads false p q
    | .stateAux => next = some .stateOp ∧ Reads false p q
    | .stateDB => next = some .stateOp ∧ Reads false p q
    | .stateExpirySec => next = some .stateOp ∧ ∃ mid, Reads false p mid ∧
        q = { mid with expiry := q.expiry }
    | .stateExpiryMSec => next = some .stateOp ∧ ∃ mid, Reads false p mid ∧
        q = { mid with expiry := q.expiry }
    | .stateKey => ∃ mid, readString false p = (.ok q.key, mid) ∧ Reads false p mid ∧
        next = p.valueState ∧ q = { mid with key := q.key }
    | .stateCRC64 => next = some .statePadding ∧ Reads false p q
    | .statePadding => next = none ∧ q = p
    | _ => next = some .stateOp ∧ ∃ mid, Reads true p mid ∧ q = (keep env mid).2

/-- The successful calls of the state functions, as a transition relation:
`Step env st p next q` says that `state(parser)` for the state `st` and the
parser `p` can return `next` and leave the parser `q`. -/
inductive Step (env : Env) : State → Parser → Option State → Parser → Prop where
  | magic (p mid : Parser) (version : Int) (v16 : Bytes) :
      Reads false p mid → v16.length = 2 →
      Step env .stateMagic p (some .stateOp)
        { mid with rdbVersion := version, rdbVersion16bit := v16 }
  | opValue (p : Parser) (op : Nat) (rest : Bytes) (c : State) :
      p.reader = op :: rest → copierOf op = some c →
      Step env .stateOp p (some .stateKey)
        { p with reader := rest, currentOp := op, rawData := p.rawData ++ [op],
                 valueState := some c }
  | opFraming (p : Parser) (op : Nat) (rest : Bytes) (s : State) :
      p.reader = op :: rest → copierOf op = none → framingOf op = some s →
      Step env .stateOp p (some s) { p with reader := rest, currentOp := op }
  | opEOF (p : Parser) (op : Nat) (rest : Bytes) :
      p.reader = op :: rest → copierOf op = none → framingOf op = none → op = rdbOpEOF →
      Step env .stateOp p
        (some (if p.rdbVersion > 4 then State.stateCRC64 else State.statePadding))
        { p with reader := rest, currentOp := op, rawData := p.rawData ++ [op] }
  | skip (st : State) (p q : Parser) :
      st = .stateDB ∨ st = .stateResizeDB ∨ st = .stateAux →
      Reads false p q → Step env st p (some .stateOp) q
  | expiry (st : State) (p mid : Parser) (e : Nat) :
      st = .stateExpirySec ∨ st = .stateExpiryMSec →
      Reads false p mid → Step env st p (some .stateOp) { mid with expiry := e }
  | key (p mid : Parser) (k : Bytes) :
      readString false p = (.ok k, mid) → Reads false p mid →
      Step env .stateKey p p.valueState { mid with key := k }
  | copier (st : State) (p mid : Parser) :
      st.isCopier = true → Reads true p mid →
      Step env st p (some .stateOp) (keep env mid).2
  | crc (p q : Parser) :
      Reads false p q → Step env .stateCRC64 p (some .statePadding) q
  | padding (p : Parser) : Step env .statePadding p none p

/-- What a failed call of a state function can have changed: the stream, the
capture buffer and `currentOp`. -/
def Failed (p q : Parser) : Prop :=
  ∃ mid, Reads true p mid ∧ q = { mid with currentOp := q.currentOp }

/-- The call `m` never reports that the fuel of a loop ran out. -/
def NoFuelErr {α : Type} (m : M α) : Prop := ∀ p, (m p).1 ≠ .error .outOfFuel

/-! ## The run of the loop of `ParseRDB` -/

/-- The states the loop of `ParseRDB` goes through, each with the parser
before the call, in order; at most `fuel` of them. -/
def visited (env : Env) : Nat → Option State → Parser → List (State × Parser)
  | _, none, _ => []
  | 0, some _, _ => []
  | fuel + 1, some st, p =>
    (st, p) :: match callState env st p with
      | (.ok next, q) => visited env fuel next q
      | (.error _, _) => []

/-- The states `ParseRDB` goes through on an input, see `visited`. -/
def parseTrace (env : Env) (input : Bytes) (out : List RedisCommand) (ctr : Option Nat) :
    List (State × Parser) :=
  visited env (3 * input.length + 3) (some .stateMagic) (newParser input out ctr)

/-- The value opcode a visit of `stateOp` reads, if the next byte of the
stream is one. -/
def valueOpAt (e : State × Parser) : Option Nat :=
  if e.1 = .stateOp then
    match e.2.reader with
    | op :: _ => if (copierOf op).isSome then some op else none
    | [] => none
  else none

/-- The opcode a visit of `stateOp` reads. -/
def opAt (e : State × Parser) : Option Nat :=
  if e.1 = .stateOp then e.2.reader.head? else none

/-- The key a visit of `stateKey` reads, when the read succeeds. -/
def keyAt (e : State × Parser) : Option Bytes :=
  if e.1 = .stateKey then
    match readString false e.2 with
    | (.ok k, _) => some k
    | (.error _, _) => none
  else none

/-- The opcodes of the value records still open in a configuration of the
loop: the one `stateOp` has read when the loop is about to read the key or
to copy the value. -/
def openOp (st : Option State) (p : Parser) : List Nat :=
  match st with
  | some .stateKey => [p.currentOp]
  | some s => if s.isCopier then [p.currentOp] else []
  | none => []

/-- The keys of the value records still open in a configuration of the
loop: the key `stateKey` has stored when the loop is about to copy the
value. -/
def openKey (st : Option State) (p : Parser) : List Bytes :=
  match st with
  | some s => if s.isCopier then [p.key] else []
  | none => []

/-- Whether a value record is open in a configuration of the loop: the loop
is about to read its key or to copy its value. -/
def recordOpen (st : Option State) : Bool :=
  match st with
  | some .stateKey => true
  | some s => s.isCopier
  | none => false

/-- For the opcodes `stateOp` read, in order, one flag for each value
opcode: whether no expiry opcode (FD or FC) was read between the previous
value opcode (or the start) and this one.  `seen` tells whether an expiry
opcode has been read since the last value opcode. -/
def noExpiryBefore : List Nat → Bool → List Bool
  | [], _ => []
  | op :: rest, seen =>
    if (copierOf op).isSome then (!seen) :: noExpiryBefore rest false
    else if op = rdbOpExpirySec ∨ op = rdbOpExpiryMSec then noExpiryBefore rest true
    else noExpiryBefore rest seen

/-- Command `k` has the ttl argument `0` whenever flag `k` is set. -/
def ZeroTtlWhere (cmds : List RedisCommand) (flags : List Bool) : Prop :=
  ∀ k c, cmds.get? k = some c → flags.get? k = some true → c.arg 2 = [0x30]

/-- When the loop is about to call `stateKey`, `valueState` holds a copier. -/
def KeyInv (st : Option State) (p : Parser) : Prop :=
  st = some .stateKey → ∃ c, p.valueState = some c ∧ c.isCopier = true

/-- The capture buffer in a configuration of the loop: the opcode alone
while a value record is open, empty before `stateOp` and the framing states,
unconstrained once the end-of-file opcode is read. -/
def CaptureInv (st : Option State) (p : Parser) : Prop :=
  match st with
  | none => True
  | some .stateKey => p.rawData = [p.currentOp] ∧ ∃ c, p.valueState = some c ∧ c.isCopier = true
  | some .stateCRC64 => True
  | some .statePadding => True
  | some s => if s.isCopier then p.rawData = [p.currentOp] else p.rawData = []

/-- The expiry in a configuration of the loop: it is 0 unless an expiry
opcode was read since the last value record (`seen`), and the expiry states
are entered only after an expiry opcode. -/
def ExpiryInv (st : Option State) (p : Parser) (seen : Bool) : Prop :=
  (seen = false → p.expiry = 0) ∧
  (st = some .stateExpirySec ∨ st = some .stateExpiryMSec → seen = true) ∧
  KeyInv st p

/-- The number of loop iterations that are enough from a state with `n`
bytes left in the stream. -/
def stepsNeeded (st : Option State) (n : Nat) : Nat :=
  match st with
  | none => 0
  | some .statePadding => 1
  | some .stateCRC64 => 2
  | some .stateOp => 3 * n + 1
  | some .stateKey => 3 * n + 3
  | some _ => 3 * n + 2

/-! ## Sample inputs -/

/-- A sample environment: every command replaces, commands are sent, the
clock reads 1, and a stand-in checksum (the byte sum) replaces CRC64. -/
def sampleEnv : Env :=
  { Replace := true, SkipRDB := false, currentTimestamp := 1,
    CRC64Update := fun _ b => b.sum % 2 ^ 64 }

/-- A sample parser in the middle of a version 8 file: key `k`, capture
`00 01 76` (a string record with value `v`), the end-of-file opcode ahead. -/
def sampleParser : Parser :=
  { reader := [0xFF], output := [], length := 0, hash := 0, rawData := [0, 1, 0x76],
    key := [0x6b], expiry := 0, counter := some 0, rdbVersion := 8, rdbVersion16bit := [8, 0],
    valueState := some .stateCopyString, currentOp := 0 }

/-- A parser about to copy an LZF-encoded string: prefix byte C3, compressed
length 4, uncompressed length 8, four compressed bytes, then one more byte. -/
def lzfSampleParser : Parser :=
  { sampleParser with reader := [0xC3, 0x04, 0x08, 0x01, 0x61, 0x61, 0x80, 0xFF], rawData := [0] }

/-- The header `REDIS0008`. -/
def header8 : Bytes := [0x52, 0x45, 0x44, 0x49, 0x53, 0x30, 0x30, 0x30, 0x38]

/-- A version 8 file with one ZSet2 record: key `k`, one entry with member
`a` and the score bytes 11 .. 18, then the end-of-file opcode and eight
checksum bytes. -/
def zset2File : Bytes :=
  header8 ++ [0x05, 0x01, 0x6b, 0x01, 0x01, 0x61, 11, 12, 13, 14, 15, 16, 17, 18, 0xFF,
    0, 0, 0, 0, 0, 0, 0, 0]

/-- A version 8 file with two string records: database selector, then key
`k` with value `v` under an expiry of 5000 ms (opcode FC), then key `k2`
with value `w` and no expiry, then the end-of-file opcode and eight checksum
bytes. -/
def twoKeysFile : Bytes :=
  header8 ++ [0xFE, 0x00,
    0xFC, 0x88, 0x13, 0, 0, 0, 0, 0, 0,
    0x00, 0x01, 0x6b, 0x01, 0x76,
    0x00, 0x02, 0x6b, 0x32, 0x01, 0x77,
    0xFF, 0, 0, 0, 0, 0, 0, 0, 0]

/-- A parser that has just read the opcode FC, with the expiry 1000 ms
(E8 03 00 .. 00) ahead; the clock of `sampleEnv` reads 1 s. -/
def expiryMSecParser : Parser :=
  { sampleParser with reader := [0xE8, 0x03, 0, 0, 0, 0, 0, 0, 0x00], rawData := [],
                      currentOp := 0xFC }

/-- A parser that has just read the opcode FD, with the expiry 2 s
(02 00 00 00) ahead; the clock of `sampleEnv` reads 1 s. -/
def expirySecParser : Parser :=
  { sampleParser with reader := [0x02, 0, 0, 0, 0x00], rawData := [], currentOp := 0xFD }

/-- A parser about to read an integer-encoded string: prefix byte C1 (tag
1), the two bytes 39 30 of the integer 12345, then one more byte. -/
def intKeyParser : Parser :=
  { sampleParser with reader := [0xC1, 0x39, 0x30, 0x07], rawData := [0] }

/-! ## The LZF decoder as the specification describes it -/

/-- The failure modes the specification lists for the LZF decoder. -/
inductive LzfFailure where
  | outputOverflow
  | referenceBeforeStart
  | truncatedInput
  deriving DecidableEq, Repr

instance instDecidableEqLzfResult : DecidableEq (Except LzfFailure Bytes)
  | .ok a, .ok b => if h : a = b then isTrue (by rw [h]) else isFalse (fun e => h (by cases e; rfl))
  | .error a, .error b =>
    if h : a = b then isTrue (by rw [h]) else isFalse (fun e => h (by cases e; rfl))
  | .ok _, .error _ => isFalse (fun e => by cases e)
  | .error _, .ok _ => isFalse (fun e => by cases e)

/-- The copy of a back-reference in the specification: `n` times, the byte
at position `src` of the output is appended to the output and `src` moves
on by one, so that a byte just written can be the source of a later one. -/
def lzfSpecCopy : Nat → Nat → Bytes → Bytes
  | 0, _, out => out
  | n + 1, src, out => lzfSpecCopy n (src + 1) (out ++ [out.getD src 0])

/-- A back-reference block of the specification with control byte `c`,
length `len` and offset byte `D`: the offset is `((c & 0x1F) << 8) | D`,
and `len + 2` bytes are copied from position `out_pos - offset - 1`.  It
fails when that position is before the start of the output and when the
copy would write past position `U`. -/
def lzfSpecBackref (U c len D : Nat) (out : Bytes) : Except LzfFailure Bytes :=
  if out.length < (((c &&& 0x1F) <<< 8) ||| D) + 1 then .error .referenceBeforeStart
  else if U < out.length + (len + 2) then .error .outputOverflow
  else .ok (lzfSpecCopy (len + 2) (out.length - (((c &&& 0x1F) <<< 8) ||| D) - 1) out)

/-- The blocks of an LZF stream as the specification describes them, at
most `fuel` of them, appended to the output decoded so far.  A control byte
`c < 32` copies the next `c + 1` input bytes; any other control byte starts
a back-reference of length `c >> 5`, plus the next byte when that is 7. -/
def lzfSpecBlocks (U : Nat) : Nat → Bytes → Bytes → Except LzfFailure Bytes
  | _, [], out => .ok out
  | 0, _ :: _, _ => .error .truncatedInput
  | fuel + 1, c :: rest, out =>
    if c < 32 then
      if rest.length < c + 1 then .error .truncatedInput
      else if U < out.length + (c + 1) then .error .outputOverflow
      else lzfSpecBlocks U fuel (rest.drop (c + 1)) (out ++ rest.take (c + 1))
    else if c >>> 5 = 7 then
      match rest with
      | ext :: D :: rest2 =>
        match lzfSpecBackref U c (c >>> 5 + ext) D out with
        | .error f => .error f
        | .ok out2 => lzfSpecBlocks U fuel rest2 out2
      | _ => .error .truncatedInput
    else
      match rest with
      | D :: rest2 =>
        match lzfSpecBackref U c (c >>> 5) D out with
        | .error f => .error f
        | .ok out2 => lzfSpecBlocks U fuel rest2 out2
      | [] => .error .truncatedInput

/-- The reference decoder of the specification: the bytes the blocks of
`inp` decode to, or the failure of the first block that fails.  Every block
holds at least one byte, so `inp.length` blocks are enough. -/
def lzfSpecDecode (inp : Bytes) (U : Nat) : Except LzfFailure Bytes :=
  lzfSpecBlocks U inp.length inp []

/-- One chunk of the literal-only encoding: the control byte
`chunkLength - 1`, then the bytes of the chunk. -/
def literalChunk (chunk : Bytes) : Bytes := (chunk.length - 1) :: chunk

/-- The literal-only LZF encoding of the round-trip property, at most
`fuel` chunks of it (the repository has no compressor): the input is cut
into consecutive chunks of 32 bytes, the last one may be shorter, each
preceded by its control byte. -/
def compressChunks : Nat → Bytes → Bytes
  | _, [] => []
  | 0, _ :: _ => []
  | fuel + 1, b :: x => literalChunk ((b :: x).take 32) ++ compressChunks fuel ((b :: x).drop 32)

/-- The literal-only LZF encoding of `x`, see `compressChunks`; `x.length`
chunks are enough. -/
def compress (x : Bytes) : Bytes := compressChunks x.length x

/-- The literal-only LZF encoding for a given cut of the input into chunks:
every chunk preceded by its control byte. -/
def literalEncoding (chunks : List Bytes) : Bytes := (chunks.map literalChunk).flatten

/-- The result of `lzfDecompressNew` that corresponds to a result of the
reference decoder: the decoded bytes followed by the zero bytes of the
output that no block reached, and an index out of range for every failure. -/
def lzfExpected (U : Nat) : Except LzfFailure Bytes → Except Err Bytes
  | .ok d => .ok (d ++ List.replicate (U - d.length) 0)
  | .error _ => .error .panicIndexOutOfRange

/-! ## The header, the dry run and further sample inputs -/

/-- The byte is one of the ASCII digits `0` to `9`. -/
def isAsciiDigit (b : Nat) : Prop := 0x30 ≤ b ∧ b ≤ 0x39

instance instDecidableIsAsciiDigit (b : Nat) : Decidable (isAsciiDigit b) := by
  unfold isAsciiDigit
  exact inferInstance

/-- The byte is an ASCII digit or one of the signs `+` and `-`. -/
def isSignOrDigit (b : Nat) : Prop := isAsciiDigit b ∨ b = 0x2B ∨ b = 0x2D

instance instDecidableIsSignOrDigit (b : Nat) : Decidable (isSignOrDigit b) := by
  unfold isSignOrDigit
  exact inferInstance

/-- The integer four ASCII digits denote. -/
def digitsValue (v0 v1 v2 v3 : Nat) : Nat :=
  1000 * (v0 - 48) + 100 * (v1 - 48) + 10 * (v2 - 48) + (v3 - 48)

/-- The stream `REDIS+009`: the four version bytes start with a sign. -/
def signedHeader : Bytes := rdbSignature ++ [0x2B, 0x30, 0x30, 0x39]

/-- The stream `REDIS0000`: the version digits denote 0. -/
def header0 : Bytes := rdbSignature ++ [0x30, 0x30, 0x30, 0x30]

/-- A version 8 file whose only record has the stream opcode 0F and the
key `k`. -/
def listpacksFile : Bytes := header8 ++ [0x0F, 0x01, 0x6b, 0x00, 0xFF, 0, 0, 0, 0, 0, 0, 0, 0]

/-- The parser after `stateOp` has read a value opcode `op` with copier `c`
from a stream that goes on with `rest`. -/
def afterValueOp (p : Parser) (op : Nat) (rest : Bytes) (c : State) : Parser :=
  { p with reader := rest, currentOp := op, rawData := p.rawData ++ [op], valueState := some c }

/-- The parser of `listpacksFile` after the header, about to read the
opcode 0F. -/
def listpacksParser : Parser :=
  { newParser (listpacksFile.drop 9) [] none with rdbVersion := 8, rdbVersion16bit := [8, 0] }

/-- The parser `p2` is the parser `p1` but for the commands sent so far and
the counter. -/
def SameButQueue (p1 p2 : Parser) : Prop :=
  ∃ o c, p2 = { p1 with output := o, counter := c }

/-- The calls `m1` and `m2` agree on parsers that differ in the queue only:
they return the same result or the same error, and the parsers after the
calls differ in the queue only. -/
def Agree {α : Type} (m1 m2 : M α) : Prop :=
  ∀ p1 p2, SameButQueue p1 p2 → (m1 p1).1 = (m2 p2).1 ∧ SameButQueue (m1 p1).2 (m2 p2).2

/-- The sample environment with `SkipRDB` set. -/
def dryRunEnv : Env := { sampleEnv with SkipRDB := true }

/-- A version 8 file with one Module2 record of the bloom filter module:
key `k`, the module identifier, four unsigned fields with no filter, and the
byte C0 where the module end opcode 00 is expected; then the end-of-file
opcode and eight checksum bytes. -/
def bloomFile : Bytes :=
  header8 ++ [0x07, 0x01, 0x6b,
    0x81, 0x30, 0x16, 0xE5, 0xA2, 0x89, 0xBE, 0xF8, 0x04,
    0x02, 0x00, 0x02, 0x00, 0x02, 0x00, 0x02, 0x00,
    0xC0,
    0xFF, 0, 0, 0, 0, 0, 0, 0, 0]

/-- A file that ends after its header: the signature, four version bytes,
the end-of-file opcode FF and a tail `t`. -/
def eofFile (ver t : Bytes) : Bytes := rdbSignature ++ (ver ++ (rdbOpEOF :: t))

/-- The parser once `stateOp` has read the end-of-file opcode of
`eofFile ver t`, for the version `v` that `ver` denotes. -/
def afterEOF (v : Int) (t : Bytes) (out : List RedisCommand) (ctr : Option Nat) : Parser :=
  { newParser t out ctr with rdbVersion := v, rdbVersion16bit := LittleEndian_PutUint16 v,
                             currentOp := rdbOpEOF, rawData := [rdbOpEOF] }

/-- The parser `q` holds the capture buffer of the parser `p`. -/
def SameCapture (p q : Parser) : Prop := q.rawData = p.rawData

/-- A version 8 file with no record: the header, the end-of-file opcode and
eight checksum bytes. -/
def emptyFile : Bytes := header8 ++ [0xFF, 1, 2, 3, 4, 5, 6, 7, 8]

/-- A parser about to read the length-prefixed string `a` (prefix byte 01),
with one more byte after it. -/
def stringParser : Parser :=
  { sampleParser with reader := [0x01, 0x61, 0xFF], rawData := [0] }

/-- The result of `readLength` is a length with its tag, or one of the two
read errors. -/
def ReturnsOrReadError (r : Except Err (Nat × Int)) : Prop :=
  (∃ v, r = .ok v) ∨ r = .error .EOF ∨ r = .error .ErrUnexpectedEOF

/-- The parser `p` with the bytes `t` appended to its stream. -/
def withTail (p : Parser) (t : Bytes) : Parser := { p with reader := p.reader ++ t }

/-- A call that succeeds on a stream succeeds on every longer stream with
the same result, and leaves the added bytes unread. -/
def Stable {α : Type} (m : M α) : Prop :=
  ∀ p t a q, m p = (.ok a, q) → m (withTail p t) = (.ok a, withTail q t)

/-- The visit of the loop completes a value record: the state is a value
copier and its call succeeds. -/
def recordDone (env : Env) (e : State × Parser) : Bool :=
  e.1.isCopier && (match (callState env e.1 e.2).1 with
    | .ok _ => true
    | .error _ => false)

/-- The file `twoKeysFile` cut inside its second record: the value of the
key `k2` is missing. -/
def cutFile : Bytes := twoKeysFile.take 29

/-- The parser `q` has fewer bytes left in the stream than the parser `p`. -/
def Shrinks (p q : Parser) : Prop := q.reader.length < p.reader.length

/-- One iteration of the loop of `lzfDecompressNew`, from the input index
`i` and the output index `o`: the indices and the output after it. -/
def lzfStep (inp : Bytes) (i o : Nat) (out : Bytes) : Except Err (Nat × Nat × Bytes) :=
  match lzfIn inp i with
  | .error e => .error e
  | .ok ctrl =>
    if ctrl < 32 then lzfLiteral (ctrl + 1) inp (i + 1) o out
    else
      if ctrl >>> 5 = 7 then
        match lzfIn inp (i + 1) with
        | .error e => .error e
        | .ok ext =>
          match lzfIn inp (i + 2) with
          | .error e => .error e
          | .ok d =>
            match lzfBackref (ctrl >>> 5 + ext + 2)
                ((o : Int) - (((ctrl &&& 0x1f) <<< 8 : Nat) : Int) - (d : Int) - 1) o out with
            | .error e => .error e
            | .ok (o2, out2) => .ok (i + 3, o2, out2)
      else
        match lzfIn inp (i + 1) with
        | .error e => .error e
        | .ok d =>
          match lzfBackref (ctrl >>> 5 + 2)
              ((o : Int) - (((ctrl &&& 0x1f) <<< 8 : Nat) : Int) - (d : Int) - 1) o out with
          | .error e => .error e
          | .ok (o2, out2) => .ok (i + 2, o2, out2)

/-- The visit of the loop of `ParseRDB` is a call of `stateOp`. -/
def isOpVisit (e : State × Parser) : Bool := decide (e.1 = State.stateOp)

/-- The call `m` never fails with the error `e0`. -/
def Avoids {α : Type} (e0 : Err) (m : M α) : Prop := ∀ p, (m p).1 ≠ .error e0

/-- The largest length `make([]byte, n)` accepts: `maxAlloc` of the Go
run-time, 2^48 on the 64-bit platforms.  Above it `make` panics; below it
a machine that runs out of memory ends the process, which no function of
this development describes. -/
def makeLimit : Nat := 2 ^ 48

/-- Whenever `m1` succeeds, `m2` succeeds on every parser with the same
stream: the values it returns are related by `V`, and the two calls leave
the same stream. -/
def Follows {α β : Type} (V : α → β → Prop) (m1 : M α) (m2 : M β) : Prop :=
  ∀ p1 p2 a q1, p1.reader = p2.reader → m1 p1 = (.ok a, q1) →
    ∃ b q2, m2 p2 = (.ok b, q2) ∧ V a b ∧ q1.reader = q2.reader

/-! ## Basic facts about the embedding -/

theorem bind_apply {α β : Type} (m : M α) (f : α → M β) (p : Parser) :
    (m >>= f) p = match m p with
      | (.ok a, q) => f a q
      | (.error e, q) => (.error e, q) := rfl

theorem pure_apply {α : Type} (a : α) (p : Parser) : (pure a : M α) p = (.ok a, p) := rfl

theorem bind_ok_iff {α β : Type} (m : M α) (f : α → M β) (p : Parser) (b : β) (q : Parser) :
    (m >>= f) p = (.ok b, q) ↔ ∃ a p1, m p = (.ok a, p1) ∧ f a p1 = (.ok b, q) := by
  rw [bind_apply]
  rcases h : m p with ⟨r, p1⟩
  cases r with
  | ok a =>
    constructor
    · intro hf
      exact ⟨a, p1, rfl, hf⟩
    · rintro ⟨a2, p2, h1, h2⟩
      cases h1
      exact h2
  | error e => simp

set_option maxRecDepth 100000 in
theorem kind_eq_div : ∀ pfx < 256, (pfx &&& 0xC0) >>> 6 = pfx / 64 := by decide

theorem readByte_cons (p : Parser) (b : Nat) (rest : Bytes) (h : p.reader = b :: rest) :
    readByte p = (.ok b, { p with reader := rest }) := by
  simp [readByte, h]

theorem safeRead_append (p : Parser) (bs rest : Bytes) (h : p.reader = bs ++ rest) :
    safeRead bs.length p = (.ok bs, { p with reader := rest }) := by
  simp [safeRead, h]

theorem keep_eq (env : Env) (p : Parser) :
    keep env p = (.ok (),
      if env.SkipRDB then
        { p with rawData := [], expiry := 0 }
      else
        { p with
          output := p.output ++ [mkCommand env
            { p with rawData := framed env p.rawData p.rdbVersion16bit }]
          counter := p.counter.map (fun c => (c + 1) % 2 ^ 64)
          rawData := [], expiry := 0 }) := by
  simp only [keep, bind_apply, appendVersion, buildCRCData, emit, framed]
  cases env.SkipRDB <;> simp

/-! ## The length decoder -/

theorem toInt8_low6 (pfx : Nat) : toInt8 (pfx &&& 0x3F) = ((pfx &&& 0x3F : Nat) : Int) := by
  have h : pfx &&& 0x3F ≤ 0x3F := Nat.and_le_right
  unfold toInt8
  have h2 : (pfx &&& 0x3F) % 256 = pfx &&& 0x3F := Nat.mod_eq_of_lt (by omega)
  rw [h2, if_pos (by omega)]

/-- C10: for a prefix byte outside 0x82..0xBF and a stream that holds the
bytes the prefix requires, `readLength` returns the 6-bit length after one
byte, the 14-bit length after two bytes, the big-endian value of the next 4
bytes (prefix 0x80) or 8 bytes (prefix 0x81), each with encoding -1, and for
top bits 11 length 0 with the low six bits as encoding tag after one byte.
These five cases cover every such prefix byte. -/
theorem readLength_decodes (save : Bool) (p : Parser) (pfx : Nat) (rest : Bytes)
    (hbyte : pfx < 256) (hout : ¬ (0x82 ≤ pfx ∧ pfx ≤ 0xBF)) (hr : p.reader = pfx :: rest) :
    (pfx / 64 = 0 →
      readLength save p = (.ok (pfx &&& 0x3F, -1), p.advance save [pfx] rest)) ∧
    (pfx / 64 = 1 → ∀ b rest2, rest = b :: rest2 →
      readLength save p = (.ok (((pfx &&& 0x3F) <<< 8) ||| b, -1), p.advance save [pfx, b] rest2)) ∧
    (pfx = 0x80 → ∀ b0 b1 b2 b3 rest2, rest = b0 :: b1 :: b2 :: b3 :: rest2 →
      readLength save p = (.ok (b0 * 2 ^ 24 + b1 * 2 ^ 16 + b2 * 2 ^ 8 + b3, -1),
        p.advance save [pfx, b0, b1, b2, b3] rest2)) ∧
    (pfx = 0x81 → ∀ b0 b1 b2 b3 b4 b5 b6 b7 rest2,
      rest = b0 :: b1 :: b2 :: b3 :: b4 :: b5 :: b6 :: b7 :: rest2 →
      readLength save p = (.ok (b0 * 2 ^ 56 + b1 * 2 ^ 48 + b2 * 2 ^ 40 + b3 * 2 ^ 32 +
          b4 * 2 ^ 24 + b5 * 2 ^ 16 + b6 * 2 ^ 8 + b7, -1),
        p.advance save [pfx, b0, b1, b2, b3, b4, b5, b6, b7] rest2)) ∧
    (pfx / 64 = 3 →
      readLength save p = (.ok (0, ((pfx &&& 0x3F : Nat) : Int)), p.advance save [pfx] rest)) ∧
    (pfx / 64 = 0 ∨ pfx / 64 = 1 ∨ pfx = 0x80 ∨ pfx = 0x81 ∨ pfx / 64 = 3) := by
  have hk := kind_eq_div pfx hbyte
  refine ⟨?_, ?_, ?_, ?_, ?_, ?_⟩
  · intro h0
    simp only [readLength, bind_apply, readByte_cons p pfx rest hr, commandWrite]
    cases save <;> simp [hk, h0, rdbLen6Bit, pure_apply, Parser.advance]
  · intro h1 b rest2 hrest
    subst hrest
    simp only [readLength, bind_apply, readByte_cons p pfx _ hr, commandWrite]
    cases save <;>
      simp [hk, h1, rdbLen6Bit, rdbLen14bit, pure_apply, Parser.advance, readByte, bind_apply,
        commandWrite]
  · intro h80 b0 b1 b2 b3 rest2 hrest
    subst hrest h80
    simp only [readLength, bind_apply, readByte_cons p _ _ hr, commandWrite]
    cases save <;>
      simp [hk, rdbLen6Bit, rdbLen14bit, rdbLen32Bit, Type32Bit, pure_apply, Parser.advance,
        safeRead, bind_apply, liftE, BigEndian_Uint32, beValue, commandWrite] <;> ring
  · intro h81 b0 b1 b2 b3 b4 b5 b6 b7 rest2 hrest
    subst hrest h81
    simp only [readLength, bind_apply, readByte_cons p _ _ hr, commandWrite]
    cases save <;>
      simp [hk, rdbLen6Bit, rdbLen14bit, rdbLen32Bit, Type32Bit, Type64Bit, pure_apply,
        Parser.advance, safeRead, bind_apply, liftE, BigEndian_Uint64, beValue, commandWrite] <;> ring
  · intro h3
    simp only [readLength, bind_apply, readByte_cons p pfx rest hr, commandWrite]
    cases save <;>
      simp [hk, h3, rdbLen6Bit, rdbLen14bit, rdbLen32Bit, rdbLenEnc, pure_apply, Parser.advance,
        toInt8_low6]
  · omega

/-- The 14-bit case of C10 on the stream 41 02 07: length 258, two bytes consumed. -/
theorem readLength_decodes_witness :
    (0x41 < 256 ∧ ¬ (0x82 ≤ 0x41 ∧ 0x41 ≤ 0xBF)) ∧
    readLength true (newParser [0x41, 0x02, 0x07] [] none) =
      (.ok (258, -1), (newParser [0x41, 0x02, 0x07] [] none).advance true [0x41, 0x02] [0x07]) :=
  ⟨by decide,
   (readLength_decodes true (newParser [0x41, 0x02, 0x07] [] none) 0x41 [0x02, 0x07]
      (by decide) (by decide) rfl).2.1 (by decide) 0x02 [0x07] rfl⟩

/-! ## Reading changes only the stream and the capture buffer -/

theorem reads_refl (save : Bool) (p : Parser) : Reads save p p :=
  ⟨[], [], by simp, by simp, fun _ => rfl⟩

theorem reads_trans {save : Bool} {a b c : Parser} (h1 : Reads save a b) (h2 : Reads save b c) :
    Reads save a c := by
  obtain ⟨c1, w1, hr1, hq1, hs1⟩ := h1
  obtain ⟨c2, w2, hr2, hq2, hs2⟩ := h2
  refine ⟨c1 ++ c2, w1 ++ w2, ?_, ?_, ?_⟩
  · rw [hr1, hr2, List.append_assoc]
  · rw [hq2, hq1]
    simp
  · intro hs
    rw [hs1 hs, hs2 hs]
    rfl

theorem reads_weaken {save : Bool} {a b : Parser} (h : Reads false a b) : Reads save a b := by
  obtain ⟨c1, w1, hr1, hq1, hs1⟩ := h
  exact ⟨c1, w1, hr1, hq1, fun _ => hs1 rfl⟩

theorem always_bind {α β : Type} (R : Parser → Parser → Prop)
    (hT : ∀ a b c, R a b → R b c → R a c) {m : M α} {f : α → M β}
    (hm : Always R m) (hf : ∀ a, Always R (f a)) : Always R (m >>= f) := by
  intro p
  rw [bind_apply]
  have h1 := hm p
  rcases h : m p with ⟨r, p1⟩
  rw [h] at h1
  cases r with
  | ok a => exact hT _ _ _ h1 (hf a p1)
  | error e => exact h1

theorem reads_bind {α β : Type} {save : Bool} {m : M α} {f : α → M β}
    (hm : Always (Reads save) m) (hf : ∀ a, Always (Reads save) (f a)) :
    Always (Reads save) (m >>= f) :=
  always_bind (Reads save) (fun _ _ _ h1 h2 => reads_trans h1 h2) hm hf

theorem reads_pure {α : Type} (save : Bool) (a : α) : Always (Reads save) (pure a : M α) :=
  fun p => reads_refl save p

theorem reads_fail {α : Type} (save : Bool) (e : Err) : Always (Reads save) (fail e : M α) :=
  fun p => reads_refl save p

theorem reads_liftE {α : Type} (save : Bool) (r : Except Err α) : Always (Reads save) (liftE r) :=
  fun p => reads_refl save p

theorem reads_readByte (save : Bool) : Always (Reads save) readByte := by
  intro p
  unfold readByte
  cases h : p.reader with
  | nil => exact reads_refl save p
  | cons b rest => exact ⟨[b], [], by simp [h], by simp, fun _ => rfl⟩

theorem reads_safeRead (save : Bool) (n : Nat) : Always (Reads save) (safeRead n) := by
  intro p
  unfold safeRead
  split
  · exact ⟨p.reader.take n, [], by simp, by simp, fun _ => rfl⟩
  · split
    · exact reads_refl save p
    · exact ⟨p.reader, [], by simp, by simp, fun _ => rfl⟩

theorem reads_commandWrite (save : Bool) (data : Bytes) :
    Always (Reads save) (commandWrite save data) := by
  intro p
  unfold commandWrite
  cases save
  · exact reads_refl false p
  · exact ⟨[], data, by simp, by simp, by simp⟩

theorem reads_mono {α : Type} {save : Bool} {m : M α} (h : Always (Reads false) m) :
    Always (Reads save) m := fun p => reads_weaken (h p)

theorem reads_readLength (save : Bool) : Always (Reads save) (readLength save) := by
  unfold readLength
  refine reads_bind (reads_readByte save) (fun pfx => ?_)
  refine reads_bind (reads_commandWrite save _) (fun _ => ?_)
  simp only []
  split_ifs
  · exact reads_pure _ _
  · refine reads_bind (reads_readByte save) (fun d => ?_)
    refine reads_bind (reads_commandWrite save _) (fun _ => ?_)
    exact reads_pure _ _
  · refine reads_bind (reads_safeRead save _) (fun d => ?_)
    refine reads_bind (reads_commandWrite save _) (fun _ => ?_)
    refine reads_bind (reads_liftE save _) (fun _ => ?_)
    exact reads_pure _ _
  · refine reads_bind (reads_safeRead save _) (fun d => ?_)
    refine reads_bind (reads_commandWrite save _) (fun _ => ?_)
    refine reads_bind (reads_liftE save _) (fun _ => ?_)
    exact reads_pure _ _
  · exact reads_fail _ _
  · exact reads_pure _ _
  · exact reads_fail _ _

theorem reads_copyString (save : Bool) : Always (Reads save) (copyString save) := by
  unfold copyString
  refine reads_bind (reads_readLength save) (fun x => ?_)
  obtain ⟨length, encoding⟩ := x
  simp only []
  split_ifs
  · refine reads_bind (reads_safeRead save _) (fun d => ?_)
    exact reads_commandWrite save _
  · refine reads_bind (reads_safeRead save _) (fun d => ?_)
    exact reads_commandWrite save _
  · refine reads_bind (reads_readLength save) (fun x => ?_)
    obtain ⟨clength, _⟩ := x
    refine reads_bind (reads_readLength save) (fun x => ?_)
    refine reads_bind (reads_safeRead save _) (fun d => ?_)
    exact reads_commandWrite save _
  · exact reads_fail _ _

theorem reads_readString (save : Bool) : Always (Reads save) (readString save) := by
  unfold readString
  refine reads_bind (reads_mono (reads_readLength false)) (fun x => ?_)
  obtain ⟨length, encoding⟩ := x
  simp only []
  split_ifs
  · refine reads_bind (reads_safeRead save _) (fun d => ?_)
    refine reads_bind (reads_commandWrite save _) (fun _ => ?_)
    exact reads_pure _ _
  · refine reads_bind (reads_safeRead save _) (fun d => ?_)
    refine reads_bind (reads_commandWrite save _) (fun _ => ?_)
    exact reads_pure _ _
  · refine reads_bind (reads_readLength save) (fun x => ?_)
    obtain ⟨clength, _⟩ := x
    refine reads_bind (reads_readLength save) (fun x => ?_)
    obtain ⟨ulength, _⟩ := x
    refine reads_bind (reads_safeRead save _) (fun d => ?_)
    refine reads_bind (reads_commandWrite save _) (fun _ => ?_)
    exact reads_liftE _ _
  · exact reads_fail _ _

theorem reads_loopN (save : Bool) (body : M Unit) (h : Always (Reads save) body) (n : Nat) :
    Always (Reads save) (loopN body n) := by
  induction n with
  | zero => exact reads_pure _ _
  | succ n ih =>
    unfold loopN
    exact reads_bind h (fun _ => ih)

/-! ## The command assembler -/


theorem leBytes_length (n v : Nat) : (leBytes n v).length = n := by
  induction n generalizing v with
  | zero => rfl
  | succ n ih => simp [leBytes, ih]

theorem leValue_leBytes (n v : Nat) : leValue (leBytes n v) = v % 256 ^ n := by
  induction n generalizing v with
  | zero => simp [leBytes, leValue, Nat.mod_one]
  | succ n ih =>
    simp only [leBytes, leValue, ih]
    rw [pow_succ, Nat.mul_comm (256 ^ n) 256, Nat.mod_mul]

theorem framed_wellFramed (env : Env) (c v : Bytes) (hv : v.length = 2)
    (hcrc : ∀ b, env.CRC64Update 0 b < 2 ^ 64) : WellFramed env v (framed env c v) := by
  have hlen : (LittleEndian_PutUint64 (env.CRC64Update 0 (c ++ v))).length = 8 :=
    leBytes_length 8 _
  have h1 : withoutLast 8 (framed env c v) = c ++ v := by
    unfold withoutLast framed
    rw [List.length_append, hlen, Nat.add_sub_cancel, List.take_left]
  have h2 : lastBytes 8 (framed env c v) = LittleEndian_PutUint64 (env.CRC64Update 0 (c ++ v)) := by
    unfold lastBytes framed
    rw [List.length_append, hlen, Nat.add_sub_cancel, List.drop_left]
  refine ⟨?_, ?_⟩
  · rw [h1, h2]
    unfold LittleEndian_PutUint64
    rw [leValue_leBytes]
    exact (Nat.mod_eq_of_lt (hcrc _)).symm
  · rw [h1]
    unfold lastBytes
    rw [List.length_append, hv, Nat.add_sub_cancel, List.drop_left]

/-- C5: with `SkipRDB` unset, `keep` succeeds and sends exactly one command;
its arguments are `RESTORE`, the key, the decimal expiry and the framed
payload, followed by `REPLACE` exactly when `Replace` is set, so the command
has 5 arguments with `Replace` and 4 without. -/
theorem keep_sends_one_restore (env : Env) (p : Parser) (hskip : env.SkipRDB = false) :
    (keep env p).1 = .ok () ∧
    ∃ cmd, (keep env p).2.output = p.output ++ [cmd] ∧
      cmd.Command = [restoreCommand, p.key, decimal p.expiry,
          framed env p.rawData p.rdbVersion16bit] ++ (if env.Replace then [replaceArg] else []) ∧
      (env.Replace = true → cmd.Command.length = 5) ∧
      (env.Replace = false → cmd.Command.length = 4) ∧
      restoreCommand = "RESTORE".toList.map Char.toNat ∧
      replaceArg = "REPLACE".toList.map Char.toNat := by
  rw [keep_eq]
  refine ⟨rfl, ?_⟩
  simp only [hskip, Bool.false_eq_true, if_false]
  refine ⟨_, rfl, ?_, ?_, ?_, by decide, by decide⟩
  · cases h : env.Replace <;> simp [mkCommand, h]
  · intro h
    simp [mkCommand, h]
  · intro h
    simp [mkCommand, h]

/-- C5 at a parser with key `k`, capture `00 01 76` and version 8. -/
theorem keep_sends_one_restore_witness :
    sampleEnv.SkipRDB = false ∧
    (keep sampleEnv sampleParser).1 = .ok () ∧
    ∃ cmd, (keep sampleEnv sampleParser).2.output = sampleParser.output ++ [cmd] ∧
      cmd.Command = [restoreCommand, sampleParser.key, decimal sampleParser.expiry,
          framed sampleEnv sampleParser.rawData sampleParser.rdbVersion16bit] ++
        (if sampleEnv.Replace then [replaceArg] else []) ∧
      (sampleEnv.Replace = true → cmd.Command.length = 5) ∧
      (sampleEnv.Replace = false → cmd.Command.length = 4) ∧
      restoreCommand = "RESTORE".toList.map Char.toNat ∧
      replaceArg = "REPLACE".toList.map Char.toNat :=
  ⟨rfl, keep_sends_one_restore sampleEnv sampleParser rfl⟩

theorem reads_zsetEntry : Always (Reads true) zsetEntry := by
  unfold zsetEntry
  refine reads_bind (reads_copyString true) (fun _ => ?_)
  refine reads_bind (reads_readByte true) (fun dlen => ?_)
  refine reads_bind (reads_commandWrite true _) (fun _ => ?_)
  split_ifs
  · refine reads_bind (reads_safeRead true _) (fun d => ?_)
    exact reads_commandWrite true _
  · exact reads_pure _ _

theorem reads_zset2Entry : Always (Reads true) zset2Entry := by
  unfold zset2Entry
  refine reads_bind (reads_copyString true) (fun _ => ?_)
  refine reads_bind (reads_safeRead true _) (fun d => ?_)
  refine reads_bind (reads_liftE true _) (fun _ => ?_)
  exact reads_pure _ _

theorem reads_readUnsigned (save : Bool) : Always (Reads save) (readUnsigned save) := by
  unfold readUnsigned
  refine reads_bind (reads_readLength save) (fun x => ?_)
  obtain ⟨val, _⟩ := x
  simp only []
  split_ifs
  · exact reads_fail _ _
  · refine reads_bind (reads_readLength save) (fun x => ?_)
    exact reads_pure _ _

theorem reads_readDouble : Always (Reads true) (readDouble true) := by
  unfold readDouble
  refine reads_bind (reads_readLength true) (fun x => ?_)
  obtain ⟨val, _⟩ := x
  simp only []
  split_ifs
  · exact reads_fail _ _
  · refine reads_bind (reads_safeRead true _) (fun d => ?_)
    refine reads_bind (reads_commandWrite true _) (fun _ => ?_)
    refine reads_bind (reads_liftE true _) (fun _ => ?_)
    exact reads_pure _ _

theorem reads_readStringBuffer (save : Bool) : Always (Reads save) (readStringBuffer save) := by
  unfold readStringBuffer
  refine reads_bind (reads_readLength save) (fun x => ?_)
  obtain ⟨val, _⟩ := x
  simp only []
  split_ifs
  · exact reads_fail _ _
  · refine reads_bind (reads_copyString save) (fun x => ?_)
    exact reads_pure _ _

theorem reads_bloomEntry : Always (Reads true) bloomEntry := by
  unfold bloomEntry
  refine reads_bind (reads_readUnsigned true) (fun _ => ?_)
  refine reads_bind reads_readDouble (fun _ => ?_)
  refine reads_bind (reads_readUnsigned true) (fun _ => ?_)
  refine reads_bind reads_readDouble (fun _ => ?_)
  refine reads_bind (reads_readUnsigned true) (fun _ => ?_)
  refine reads_bind (reads_readUnsigned true) (fun _ => ?_)
  refine reads_bind (reads_readStringBuffer true) (fun _ => ?_)
  refine reads_bind (reads_readUnsigned true) (fun _ => ?_)
  exact reads_pure _ _

theorem reads_cuckooEntry : Always (Reads true) cuckooEntry := by
  unfold cuckooEntry
  refine reads_bind (reads_readUnsigned true) (fun _ => ?_)
  refine reads_bind (reads_readStringBuffer true) (fun _ => ?_)
  exact reads_pure _ _

/-! ## What a copier does: read, then `keep` -/

theorem ewk_bind {α : Type} (env : Env) {m : M α} {f : α → M (Option State)}
    (hm : Always (Reads true) m) (hf : ∀ a, EndsWithKeep env (f a)) :
    EndsWithKeep env (m >>= f) := by
  intro p
  rw [bind_apply]
  have h1 := hm p
  rcases h : m p with ⟨r, p1⟩
  rw [h] at h1
  cases r with
  | error e => exact h1
  | ok a =>
    have h2 := hf a p1
    simp only []
    rcases h3 : f a p1 with ⟨r2, q⟩
    rw [h3] at h2
    cases r2 with
    | error e => exact reads_trans h1 h2
    | ok next =>
      obtain ⟨hn, mid, hmid, hq⟩ := h2
      exact ⟨hn, mid, reads_trans h1 hmid, hq⟩

theorem ewk_fail (env : Env) (e : Err) : EndsWithKeep env (fail e) :=
  fun p => reads_refl true p

theorem ewk_keep (env : Env) :
    EndsWithKeep env (keep env >>= fun _ => pure (some State.stateOp)) := by
  intro p
  rw [bind_apply, keep_eq]
  exact ⟨rfl, p, reads_refl true p, by rw [keep_eq]⟩

theorem ewk_stateCopyString (env : Env) : EndsWithKeep env (stateCopyString env) :=
  ewk_bind env (reads_copyString true) (fun _ => ewk_keep env)

theorem ewk_stateCopySetOrList (env : Env) : EndsWithKeep env (stateCopySetOrList env) :=
  ewk_bind env (reads_readLength true) (fun _ =>
    ewk_bind env (reads_loopN true _ (reads_copyString true) _) (fun _ => ewk_keep env))

theorem ewk_stateCopyQuicklist (env : Env) : EndsWithKeep env (stateCopyQuicklist env) :=
  ewk_bind env (reads_readLength true) (fun _ =>
    ewk_bind env (reads_loopN true _ (reads_copyString true) _) (fun _ => ewk_keep env))

theorem ewk_stateCopyHash (env : Env) : EndsWithKeep env (stateCopyHash env) :=
  ewk_bind env (reads_readLength true) (fun _ =>
    ewk_bind env (reads_loopN true _
      (reads_bind (reads_copyString true) (fun _ => reads_copyString true)) _)
      (fun _ => ewk_keep env))

theorem ewk_stateCopyZset (env : Env) : EndsWithKeep env (stateCopyZset env) :=
  ewk_bind env (reads_readLength true) (fun _ =>
    ewk_bind env (reads_loopN true _ reads_zsetEntry _) (fun _ => ewk_keep env))

theorem ewk_stateCopyZset2 (env : Env) : EndsWithKeep env (stateCopyZset2 env) :=
  ewk_bind env (reads_readLength true) (fun _ =>
    ewk_bind env (reads_loopN true _ reads_zset2Entry _) (fun _ => ewk_keep env))

theorem ewk_moduleEOF (env : Env) : EndsWithKeep env (moduleEOF env) := by
  unfold moduleEOF
  refine ewk_bind env (reads_readLength true) (fun x => ?_)
  obtain ⟨eof, _⟩ := x
  simp only []
  split_ifs
  · exact ewk_fail env _
  · exact ewk_keep env

theorem ewk_stateCopyBloomFilter (env : Env) : EndsWithKeep env (stateCopyBloomFilter env) := by
  unfold stateCopyBloomFilter
  refine ewk_bind env (reads_readUnsigned true) (fun _ => ?_)
  refine ewk_bind env (reads_readUnsigned true) (fun _ => ?_)
  refine ewk_bind env (reads_readUnsigned true) (fun _ => ?_)
  refine ewk_bind env (reads_readUnsigned true) (fun _ => ?_)
  refine ewk_bind env (reads_loopN true _ reads_bloomEntry _) (fun _ => ?_)
  exact ewk_moduleEOF env

theorem ewk_stateCopyCuckooFilter (env : Env) : EndsWithKeep env (stateCopyCuckooFilter env) := by
  unfold stateCopyCuckooFilter
  refine ewk_bind env (reads_readUnsigned true) (fun _ => ?_)
  refine ewk_bind env (reads_readUnsigned true) (fun _ => ?_)
  refine ewk_bind env (reads_readUnsigned true) (fun _ => ?_)
  refine ewk_bind env (reads_readUnsigned true) (fun _ => ?_)
  refine ewk_bind env (reads_readUnsigned true) (fun _ => ?_)
  refine ewk_bind env (reads_readUnsigned true) (fun _ => ?_)
  refine ewk_bind env (reads_readUnsigned true) (fun _ => ?_)
  refine ewk_bind env (reads_loopN true _ reads_cuckooEntry _) (fun _ => ?_)
  exact ewk_moduleEOF env

theorem ewk_stateCopyModule2 (env : Env) : EndsWithKeep env (stateCopyModule2 env) := by
  unfold stateCopyModule2
  refine ewk_bind env (reads_readLength true) (fun x => ?_)
  obtain ⟨length, _⟩ := x
  simp only []
  split_ifs
  · exact ewk_stateCopyBloomFilter env
  · exact ewk_stateCopyCuckooFilter env
  · exact ewk_fail env _

/-! ## The opcode dispatcher -/


theorem stateOp_nil (p : Parser) (hr : p.reader = []) : stateOp p = (.error .EOF, p) := by
  simp [stateOp, bind_apply, readByte, hr]

theorem copierOf_cases (op : Nat) (c : State) (hc : copierOf op = some c) :
    (op = 0 ∧ c = .stateCopyString) ∨ (op = 9 ∧ c = .stateCopyString) ∨
    (op = 11 ∧ c = .stateCopyString) ∨ (op = 10 ∧ c = .stateCopyString) ∨
    (op = 12 ∧ c = .stateCopyString) ∨ (op = 13 ∧ c = .stateCopyString) ∨
    (op = 1 ∧ c = .stateCopySetOrList) ∨ (op = 2 ∧ c = .stateCopySetOrList) ∨
    (op = 3 ∧ c = .stateCopyZset) ∨ (op = 5 ∧ c = .stateCopyZset2) ∨
    (op = 4 ∧ c = .stateCopyHash) ∨ (op = 7 ∧ c = .stateCopyModule2) ∨
    (op = 14 ∧ c = .stateCopyQuicklist) ∨ (op = 15 ∧ c = .stateCopyListpacks) := by
  unfold copierOf at hc
  simp only [rdbOpString, rdbOpZipmap, rdbOpIntset, rdbOpZiplist, rdbOpSortedSet, rdbOpHashmap,
    rdbOpList, rdbOpSet, rdbOpZset, rdbOpZset2, rdbOpHash, rdbOpModule2, rdbOpListQuicklist,
    rdbOpStreamListpacks] at hc
  split_ifs at hc <;> simp at hc <;> subst hc <;> simp <;> omega

theorem copierOf_isCopier (op : Nat) (c : State) (hc : copierOf op = some c) :
    c.isCopier = true := by
  rcases copierOf_cases op c hc with h | h | h | h | h | h | h | h | h | h | h | h | h | h <;>
    (rw [h.2]; rfl)

theorem stateOp_value (p : Parser) (op : Nat) (rest : Bytes) (c : State)
    (hr : p.reader = op :: rest) (hc : copierOf op = some c) :
    stateOp p = (.ok (some .stateKey),
      { p with reader := rest, currentOp := op, rawData := p.rawData ++ [op],
               valueState := some c }) := by
  simp only [stateOp, bind_apply, readByte_cons p op rest hr, commandWrite]
  simp only [rdbOpString, rdbOpZipmap, rdbOpIntset, rdbOpZiplist, rdbOpSortedSet, rdbOpHashmap,
    rdbOpList, rdbOpSet, rdbOpZset, rdbOpZset2, rdbOpHash, rdbOpModule2, rdbOpListQuicklist,
    rdbOpStreamListpacks, rdbOpDB, rdbOpExpirySec, rdbOpExpiryMSec, rdbOpAux, rdbOpResizeDB,
    rdbOpEOF]
  rcases copierOf_cases op c hc with h | h | h | h | h | h | h | h | h | h | h | h | h | h <;>
    (obtain ⟨h1, h2⟩ := h; subst h1 h2; simp [toKey])

theorem stateOp_other (p : Parser) (op : Nat) (rest : Bytes)
    (hr : p.reader = op :: rest) (hc : copierOf op = none) :
    stateOp p =
      match framingOf op with
      | some s => (.ok (some s), { p with reader := rest, currentOp := op })
      | none =>
        if op = rdbOpEOF then
          (.ok (some (if p.rdbVersion > 4 then State.stateCRC64 else State.statePadding)),
            { p with reader := rest, currentOp := op, rawData := p.rawData ++ [op] })
        else (.error .ErrUnsupportedOp,
            { p with reader := rest, currentOp := op, rawData := p.rawData ++ [op] }) := by
  simp only [stateOp, bind_apply, readByte_cons p op rest hr, commandWrite]
  unfold copierOf at hc
  unfold framingOf
  simp only [rdbOpString, rdbOpZipmap, rdbOpIntset, rdbOpZiplist, rdbOpSortedSet, rdbOpHashmap,
    rdbOpList, rdbOpSet, rdbOpZset, rdbOpZset2, rdbOpHash, rdbOpModule2, rdbOpListQuicklist,
    rdbOpStreamListpacks, rdbOpDB, rdbOpExpirySec, rdbOpExpiryMSec, rdbOpAux, rdbOpResizeDB,
    rdbOpEOF] at hc ⊢
  split_ifs at hc
  by_cases h1 : op = 254
  · subst h1; simp [pure_apply]
  by_cases h2 : op = 253
  · subst h2; simp [pure_apply]
  by_cases h3 : op = 252
  · subst h3; simp [pure_apply]
  by_cases h4 : op = 250
  · subst h4; simp [pure_apply]
  by_cases h5 : op = 251
  · subst h5; simp [pure_apply]
  by_cases h6 : op = 255
  · subst h6
    by_cases hv : 4 < p.rdbVersion <;> simp [pure_apply, hv]
  · simp_all [fail]

/-! ## One call of a state function -/

theorem leBytes_two_length (version : Int) : (LittleEndian_PutUint16 version).length = 2 :=
  leBytes_length 2 _

theorem reads_valueState {save : Bool} {p q : Parser} (h : Reads save p q) :
    q.valueState = p.valueState := by
  obtain ⟨c, w, _, hq, _⟩ := h
  rw [hq]

theorem summary_of_reads {env : Env} {st : State} {p q : Parser} {e : Err} {save : Bool}
    (h : Reads save p q) : Summary env st p (.error e) q := by
  obtain ⟨c, w, hr, hq, _⟩ := h
  refine ⟨q, ⟨c, w, hr, hq, by simp⟩, ?_⟩
  rfl

theorem summary_stateMagic (env : Env) (p : Parser) :
    Summary env .stateMagic p (stateMagic p).1 (stateMagic p).2 := by
  unfold stateMagic
  rw [bind_apply]
  have h1 := reads_safeRead false 5 p
  rcases h : safeRead 5 p with ⟨r, p1⟩
  rw [h] at h1
  cases r with
  | error e => exact summary_of_reads h1
  | ok signature =>
    simp only []
    split_ifs with hsig
    · exact summary_of_reads h1
    · rw [bind_apply]
      have h2 := reads_safeRead false 4 p1
      rcases h' : safeRead 4 p1 with ⟨r2, p2⟩
      rw [h'] at h2
      have h12 := reads_trans h1 h2
      cases r2 with
      | error e => exact summary_of_reads h12
      | ok versionRaw =>
        simp only []
        cases hA : Atoi versionRaw with
        | none => exact summary_of_reads h12
        | some version =>
          simp only []
          split_ifs with hv
          · exact summary_of_reads h12
          · exact ⟨rfl, p2, h12, rfl, leBytes_two_length version⟩

theorem summary_stateDB (env : Env) (p : Parser) :
    Summary env .stateDB p (stateDB p).1 (stateDB p).2 := by
  have hr : Always (Reads false) stateDB :=
    reads_bind (reads_readLength false) (fun _ => reads_pure _ _)
  have h1 := hr p
  rcases h : stateDB p with ⟨r, q⟩
  rw [h] at h1
  cases r with
  | error e => exact summary_of_reads h1
  | ok n =>
    refine ⟨?_, h1⟩
    unfold stateDB at h
    obtain ⟨a, p1, _, h2⟩ := (bind_ok_iff _ _ _ _ _).1 h
    rw [pure_apply] at h2
    simp only [Prod.mk.injEq, Except.ok.injEq] at h2
    exact h2.1.symm

theorem summary_stateResizeDB (env : Env) (p : Parser) :
    Summary env .stateResizeDB p (stateResizeDB p).1 (stateResizeDB p).2 := by
  have hr : Always (Reads false) stateResizeDB :=
    reads_bind (reads_readLength false) (fun _ =>
      reads_bind (reads_readLength false) (fun _ => reads_pure _ _))
  have h1 := hr p
  rcases h : stateResizeDB p with ⟨r, q⟩
  rw [h] at h1
  cases r with
  | error e => exact summary_of_reads h1
  | ok n =>
    refine ⟨?_, h1⟩
    unfold stateResizeDB at h
    obtain ⟨a, p1, _, h2⟩ := (bind_ok_iff _ _ _ _ _).1 h
    obtain ⟨b, p2, _, h3⟩ := (bind_ok_iff _ _ _ _ _).1 h2
    rw [pure_apply] at h3
    simp only [Prod.mk.injEq, Except.ok.injEq] at h3
    exact h3.1.symm

theorem summary_stateAux (env : Env) (p : Parser) :
    Summary env .stateAux p (stateAux p).1 (stateAux p).2 := by
  have hr : Always (Reads false) stateAux :=
    reads_bind (reads_readString false) (fun _ =>
      reads_bind (reads_readString false) (fun _ => reads_pure _ _))
  have h1 := hr p
  rcases h : stateAux p with ⟨r, q⟩
  rw [h] at h1
  cases r with
  | error e => exact summary_of_reads h1
  | ok n =>
    refine ⟨?_, h1⟩
    unfold stateAux at h
    obtain ⟨a, p1, _, h2⟩ := (bind_ok_iff _ _ _ _ _).1 h
    obtain ⟨b, p2, _, h3⟩ := (bind_ok_iff _ _ _ _ _).1 h2
    rw [pure_apply] at h3
    simp only [Prod.mk.injEq, Except.ok.injEq] at h3
    exact h3.1.symm

theorem summary_stateCRC64 (env : Env) (p : Parser) :
    Summary env .stateCRC64 p (stateCRC64 p).1 (stateCRC64 p).2 := by
  have hr : Always (Reads false) stateCRC64 :=
    reads_bind (reads_safeRead false 8) (fun _ => reads_pure _ _)
  have h1 := hr p
  rcases h : stateCRC64 p with ⟨r, q⟩
  rw [h] at h1
  cases r with
  | error e => exact summary_of_reads h1
  | ok n =>
    refine ⟨?_, h1⟩
    unfold stateCRC64 at h
    obtain ⟨a, p1, _, h2⟩ := (bind_ok_iff _ _ _ _ _).1 h
    rw [pure_apply] at h2
    simp only [Prod.mk.injEq, Except.ok.injEq] at h2
    exact h2.1.symm

theorem stateKey_eq (p : Parser) :
    stateKey p = match readString false p with
      | (.ok k, mid) => (.ok mid.valueState, { mid with key := k })
      | (.error e, mid) => (.error e, mid) := by
  unfold stateKey
  rw [bind_apply]
  rcases readString false p with ⟨r, mid⟩
  cases r <;> rfl

theorem summary_stateKey (env : Env) (p : Parser) :
    Summary env .stateKey p (stateKey p).1 (stateKey p).2 := by
  rw [stateKey_eq]
  have h1 := reads_readString false p
  rcases h : readString false p with ⟨r, mid⟩
  rw [h] at h1
  cases r with
  | error e => exact summary_of_reads h1
  | ok k => exact ⟨mid, h, h1, (reads_valueState h1), rfl⟩

theorem stateExpirySec_eq (env : Env) (p : Parser) :
    stateExpirySec env p = match safeRead 4 p with
      | (.ok expiry, mid) =>
        (match LittleEndian_Uint64 expiry with
          | .ok fd => (.ok (some .stateOp),
              { mid with expiry := mul64 (sub64 fd env.currentTimestamp) 1000 })
          | .error e => (.error e, mid))
      | (.error e, mid) => (.error e, mid) := by
  unfold stateExpirySec
  rw [bind_apply]
  rcases safeRead 4 p with ⟨r, mid⟩
  cases r with
  | error e => rfl
  | ok expiry =>
    simp only [bind_apply, liftE]
    cases LittleEndian_Uint64 expiry <;> rfl

theorem stateExpiryMSec_eq (env : Env) (p : Parser) :
    stateExpiryMSec env p = match safeRead 8 p with
      | (.ok expiry, mid) =>
        (match LittleEndian_Uint64 expiry with
          | .ok fc => (.ok (some .stateOp),
              { mid with expiry := if fc < mul64 env.currentTimestamp 1000 then 1
                                   else sub64 fc (mul64 env.currentTimestamp 1000) })
          | .error e => (.error e, mid))
      | (.error e, mid) => (.error e, mid) := by
  unfold stateExpiryMSec
  rw [bind_apply]
  rcases safeRead 8 p with ⟨r, mid⟩
  cases r with
  | error e => rfl
  | ok expiry =>
    simp only [bind_apply, liftE]
    cases LittleEndian_Uint64 expiry with
    | error e => rfl
    | ok fc =>
      simp only []
      split_ifs <;> rfl

theorem summary_stateExpirySec (env : Env) (p : Parser) :
    Summary env .stateExpirySec p (stateExpirySec env p).1 (stateExpirySec env p).2 := by
  rw [stateExpirySec_eq]
  have h1 := reads_safeRead false 4 p
  rcases h : safeRead 4 p with ⟨r, mid⟩
  rw [h] at h1
  cases r with
  | error e => exact summary_of_reads h1
  | ok expiry =>
    simp only []
    cases LittleEndian_Uint64 expiry with
    | error e => exact summary_of_reads h1
    | ok fd => exact ⟨rfl, mid, h1, rfl⟩

theorem summary_stateExpiryMSec (env : Env) (p : Parser) :
    Summary env .stateExpiryMSec p (stateExpiryMSec env p).1 (stateExpiryMSec env p).2 := by
  rw [stateExpiryMSec_eq]
  have h1 := reads_safeRead false 8 p
  rcases h : safeRead 8 p with ⟨r, mid⟩
  rw [h] at h1
  cases r with
  | error e => exact summary_of_reads h1
  | ok expiry =>
    simp only []
    cases LittleEndian_Uint64 expiry with
    | error e => exact summary_of_reads h1
    | ok fd => exact ⟨rfl, mid, h1, rfl⟩

theorem summary_stateOp (env : Env) (p : Parser) :
    Summary env .stateOp p (stateOp p).1 (stateOp p).2 := by
  cases hr : p.reader with
  | nil =>
    rw [stateOp_nil p hr]
    exact summary_of_reads (reads_refl true p)
  | cons op rest =>
    cases hc : copierOf op with
    | some c =>
      rw [stateOp_value p op rest c hr hc]
      exact ⟨op, rest, hr, Or.inl ⟨c, hc, rfl, rfl⟩⟩
    | none =>
      rw [stateOp_other p op rest hr hc]
      cases hf : framingOf op with
      | some s => exact ⟨op, rest, hr, Or.inr (Or.inl ⟨hc, s, hf, rfl, rfl⟩)⟩
      | none =>
        simp only []
        by_cases he : op = rdbOpEOF
        · rw [if_pos he]
          exact ⟨op, rest, hr, Or.inr (Or.inr ⟨hc, hf, he, rfl, rfl⟩)⟩
        · rw [if_neg he]
          exact ⟨{ p with reader := rest, rawData := p.rawData ++ [op] },
            ⟨[op], [op], by simp [hr], by simp, by simp⟩, rfl⟩

theorem summary_of_ewk {env : Env} (st : State) {m : M (Option State)}
    (h : EndsWithKeep env m) (hst : st.isCopier = true) (p : Parser) :
    Summary env st p (m p).1 (m p).2 := by
  have h1 := h p
  rcases hm : m p with ⟨r, q⟩
  rw [hm] at h1
  cases r with
  | error e => exact summary_of_reads h1
  | ok next =>
    cases st <;> first | exact h1 | exact absurd hst (by decide)

/-- Every call of a state function of the loop of `ParseRDB` is described by
`Summary`. -/
theorem callState_summary (env : Env) (st : State) (p : Parser) :
    Summary env st p (callState env st p).1 (callState env st p).2 := by
  cases st with
  | stateMagic => exact summary_stateMagic env p
  | stateOp => exact summary_stateOp env p
  | stateResizeDB => exact summary_stateResizeDB env p
  | stateAux => exact summary_stateAux env p
  | stateDB => exact summary_stateDB env p
  | stateExpirySec => exact summary_stateExpirySec env p
  | stateExpiryMSec => exact summary_stateExpiryMSec env p
  | stateKey => exact summary_stateKey env p
  | stateCopyString => exact summary_of_ewk .stateCopyString (ewk_stateCopyString env) rfl p
  | stateCopySetOrList => exact summary_of_ewk .stateCopySetOrList (ewk_stateCopySetOrList env) rfl p
  | stateCopyHash => exact summary_of_ewk .stateCopyHash (ewk_stateCopyHash env) rfl p
  | stateCopyZset => exact summary_of_ewk .stateCopyZset (ewk_stateCopyZset env) rfl p
  | stateCopyZset2 => exact summary_of_ewk .stateCopyZset2 (ewk_stateCopyZset2 env) rfl p
  | stateCopyQuicklist => exact summary_of_ewk .stateCopyQuicklist (ewk_stateCopyQuicklist env) rfl p
  | stateCopyListpacks => exact summary_of_ewk .stateCopyListpacks (ewk_fail env .notImp) rfl p
  | stateCopyModule2 => exact summary_of_ewk .stateCopyModule2 (ewk_stateCopyModule2 env) rfl p
  | stateCRC64 => exact summary_stateCRC64 env p
  | statePadding => exact ⟨rfl, rfl⟩

/-! ## The state functions follow the transition relation -/


theorem step_of_ok (env : Env) (st : State) (p : Parser) (next : Option State) (q : Parser)
    (h : callState env st p = (.ok next, q)) : Step env st p next q := by
  have hs := callState_summary env st p
  rw [h] at hs
  cases st with
  | stateMagic =>
    obtain ⟨hn, mid, hr, hq, hl⟩ := hs
    simp only [] at hq
    rw [hn, hq]
    exact Step.magic p mid _ _ hr hl
  | stateOp =>
    obtain ⟨op, rest, hr, h1 | h1 | h1⟩ := hs
    · obtain ⟨c, hc, hn, hq⟩ := h1
      simp only [] at hq hn
      rw [hn, hq]
      exact Step.opValue p op rest c hr hc
    · obtain ⟨hc, s, hf, hn, hq⟩ := h1
      simp only [] at hq hn
      rw [hn, hq]
      exact Step.opFraming p op rest s hr hc hf
    · obtain ⟨hc, hf, he, hn, hq⟩ := h1
      simp only [] at hq hn
      rw [hn, hq]
      exact Step.opEOF p op rest hr hc hf he
  | stateResizeDB =>
    obtain ⟨hn, hr⟩ := hs
    rw [hn]
    exact Step.skip _ p q (by simp) hr
  | stateAux =>
    obtain ⟨hn, hr⟩ := hs
    rw [hn]
    exact Step.skip _ p q (by simp) hr
  | stateDB =>
    obtain ⟨hn, hr⟩ := hs
    rw [hn]
    exact Step.skip _ p q (by simp) hr
  | stateExpirySec =>
    obtain ⟨hn, mid, hr, hq⟩ := hs
    simp only [] at hn hq
    rw [hn, hq]
    exact Step.expiry _ p mid _ (by simp) hr
  | stateExpiryMSec =>
    obtain ⟨hn, mid, hr, hq⟩ := hs
    simp only [] at hn hq
    rw [hn, hq]
    exact Step.expiry _ p mid _ (by simp) hr
  | stateKey =>
    obtain ⟨mid, hk, hr, hn, hq⟩ := hs
    simp only [] at hn hq hk
    rw [hn, hq]
    exact Step.key p mid _ hk hr
  | stateCRC64 =>
    obtain ⟨hn, hr⟩ := hs
    rw [hn]
    exact Step.crc p q hr
  | statePadding =>
    obtain ⟨hn, hq⟩ := hs
    simp only [] at hn hq
    rw [hn, hq]
    exact Step.padding p
  | stateCopyString =>
    obtain ⟨hn, mid, hr, hq⟩ := hs
    simp only [] at hn hq
    rw [hn, hq]
    exact Step.copier _ p mid rfl hr
  | stateCopySetOrList =>
    obtain ⟨hn, mid, hr, hq⟩ := hs
    simp only [] at hn hq
    rw [hn, hq]
    exact Step.copier _ p mid rfl hr
  | stateCopyHash =>
    obtain ⟨hn, mid, hr, hq⟩ := hs
    simp only [] at hn hq
    rw [hn, hq]
    exact Step.copier _ p mid rfl hr
  | stateCopyZset =>
    obtain ⟨hn, mid, hr, hq⟩ := hs
    simp only [] at hn hq
    rw [hn, hq]
    exact Step.copier _ p mid rfl hr
  | stateCopyZset2 =>
    obtain ⟨hn, mid, hr, hq⟩ := hs
    simp only [] at hn hq
    rw [hn, hq]
    exact Step.copier _ p mid rfl hr
  | stateCopyQuicklist =>
    obtain ⟨hn, mid, hr, hq⟩ := hs
    simp only [] at hn hq
    rw [hn, hq]
    exact Step.copier _ p mid rfl hr
  | stateCopyListpacks =>
    obtain ⟨hn, mid, hr, hq⟩ := hs
    simp only [] at hn hq
    rw [hn, hq]
    exact Step.copier _ p mid rfl hr
  | stateCopyModule2 =>
    obtain ⟨hn, mid, hr, hq⟩ := hs
    simp only [] at hn hq
    rw [hn, hq]
    exact Step.copier _ p mid rfl hr

theorem failed_of_error (env : Env) (st : State) (p : Parser) (e : Err) (q : Parser)
    (h : callState env st p = (.error e, q)) : Failed p q := by
  have hs := callState_summary env st p
  rw [h] at hs
  exact hs

/-! ## The loop of `ParseRDB` -/

theorem runStates_ok (env : Env) (fuel : Nat) (st : State) (p : Parser) (next : Option State)
    (q : Parser) (h : callState env st p = (.ok next, q)) :
    runStates env (fuel + 1) (some st) p = runStates env fuel next q := by
  simp only [runStates, h]

theorem runStates_error (env : Env) (fuel : Nat) (st : State) (p : Parser) (e : Err)
    (q : Parser) (h : callState env st p = (.error e, q)) :
    runStates env (fuel + 1) (some st) p = (.error e, q) := by
  simp only [runStates, h]

theorem runStates_none (env : Env) (fuel : Nat) (p : Parser) :
    runStates env fuel none p = (.ok (), p) := by
  cases fuel <;> rfl

theorem visited_ok (env : Env) (fuel : Nat) (st : State) (p : Parser) (next : Option State)
    (q : Parser) (h : callState env st p = (.ok next, q)) :
    visited env (fuel + 1) (some st) p = (st, p) :: visited env fuel next q := by
  simp only [visited, h]

theorem visited_error (env : Env) (fuel : Nat) (st : State) (p : Parser) (e : Err)
    (q : Parser) (h : callState env st p = (.error e, q)) :
    visited env (fuel + 1) (some st) p = [(st, p)] := by
  simp only [visited, h]

theorem visited_none (env : Env) (fuel : Nat) (p : Parser) :
    visited env fuel none p = [] := by
  cases fuel <;> rfl

/-- Induction over the loop of `ParseRDB`: a property of (fuel, state,
parser) that holds when the loop stops at once, and that is inherited from
the configuration after a successful call, holds always. -/
theorem run_induction (env : Env) (P : Nat → Option State → Parser → Prop)
    (hnone : ∀ fuel p, P fuel none p)
    (hzero : ∀ st p, P 0 (some st) p)
    (hfail : ∀ fuel st p e q, callState env st p = (.error e, q) → Failed p q →
      P (fuel + 1) (some st) p)
    (hstep : ∀ fuel st p next q, callState env st p = (.ok next, q) → Step env st p next q →
      P fuel next q → P (fuel + 1) (some st) p) :
    ∀ fuel st p, P fuel st p := by
  intro fuel
  induction fuel with
  | zero =>
    intro st p
    cases st with
    | none => exact hnone 0 p
    | some st => exact hzero st p
  | succ fuel ih =>
    intro st p
    cases st with
    | none => exact hnone _ p
    | some st =>
      rcases h : callState env st p with ⟨r, q⟩
      cases r with
      | error e => exact hfail fuel st p e q h (failed_of_error env st p e q h)
      | ok next => exact hstep fuel st p next q h (step_of_ok env st p next q h) (ih next q)

theorem reads_fields {save : Bool} {p q : Parser} (h : Reads save p q) :
    q.output = p.output ∧ q.counter = p.counter ∧ q.key = p.key ∧ q.expiry = p.expiry ∧
    q.rdbVersion = p.rdbVersion ∧ q.rdbVersion16bit = p.rdbVersion16bit ∧
    q.valueState = p.valueState ∧ q.currentOp = p.currentOp := by
  obtain ⟨c, w, _, hq, _⟩ := h
  rw [hq]
  simp

theorem reads_rawData_false {p q : Parser} (h : Reads false p q) : q.rawData = p.rawData := by
  obtain ⟨c, w, _, hq, hw⟩ := h
  rw [hq, hw rfl]
  simp

theorem reads_rawData_true {save : Bool} {p q : Parser} (h : Reads save p q) :
    ∃ w, q.rawData = p.rawData ++ w := by
  obtain ⟨c, w, _, hq, _⟩ := h
  exact ⟨w, by rw [hq]⟩

theorem failed_fields {p q : Parser} (h : Failed p q) :
    q.output = p.output ∧ q.counter = p.counter ∧ q.key = p.key ∧ q.expiry = p.expiry ∧
    q.rdbVersion = p.rdbVersion ∧ q.rdbVersion16bit = p.rdbVersion16bit ∧
    q.valueState = p.valueState := by
  obtain ⟨mid, hr, hq⟩ := h
  have hf := (reads_fields hr)
  rw [hq]
  simp only []
  exact ⟨hf.1, hf.2.1, hf.2.2.1, hf.2.2.2.1, hf.2.2.2.2.1, hf.2.2.2.2.2.1, hf.2.2.2.2.2.2.1⟩

/-! ## Every emitted payload carries a valid suffix -/


theorem framingOf_cases (op : Nat) (s : State) (h : framingOf op = some s) :
    (op = 254 ∧ s = .stateDB) ∨ (op = 253 ∧ s = .stateExpirySec) ∨
    (op = 252 ∧ s = .stateExpiryMSec) ∨ (op = 250 ∧ s = .stateAux) ∨
    (op = 251 ∧ s = .stateResizeDB) := by
  unfold framingOf at h
  simp only [rdbOpDB, rdbOpExpirySec, rdbOpExpiryMSec, rdbOpAux, rdbOpResizeDB] at h
  split_ifs at h <;> simp at h <;> subst h <;> simp <;> omega

theorem reads_eq {save : Bool} {p q : Parser} (h : Reads save p q) :
    ∃ rd w, q = { p with reader := rd, rawData := p.rawData ++ w } := by
  obtain ⟨c, w, _, hq, _⟩ := h
  exact ⟨q.reader, w, hq⟩

theorem reads_eq_false {p q : Parser} (h : Reads false p q) :
    ∃ rd, q = { p with reader := rd } := by
  obtain ⟨c, w, _, hq, hw⟩ := h
  refine ⟨q.reader, ?_⟩
  rw [hw rfl, List.append_nil] at hq
  exact hq

theorem keep_fields (env : Env) (p : Parser) :
    (keep env p).2.rdbVersion16bit = p.rdbVersion16bit ∧
    (keep env p).2.valueState = p.valueState ∧
    (keep env p).2.rawData = [] ∧ (keep env p).2.expiry = 0 ∧
    (keep env p).2.reader = p.reader ∧ (keep env p).2.key = p.key ∧
    (keep env p).2.currentOp = p.currentOp ∧ (keep env p).2.rdbVersion = p.rdbVersion := by
  rw [keep_eq]
  cases env.SkipRDB <;> simp

theorem keep_output (env : Env) (p : Parser) :
    (keep env p).2.output =
      if env.SkipRDB then p.output
      else p.output ++ [mkCommand env
        { p with rawData := framed env p.rawData p.rdbVersion16bit }] := by
  rw [keep_eq]
  cases env.SkipRDB <;> simp

theorem mkCommand_arg (env : Env) (p : Parser) :
    (mkCommand env p).arg 1 = p.key ∧ (mkCommand env p).arg 2 = decimal p.expiry ∧
    (mkCommand env p).arg 3 = p.rawData := by
  unfold mkCommand RedisCommand.arg
  cases env.Replace <;> simp

/-- The configurations of the loop once the header is read: the state is not
`stateMagic`, the version bytes are two, and `valueState` holds a copier. -/
theorem run_wellFramed (env : Env) (hcrc : ∀ b, env.CRC64Update 0 b < 2 ^ 64) :
    ∀ fuel st p, (st ≠ some .stateMagic ∧ p.rdbVersion16bit.length = 2 ∧
        (∀ c, p.valueState = some c → c.isCopier = true)) →
      ∃ cmds, (runStates env fuel st p).2.output = p.output ++ cmds ∧
        (runStates env fuel st p).2.rdbVersion16bit = p.rdbVersion16bit ∧
        ∀ c ∈ cmds, WellFramed env p.rdbVersion16bit (c.arg 3) := by
  apply run_induction env
  · intro fuel p _
    rw [runStates_none]
    exact ⟨[], by simp, rfl, by simp⟩
  · intro st p _
    exact ⟨[], by simp [runStates], rfl, by simp⟩
  · intro fuel st p e q h hf _
    rw [runStates_error env fuel st p e q h]
    exact ⟨[], by simp [(failed_fields hf).1], (failed_fields hf).2.2.2.2.2.1, by simp⟩
  · intro fuel st p next q h hs ih hinv
    rw [runStates_ok env fuel st p next q h]
    obtain ⟨hst, hlen, hvs⟩ := hinv
    cases hs with
    | magic _ mid version v16 hr hl => exact absurd rfl hst
    | opValue _ op rest c hr hc =>
      exact ih ⟨by simp, hlen, fun c2 h2 => by
        simp only [Option.some.injEq] at h2
        subst h2
        exact copierOf_isCopier op _ hc⟩
    | opFraming _ op rest s hr hc hf =>
      refine ih ⟨?_, hlen, hvs⟩
      rcases framingOf_cases op s hf with h1 | h1 | h1 | h1 | h1 <;> simp [h1.2]
    | opEOF _ op rest hr hc hf he =>
      refine ih ⟨?_, hlen, hvs⟩
      split_ifs <;> simp
    | skip _ _ _ hst2 hr =>
      obtain ⟨rd, w, rfl⟩ := (reads_eq hr)
      exact ih ⟨by simp, hlen, hvs⟩
    | expiry _ _ mid e hst2 hr =>
      obtain ⟨rd, w, rfl⟩ := (reads_eq hr)
      exact ih ⟨by simp, hlen, hvs⟩
    | key _ mid k hk hr =>
      obtain ⟨rd, w, rfl⟩ := (reads_eq hr)
      refine ih ⟨?_, hlen, hvs⟩
      intro hcontra
      have := hvs _ hcontra
      simp [State.isCopier] at this
    | copier _ _ mid hcop hr =>
      obtain ⟨rd, w, rfl⟩ := (reads_eq hr)
      have hk := keep_fields env { p with reader := rd, rawData := p.rawData ++ w }
      obtain ⟨cmds, h1, h2, h3⟩ := ih ⟨by simp, by rw [hk.1]; exact hlen,
        fun c hc => hvs c (by rw [← hc, hk.2.1])⟩
      rw [hk.1] at h2 h3
      rw [keep_output] at h1
      cases hskip : env.SkipRDB with
      | true =>
        rw [hskip] at h1
        exact ⟨cmds, h1, h2, h3⟩
      | false =>
        rw [hskip] at h1
        simp only [Bool.false_eq_true, if_false] at h1
        rw [List.append_assoc] at h1
        refine ⟨_, h1, h2, ?_⟩
        intro c hc
        rcases List.mem_append.1 hc with hc1 | hc1
        · rw [List.mem_singleton] at hc1
          rw [hc1, (mkCommand_arg env _).2.2]
          exact framed_wellFramed env _ _ hlen hcrc
        · exact h3 c hc1
    | crc _ _ hr =>
      obtain ⟨rd, w, rfl⟩ := (reads_eq hr)
      exact ih ⟨by simp, hlen, hvs⟩
    | padding _ => exact ih ⟨by simp, hlen, hvs⟩

/-! ## The checksum suffix (C1) -/


theorem ParseRDB_eq (env : Env) (input : Bytes) (out : List RedisCommand) (ctr : Option Nat) :
    ParseRDB env input out ctr =
      match callState env .stateMagic (newParser input out ctr) with
      | (.ok next, q) => runStates env (3 * input.length + 2) next q
      | (.error e, q) => (.error e, q) := rfl

/-- C1: `keep` builds the payload `c ++ v ++ LE64(CRC64Update(0, c ++ v))`
from the capture `c` and the two version bytes `v`; the checksum of that
payload without its last 8 bytes is the little-endian value of those 8
bytes, and the 2 bytes before them are `v`.  The same holds for argument 3
of every command `ParseRDB` emits, with the version bytes the parser
stored.  `CRC64Update` is any function with 64-bit results. -/
theorem keep_payload_framing (env : Env) (hcrc : ∀ b, env.CRC64Update 0 b < 2 ^ 64) :
    (∀ p : Parser, p.rdbVersion16bit.length = 2 →
      (keep env p).1 = .ok () ∧
      (env.SkipRDB = false → ∃ cmd, (keep env p).2.output = p.output ++ [cmd] ∧
        cmd.arg 3 = p.rawData ++ p.rdbVersion16bit ++
          LittleEndian_PutUint64 (env.CRC64Update 0 (p.rawData ++ p.rdbVersion16bit))) ∧
      WellFramed env p.rdbVersion16bit (p.rawData ++ p.rdbVersion16bit ++
          LittleEndian_PutUint64 (env.CRC64Update 0 (p.rawData ++ p.rdbVersion16bit)))) ∧
    (∀ (input : Bytes) (out : List RedisCommand) (ctr : Option Nat),
      ∃ cmds, (ParseRDB env input out ctr).2.output = out ++ cmds ∧
        ∀ c ∈ cmds, WellFramed env (ParseRDB env input out ctr).2.rdbVersion16bit (c.arg 3)) := by
  constructor
  · intro p hv
    refine ⟨by rw [keep_eq], ?_, framed_wellFramed env _ _ hv hcrc⟩
    intro hskip
    rw [keep_output, hskip]
    exact ⟨_, rfl, (mkCommand_arg env _).2.2⟩
  · intro input out ctr
    rw [ParseRDB_eq]
    rcases h : callState env .stateMagic (newParser input out ctr) with ⟨r, q⟩
    cases r with
    | error e =>
      have hf := failed_fields (failed_of_error env _ _ e q h)
      exact ⟨[], by simp [hf.1, newParser], by simp⟩
    | ok next =>
      have hs := step_of_ok env _ _ next q h
      cases hs with
      | magic _ mid version v16 hr hl =>
        have hf := (reads_fields hr)
        obtain ⟨cmds, h1, h2, h3⟩ := run_wellFramed env hcrc (3 * input.length + 2)
          (some .stateOp) { mid with rdbVersion := version, rdbVersion16bit := v16 }
          ⟨by simp, hl, fun c hc => by
            have h4 : mid.valueState = some c := hc
            rw [hf.2.2.2.2.2.2.1] at h4
            simp [newParser] at h4⟩
        refine ⟨cmds, ?_, ?_⟩
        · rw [h1]
          show mid.output ++ cmds = out ++ cmds
          rw [hf.1]
          rfl
        · rw [h2]
          exact h3
      | skip _ _ _ hst _ => simp at hst
      | expiry _ _ _ _ hst _ => simp at hst
      | copier _ _ _ hcop _ => simp [State.isCopier] at hcop

/-- C1 at the sample parser: capture `00 01 76`, version bytes `08 00`. -/
theorem keep_payload_framing_witness :
    (∀ b, sampleEnv.CRC64Update 0 b < 2 ^ 64) ∧
    WellFramed sampleEnv sampleParser.rdbVersion16bit
      (sampleParser.rawData ++ sampleParser.rdbVersion16bit ++
        LittleEndian_PutUint64
          (sampleEnv.CRC64Update 0 (sampleParser.rawData ++ sampleParser.rdbVersion16bit))) :=
  ⟨fun _ => Nat.mod_lt _ (by decide),
   ((keep_payload_framing sampleEnv (fun _ => Nat.mod_lt _ (by decide))).1 sampleParser rfl).2.2⟩

/-! ## Copying: what is consumed is what is captured -/

theorem copies_refl (p : Parser) : Copies p p :=
  ⟨[], by simp, by simp [Parser.advance]⟩

theorem copies_trans {a b c : Parser} (h1 : Copies a b) (h2 : Copies b c) : Copies a c := by
  obtain ⟨b1, hr1, hq1⟩ := h1
  obtain ⟨b2, hr2, hq2⟩ := h2
  refine ⟨b1 ++ b2, ?_, ?_⟩
  · rw [hr1, hr2, List.append_assoc]
  · rw [hq2, hq1]
    simp [Parser.advance]

theorem copies_bind {α β : Type} {m : M α} {f : α → M β}
    (hm : OnOk Copies m) (hf : ∀ a, OnOk Copies (f a)) : OnOk Copies (m >>= f) := by
  intro p b q h
  obtain ⟨a, p1, h1, h2⟩ := (bind_ok_iff m f p b q).1 h
  exact copies_trans (hm p a p1 h1) (hf a p1 b q h2)

theorem copies_pure {α : Type} (a : α) : OnOk Copies (pure a : M α) := by
  intro p b q h
  rw [pure_apply] at h
  simp only [Prod.mk.injEq] at h
  rw [← h.2]
  exact copies_refl p

theorem copies_fail {α : Type} (e : Err) : OnOk Copies (fail e : M α) := by
  intro p b q h
  simp [fail] at h

theorem copies_liftE {α : Type} (r : Except Err α) : OnOk Copies (liftE r) := by
  intro p b q h
  simp only [liftE, Prod.mk.injEq] at h
  rw [← h.2]
  exact copies_refl p

theorem copies_byte {β : Type} (f : Nat → M β) (hf : ∀ b, OnOk Copies (f b)) :
    OnOk Copies (readByte >>= fun b => commandWrite true [b] >>= fun _ => f b) := by
  intro p b q h
  obtain ⟨x, p1, h1, h2⟩ := (bind_ok_iff _ _ p b q).1 h
  obtain ⟨u, p2, h3, h4⟩ := (bind_ok_iff _ _ p1 b q).1 h2
  have hc := hf x p2 b q h4
  refine copies_trans ?_ hc
  unfold readByte at h1
  cases hr : p.reader with
  | nil => simp [hr] at h1
  | cons y rest =>
    simp only [hr, Prod.mk.injEq, Except.ok.injEq] at h1
    obtain ⟨hy, hp1⟩ := h1
    subst hy
    simp only [commandWrite, Bool.not_true, Bool.false_eq_true, if_false, Prod.mk.injEq] at h3
    rw [← h3.2, ← hp1]
    exact ⟨[y], by simp [hr], by simp [Parser.advance]⟩

theorem copies_bytes {β : Type} (n : Nat) (f : Bytes → M β) (hf : ∀ d, OnOk Copies (f d)) :
    OnOk Copies (safeRead n >>= fun d => commandWrite true d >>= fun _ => f d) := by
  intro p b q h
  obtain ⟨x, p1, h1, h2⟩ := (bind_ok_iff _ _ p b q).1 h
  obtain ⟨u, p2, h3, h4⟩ := (bind_ok_iff _ _ p1 b q).1 h2
  have hc := hf x p2 b q h4
  refine copies_trans ?_ hc
  unfold safeRead at h1
  split_ifs at h1 with hn he
  · simp only [Prod.mk.injEq, Except.ok.injEq] at h1
    obtain ⟨hx, hp1⟩ := h1
    simp only [commandWrite, Bool.not_true, Bool.false_eq_true, if_false, Prod.mk.injEq] at h3
    rw [← h3.2, ← hp1, ← hx]
    exact ⟨p.reader.take n, by simp, by simp [Parser.advance]⟩
  · simp at h1
  · simp at h1

theorem copies_readLength : OnOk Copies (readLength true) := by
  unfold readLength
  refine copies_byte _ (fun pfx => ?_)
  simp only []
  split_ifs
  · exact copies_pure _
  · exact copies_byte _ (fun d => copies_pure _)
  · exact copies_bytes _ _ (fun d => copies_bind (copies_liftE _) (fun _ => copies_pure _))
  · exact copies_bytes _ _ (fun d => copies_bind (copies_liftE _) (fun _ => copies_pure _))
  · exact copies_fail _
  · exact copies_pure _
  · exact copies_fail _

theorem copies_bytes_end (n : Nat) :
    OnOk Copies (safeRead n >>= fun d => commandWrite true d) := by
  have h := copies_bytes n (fun _ => (pure () : M Unit)) (fun _ => copies_pure _)
  intro p b q hq
  refine h p b q ?_
  rw [bind_apply] at hq ⊢
  rcases h1 : safeRead n p with ⟨r, p1⟩
  rw [h1] at hq
  cases r with
  | error e => exact hq
  | ok d =>
    simp only [] at hq ⊢
    rw [bind_apply]
    simp only [commandWrite, Bool.not_true, Bool.false_eq_true, if_false] at hq ⊢
    exact hq

theorem copies_copyString : OnOk Copies (copyString true) := by
  unfold copyString
  refine copies_bind copies_readLength (fun x => ?_)
  obtain ⟨length, encoding⟩ := x
  simp only []
  split_ifs
  · exact copies_bytes_end _
  · exact copies_bytes_end _
  · refine copies_bind copies_readLength (fun x => ?_)
    obtain ⟨clength, _⟩ := x
    refine copies_bind copies_readLength (fun x => ?_)
    exact copies_bytes_end _
  · exact copies_fail _

theorem copies_loopN (body : M Unit) (h : OnOk Copies body) (n : Nat) :
    OnOk Copies (loopN body n) := by
  induction n with
  | zero => exact copies_pure _
  | succ n ih =>
    unfold loopN
    exact copies_bind h (fun _ => ih)

theorem copies_zsetEntry : OnOk Copies zsetEntry := by
  unfold zsetEntry
  refine copies_bind copies_copyString (fun _ => ?_)
  refine copies_byte _ (fun dlen => ?_)
  split_ifs
  · exact copies_bytes_end _
  · exact copies_pure _

/-! ## The copiers capture what they consume (C2) -/


theorem ctk_bind {α : Type} (env : Env) {m : M α} {f : α → M (Option State)}
    (hm : OnOk Copies m) (hf : ∀ a, CopiesThenKeep env (f a)) :
    CopiesThenKeep env (m >>= f) := by
  intro p next q h
  obtain ⟨a, p1, h1, h2⟩ := (bind_ok_iff m f p next q).1 h
  obtain ⟨mid, hmid, hq⟩ := hf a p1 next q h2
  exact ⟨mid, copies_trans (hm p a p1 h1) hmid, hq⟩

theorem ctk_keep (env : Env) :
    CopiesThenKeep env (keep env >>= fun _ => pure (some State.stateOp)) := by
  intro p next q h
  rw [bind_apply, keep_eq] at h
  simp only [pure_apply, Prod.mk.injEq] at h
  refine ⟨p, copies_refl p, ?_⟩
  rw [keep_eq, ← h.2]

theorem ctk_unfold {env : Env} {m : M (Option State)} (h : CopiesThenKeep env m)
    (p q : Parser) (next : Option State) (hm : m p = (.ok next, q)) :
    ∃ bs, p.reader = bs ++ q.reader ∧ q = (keep env (p.advance true bs q.reader)).2 := by
  obtain ⟨mid, ⟨bs, hr, hmid⟩, hq⟩ := h p next q hm
  have hrd : q.reader = mid.reader := by rw [hq, (keep_fields env mid).2.2.2.2.1]
  rw [hrd]
  exact ⟨bs, hr, by rw [← hmid]; exact hq⟩

theorem readLength_C3 (p : Parser) (rest : Bytes) (hr : p.reader = 0xC3 :: rest) :
    readLength true p = (.ok (0, 3), p.advance true [0xC3] rest) := by
  have hk : (0xC3 &&& 0xC0) >>> 6 = 3 := by decide
  have he : toInt8 (0xC3 &&& 0x3F) = 3 := by decide
  simp only [readLength, bind_apply, readByte_cons p _ rest hr, commandWrite]
  simp [hk, he, rdbLen6Bit, rdbLen14bit, rdbLen32Bit, rdbLenEnc, pure_apply, Parser.advance]

/-- C2: when `copyString(true)` succeeds, and when one of the copiers
`stateCopyString`, `stateCopySetOrList`, `stateCopyHash`, `stateCopyZset`,
`stateCopyQuicklist` succeeds, the bytes appended to the capture buffer
(for a copier: before `keep` frames and empties it) are exactly the bytes
consumed from the stream, in order.  For an LZF-encoded string (prefix byte
C3) the captured bytes are the prefix byte, the two length prefixes `l1`,
`l2` as `readLength` consumed them, and the `clen` compressed bytes. -/
theorem copiers_capture_what_they_consume (env : Env) (p q : Parser) :
    (∀ a, copyString true p = (.ok a, q) →
      ∃ bs, p.reader = bs ++ q.reader ∧ q = p.advance true bs q.reader) ∧
    (∀ next, (stateCopyString env p = (.ok next, q) ∨ stateCopySetOrList env p = (.ok next, q) ∨
        stateCopyHash env p = (.ok next, q) ∨ stateCopyZset env p = (.ok next, q) ∨
        stateCopyQuicklist env p = (.ok next, q)) →
      ∃ bs, p.reader = bs ++ q.reader ∧ q = (keep env (p.advance true bs q.reader)).2) ∧
    (∀ rest a, p.reader = 0xC3 :: rest → copyString true p = (.ok a, q) →
      ∃ l1 l2 data clen e1 ulen e2,
        rest = l1 ++ (l2 ++ (data ++ q.reader)) ∧
        readLength true (p.advance true [0xC3] rest) =
          (.ok (clen, e1), p.advance true (0xC3 :: l1) (l2 ++ (data ++ q.reader))) ∧
        readLength true (p.advance true (0xC3 :: l1) (l2 ++ (data ++ q.reader))) =
          (.ok (ulen, e2), p.advance true (0xC3 :: (l1 ++ l2)) (data ++ q.reader)) ∧
        data.length = clen ∧
        q = p.advance true (0xC3 :: (l1 ++ (l2 ++ data))) q.reader) := by
  refine ⟨?_, ?_, ?_⟩
  · intro a h
    exact copies_copyString p a q h
  · intro next h
    have h1 : CopiesThenKeep env (stateCopyString env) :=
      ctk_bind env copies_copyString (fun _ => ctk_keep env)
    have h2 : CopiesThenKeep env (stateCopySetOrList env) :=
      ctk_bind env copies_readLength (fun _ =>
        ctk_bind env (copies_loopN _ copies_copyString _) (fun _ => ctk_keep env))
    have h3 : CopiesThenKeep env (stateCopyHash env) :=
      ctk_bind env copies_readLength (fun _ =>
        ctk_bind env (copies_loopN _
          (copies_bind copies_copyString (fun _ => copies_copyString)) _)
          (fun _ => ctk_keep env))
    have h4 : CopiesThenKeep env (stateCopyZset env) :=
      ctk_bind env copies_readLength (fun _ =>
        ctk_bind env (copies_loopN _ copies_zsetEntry _) (fun _ => ctk_keep env))
    have h5 : CopiesThenKeep env (stateCopyQuicklist env) :=
      ctk_bind env copies_readLength (fun _ =>
        ctk_bind env (copies_loopN _ copies_copyString _) (fun _ => ctk_keep env))
    rcases h with h | h | h | h | h
    · exact ctk_unfold h1 p q next h
    · exact ctk_unfold h2 p q next h
    · exact ctk_unfold h3 p q next h
    · exact ctk_unfold h4 p q next h
    · exact ctk_unfold h5 p q next h
  · intro rest a hr h
    unfold copyString at h
    rw [bind_apply, readLength_C3 p rest hr] at h
    simp only [] at h
    rw [if_pos trivial] at h
    obtain ⟨x1, p1, h1, h⟩ := (bind_ok_iff _ _ _ _ _).1 h
    obtain ⟨clen, e1⟩ := x1
    obtain ⟨x2, p2, h2, h⟩ := (bind_ok_iff _ _ _ _ _).1 h
    obtain ⟨ulen, e2⟩ := x2
    simp only [] at h
    obtain ⟨l1, hl1, hp1⟩ := copies_readLength _ _ _ h1
    obtain ⟨l2, hl2, hp2⟩ := copies_readLength _ _ _ h2
    obtain ⟨data, p3, h3, h4⟩ := (bind_ok_iff _ _ _ _ _).1 h
    have hd : data.length = clen ∧ p2.reader = data ++ p3.reader ∧
        p3 = { p2 with reader := p3.reader } := by
      unfold safeRead at h3
      split_ifs at h3 with hn he
      · simp only [Prod.mk.injEq, Except.ok.injEq] at h3
        rw [← h3.1, ← h3.2]
        simp [hn]
      · simp at h3
      · simp at h3
    have hq : q = p3.advance true data p3.reader := by
      simp only [commandWrite, Bool.not_true, Bool.false_eq_true, if_false, Prod.mk.injEq] at h4
      rw [← h4.2]
      rfl
    have hqr : q.reader = p3.reader := by rw [hq]; rfl
    have e1r : (p.advance true [0xC3] rest).reader = rest := rfl
    rw [e1r] at hl1
    rw [hd.2.1, ← hqr] at hl2
    rw [hl2] at hl1
    have hp1e : p1 = p.advance true (0xC3 :: l1) (l2 ++ (data ++ q.reader)) := by
      rw [hp1, hl2]
      simp [Parser.advance]
    have hp2e : p2 = p.advance true (0xC3 :: (l1 ++ l2)) (data ++ q.reader) := by
      rw [hp2, hp1e, hd.2.1, hqr]
      simp [Parser.advance]
    refine ⟨l1, l2, data, clen, e1, ulen, e2, hl1, ?_, ?_, hd.1, ?_⟩
    · rw [h1, hp1e]
    · rw [← hp1e, h2, hp2e]
    · rw [hq, hd.2.2, hp2e, ← hqr]
      simp [Parser.advance]

/-- C2 on an LZF-encoded string: `copyString(true)` succeeds and captures
the seven bytes it consumed. -/
theorem copiers_capture_what_they_consume_witness :
    copyString true lzfSampleParser =
      (.ok (), lzfSampleParser.advance true [0xC3, 0x04, 0x08, 0x01, 0x61, 0x61, 0x80] [0xFF]) ∧
    ∃ bs, lzfSampleParser.reader = bs ++ [0xFF] ∧
      lzfSampleParser.advance true [0xC3, 0x04, 0x08, 0x01, 0x61, 0x61, 0x80] [0xFF] =
        lzfSampleParser.advance true bs [0xFF] :=
  ⟨by decide!, (copiers_capture_what_they_consume sampleEnv lzfSampleParser
    (lzfSampleParser.advance true [0xC3, 0x04, 0x08, 0x01, 0x61, 0x61, 0x80] [0xFF])).1 ()
    (by decide!)⟩

/-! ## ZSet2: the score bytes are consumed and not captured (C4) -/

/-- C4, the code at the failing input: on a file with one ZSet2 record of one
entry the parse succeeds and consumes the whole file, and the emitted payload
is the opcode, the length prefix and the member string followed by the
suffix; the 8 score bytes 11 .. 18 the copier consumed are not in it. -/
theorem zset2_payload_lacks_score_bytes :
    (ParseRDB sampleEnv zset2File [] (some 0)).1 = .ok () ∧
    (ParseRDB sampleEnv zset2File [] (some 0)).2.reader = [] ∧
    (ParseRDB sampleEnv zset2File [] (some 0)).2.output.map (fun c => c.arg 3) =
      [framed sampleEnv [0x05, 0x01, 0x01, 0x61] [8, 0]] ∧
    zset2Entry { sampleParser with reader := [0x01, 0x61, 11, 12, 13, 14, 15, 16, 17, 18, 0xFF] } =
      (.ok (), { sampleParser with reader := [0xFF],
                                   rawData := sampleParser.rawData ++ [0x01, 0x61] }) := by
  decide!

/-! ## Expiry in milliseconds (C8) -/

/-- C8, the code at the failing inputs: when the 8 expiry bytes hold exactly
`1000 * t` for the clock value `t`, `stateExpiryMSec` sets the expiry to 0,
not to 1. -/
theorem stateExpiryMSec_zero_when_due (env : Env) (p : Parser) (bytes rest : Bytes)
    (hlen : bytes.length = 8) (hr : p.reader = bytes ++ rest)
    (ht : 1000 * env.currentTimestamp < 2 ^ 64)
    (he : leValue bytes = 1000 * env.currentTimestamp) :
    stateExpiryMSec env p = (.ok (some .stateOp), { p with reader := rest, expiry := 0 }) := by
  rw [stateExpiryMSec_eq]
  have h8 : safeRead 8 p = (.ok bytes, { p with reader := rest }) := by
    rw [← hlen]
    exact safeRead_append p bytes rest hr
  rw [h8]
  simp only [LittleEndian_Uint64, hlen, Nat.lt_irrefl, if_false]
  have ht2 : bytes.take 8 = bytes := by rw [← hlen]; exact List.take_length _
  rw [ht2, he]
  have hm : mul64 env.currentTimestamp 1000 = 1000 * env.currentTimestamp := by
    unfold mul64
    rw [Nat.mul_comm]
    exact Nat.mod_eq_of_lt ht
  rw [hm, if_neg (Nat.lt_irrefl _)]
  have hs : sub64 (1000 * env.currentTimestamp) (1000 * env.currentTimestamp) = 0 := by
    unfold sub64
    omega
  rw [hs]

/-- C8 at the clock value 1 s and the expiry bytes E8 03 00 .. 00 (1000 ms). -/
theorem stateExpiryMSec_zero_when_due_witness :
    (1000 * sampleEnv.currentTimestamp < 2 ^ 64 ∧
      leValue [0xE8, 0x03, 0, 0, 0, 0, 0, 0] = 1000 * sampleEnv.currentTimestamp) ∧
    stateExpiryMSec sampleEnv expiryMSecParser =
      (.ok (some .stateOp), { expiryMSecParser with reader := [0x00], expiry := 0 }) :=
  ⟨by decide, stateExpiryMSec_zero_when_due sampleEnv expiryMSecParser
    [0xE8, 0x03, 0, 0, 0, 0, 0, 0] [0x00] rfl rfl (by decide) (by decide)⟩

/-! ## Expiry in seconds (C9) -/

/-- C9, the code at the failing inputs: on every stream with at least 4
bytes `stateExpirySec` consumes 4 bytes and then panics, because it decodes
the 4-byte slice with the 8-byte `binary.LittleEndian.Uint64`; it sets no
expiry and does not continue with `stateOp`. -/
theorem stateExpirySec_panics (env : Env) (p : Parser) (h4 : 4 ≤ p.reader.length) :
    stateExpirySec env p =
      (.error .panicIndexOutOfRange, { p with reader := p.reader.drop 4 }) := by
  rw [stateExpirySec_eq]
  simp [safeRead, h4, LittleEndian_Uint64]

/-- C9 at the expiry bytes 02 00 00 00 and the clock value 1 s. -/
theorem stateExpirySec_panics_witness :
    4 ≤ expirySecParser.reader.length ∧
    stateExpirySec sampleEnv expirySecParser =
      (.error .panicIndexOutOfRange, { expirySecParser with reader := [0x00] }) :=
  ⟨by decide, stateExpirySec_panics sampleEnv expirySecParser (by decide)⟩

/-! ## The first byte of every payload (C3) -/

theorem run_skip_output (env : Env) (hskip : env.SkipRDB = true) :
    ∀ fuel st p, (runStates env fuel st p).2.output = p.output := by
  apply run_induction env
  · intro fuel p
    rw [runStates_none]
  · intro st p
    rfl
  · intro fuel st p e q h hf
    rw [runStates_error env fuel st p e q h]
    exact (failed_fields hf).1
  · intro fuel st p next q h hs ih
    rw [runStates_ok env fuel st p next q h, ih]
    cases hs with
    | magic _ mid version v16 hr hl => exact (reads_fields hr).1
    | opValue _ op rest c hr hc => rfl
    | opFraming _ op rest s hr hc hf => rfl
    | opEOF _ op rest hr hc hf he => rfl
    | skip _ _ _ hst2 hr => exact (reads_fields hr).1
    | expiry _ _ mid e hst2 hr => exact (reads_fields hr).1
    | key _ mid k hk hr => exact (reads_fields hr).1
    | copier _ _ mid hcop hr =>
      rw [keep_output, hskip]
      exact (reads_fields hr).1
    | crc _ _ hr => exact (reads_fields hr).1
    | padding _ => rfl

theorem valueOpAt_not_stateOp (st : State) (p : Parser) (h : st ≠ .stateOp) :
    valueOpAt (st, p) = none := by
  simp [valueOpAt, h]

theorem valueOpAt_value (p : Parser) (op : Nat) (rest : Bytes) (c : State)
    (hr : p.reader = op :: rest) (hc : copierOf op = some c) :
    valueOpAt (.stateOp, p) = some op := by
  simp [valueOpAt, hr, hc]

theorem valueOpAt_other (p : Parser) (op : Nat) (rest : Bytes)
    (hr : p.reader = op :: rest) (hc : copierOf op = none) :
    valueOpAt (.stateOp, p) = none := by
  simp [valueOpAt, hr, hc]

theorem captureInv_copier (c : State) (p : Parser) (hc : c.isCopier = true) :
    CaptureInv (some c) p ↔ p.rawData = [p.currentOp] := by
  cases c <;> simp [State.isCopier] at hc <;> simp [CaptureInv, State.isCopier]

theorem openOp_copier (c : State) (p : Parser) (hc : c.isCopier = true) :
    openOp (some c) p = [p.currentOp] := by
  cases c <;> simp [State.isCopier] at hc <;> simp [openOp, State.isCopier]

theorem framed_head (env : Env) (op : Nat) (w v : Bytes) :
    (framed env (op :: w) v).head? = some op := by
  simp [framed]

theorem run_firstBytes (env : Env) :
    ∀ fuel st p, CaptureInv st p →
      ∃ cmds, (runStates env fuel st p).2.output = p.output ++ cmds ∧
        cmds.map (fun c => (c.arg 3).head?) <+:
          (openOp st p ++ (visited env fuel st p).filterMap valueOpAt).map some ∧
        ∀ e ∈ visited env fuel st p, e.1 = .stateOp → e.2.rawData = [] := by
  apply run_induction env
  · intro fuel p _
    rw [runStates_none, visited_none]
    exact ⟨[], by simp, by simp, by simp⟩
  · intro st p _
    exact ⟨[], by simp [runStates], by simp, by simp [visited]⟩
  · intro fuel st p e q h hf hinv
    rw [runStates_error env fuel st p e q h, visited_error env fuel st p e q h]
    refine ⟨[], by simp [(failed_fields hf).1], by simp, ?_⟩
    intro e2 he2 hst
    rw [List.mem_singleton] at he2
    subst he2
    simp only [] at hst
    subst hst
    exact hinv
  · intro fuel st p next q h hs ih hinv
    rw [runStates_ok env fuel st p next q h, visited_ok env fuel st p next q h]
    cases hs with
    | magic _ mid version v16 hr hl =>
      obtain ⟨rd, rfl⟩ := (reads_eq_false hr)
      obtain ⟨cmds, h1, h2, h3⟩ := ih hinv
      refine ⟨cmds, h1, ?_, ?_⟩
      · simpa [valueOpAt, openOp, State.isCopier] using h2
      · intro e he hst
        rcases List.mem_cons.1 he with he1 | he1
        · subst he1
          simp at hst
        · exact h3 e he1 hst
    | opValue _ op rest c hr hc =>
      have hcop := copierOf_isCopier op c hc
      have hraw : p.rawData = [] := hinv
      obtain ⟨cmds, h1, h2, h3⟩ := ih (by
        show _ ∧ _
        exact ⟨by simp [hraw], c, rfl, hcop⟩)
      refine ⟨cmds, h1, ?_, ?_⟩
      · rw [List.filterMap_cons, valueOpAt_value p op rest c hr hc]
        simpa [openOp, State.isCopier] using h2
      · intro e he hst
        rcases List.mem_cons.1 he with he1 | he1
        · subst he1
          exact hraw
        · exact h3 e he1 hst
    | opFraming _ op rest s hr hc hf =>
      have hraw : p.rawData = [] := hinv
      have hs5 : s.isCopier = false ∧ s ≠ .stateKey ∧ s ≠ .stateCRC64 ∧ s ≠ .statePadding := by
        rcases framingOf_cases op s hf with h1 | h1 | h1 | h1 | h1 <;>
          (rw [h1.2]; simp [State.isCopier])
      obtain ⟨cmds, h1, h2, h3⟩ := ih (by
        rcases framingOf_cases op s hf with h1 | h1 | h1 | h1 | h1 <;>
          (rw [h1.2]; simpa [CaptureInv, State.isCopier] using hraw))
      refine ⟨cmds, h1, ?_, ?_⟩
      · rw [List.filterMap_cons, valueOpAt_other p op rest hr hc]
        have ho : openOp (some s) { p with reader := rest, currentOp := op } = [] := by
          rcases framingOf_cases op s hf with h1 | h1 | h1 | h1 | h1 <;>
            (rw [h1.2]; simp [openOp, State.isCopier])
        rw [ho] at h2
        simpa [openOp, State.isCopier] using h2
      · intro e he hst
        rcases List.mem_cons.1 he with he1 | he1
        · subst he1
          exact hraw
        · exact h3 e he1 hst
    | opEOF _ op rest hr hc hf he =>
      have hraw : p.rawData = [] := hinv
      obtain ⟨cmds, h1, h2, h3⟩ := ih (by
        split_ifs <;> simp [CaptureInv])
      refine ⟨cmds, h1, ?_, ?_⟩
      · rw [List.filterMap_cons, valueOpAt_other p op rest hr hc]
        have ho : openOp (some (if p.rdbVersion > 4 then State.stateCRC64 else State.statePadding))
            { p with reader := rest, currentOp := op, rawData := p.rawData ++ [op] } = [] := by
          split_ifs <;> simp [openOp, State.isCopier]
        rw [ho] at h2
        simpa [openOp, State.isCopier] using h2
      · intro e he hst
        rcases List.mem_cons.1 he with he1 | he1
        · subst he1
          exact hraw
        · exact h3 e he1 hst
    | skip _ _ _ hst2 hr =>
      obtain ⟨rd, rfl⟩ := (reads_eq_false hr)
      have hraw : p.rawData = [] := by
        rcases hst2 with h1 | h1 | h1 <;> (subst h1; exact hinv)
      obtain ⟨cmds, h1, h2, h3⟩ := ih (by simpa [CaptureInv, State.isCopier] using hraw)
      refine ⟨cmds, h1, ?_, ?_⟩
      · rw [List.filterMap_cons, valueOpAt_not_stateOp _ _ (by
          rcases hst2 with h1 | h1 | h1 <;> simp [h1])]
        have ho : openOp (some st) p = [] := by
          rcases hst2 with h1 | h1 | h1 <;> (subst h1; simp [openOp, State.isCopier])
        rw [ho]
        simpa [openOp, State.isCopier] using h2
      · intro e he hst
        rcases List.mem_cons.1 he with he1 | he1
        · subst he1
          exact hraw
        · exact h3 e he1 hst
    | expiry _ _ mid e hst2 hr =>
      obtain ⟨rd, rfl⟩ := (reads_eq_false hr)
      have hraw : p.rawData = [] := by
        rcases hst2 with h1 | h1 <;> (subst h1; exact hinv)
      obtain ⟨cmds, h1, h2, h3⟩ := ih (by simpa [CaptureInv, State.isCopier] using hraw)
      refine ⟨cmds, h1, ?_, ?_⟩
      · rw [List.filterMap_cons, valueOpAt_not_stateOp _ _ (by
          rcases hst2 with h1 | h1 <;> simp [h1])]
        have ho : openOp (some st) p = [] := by
          rcases hst2 with h1 | h1 <;> (subst h1; simp [openOp, State.isCopier])
        rw [ho]
        simpa [openOp, State.isCopier] using h2
      · intro e2 he hst
        rcases List.mem_cons.1 he with he1 | he1
        · subst he1
          exact hraw
        · exact h3 e2 he1 hst
    | key _ mid k hk hr =>
      obtain ⟨rd, rfl⟩ := (reads_eq_false hr)
      obtain ⟨hraw, c, hc, hcop⟩ := hinv
      rw [hc] at ih ⊢
      obtain ⟨cmds, h1, h2, h3⟩ := ih ((captureInv_copier c _ hcop).2 hraw)
      refine ⟨cmds, h1, ?_, ?_⟩
      · rw [List.filterMap_cons, valueOpAt_not_stateOp _ _ (by simp)]
        rw [openOp_copier c _ hcop] at h2
        simpa [openOp] using h2
      · intro e he hst
        rcases List.mem_cons.1 he with he1 | he1
        · subst he1
          simp at hst
        · exact h3 e he1 hst
    | copier _ _ mid hcop hr =>
      obtain ⟨rd, w, rfl⟩ := (reads_eq hr)
      have hraw : p.rawData = [p.currentOp] := (captureInv_copier st p hcop).1 hinv
      have hk := keep_fields env { p with reader := rd, rawData := p.rawData ++ w }
      obtain ⟨cmds, h1, h2, h3⟩ := ih (by
        show (keep env _).2.rawData = []
        exact hk.2.2.1)
      have hvis : ∀ e ∈ (st, p) :: visited env fuel (some State.stateOp)
          (keep env { p with reader := rd, rawData := p.rawData ++ w }).2,
          e.1 = .stateOp → e.2.rawData = [] := by
        intro e he hst
        rcases List.mem_cons.1 he with he1 | he1
        · subst he1
          simp only [] at hst
          subst hst
          simp [State.isCopier] at hcop
        · exact h3 e he1 hst
      cases hskip : env.SkipRDB with
      | true =>
        have h0 := run_skip_output env hskip fuel (some State.stateOp)
          (keep env { p with reader := rd, rawData := p.rawData ++ w }).2
        rw [h0] at h1
        have hnil : cmds = [] := List.self_eq_append_right.1 h1
        subst hnil
        rw [keep_output, hskip] at h0
        exact ⟨[], by rw [h0]; simp, by simp, hvis⟩
      | false =>
        rw [keep_output, hskip] at h1
        simp only [Bool.false_eq_true, if_false] at h1
        rw [List.append_assoc] at h1
        refine ⟨_, h1, ?_, hvis⟩
        rw [List.filterMap_cons, valueOpAt_not_stateOp _ _ (by
          intro hc; subst hc; simp [State.isCopier] at hcop)]
        rw [openOp_copier st p hcop]
        simp only [List.singleton_append, List.map_cons]
        simp only [openOp, State.isCopier, List.nil_append, Bool.false_eq_true, if_false] at h2
        refine List.cons_prefix_cons.2 ⟨?_, h2⟩
        rw [(mkCommand_arg env _).2.2]
        show (framed env (p.rawData ++ w) p.rdbVersion16bit).head? = some p.currentOp
        rw [hraw]
        exact framed_head env _ _ _
    | crc _ _ hr =>
      obtain ⟨rd, rfl⟩ := (reads_eq_false hr)
      obtain ⟨cmds, h1, h2, h3⟩ := ih (by simp [CaptureInv])
      refine ⟨cmds, h1, ?_, ?_⟩
      · rw [List.filterMap_cons, valueOpAt_not_stateOp _ _ (by simp)]
        simpa [openOp, State.isCopier] using h2
      · intro e he hst
        rcases List.mem_cons.1 he with he1 | he1
        · subst he1
          simp at hst
        · exact h3 e he1 hst
    | padding _ =>
      obtain ⟨cmds, h1, h2, h3⟩ := ih (by simp [CaptureInv])
      refine ⟨cmds, h1, ?_, ?_⟩
      · rw [List.filterMap_cons, valueOpAt_not_stateOp _ _ (by simp)]
        simpa [openOp, State.isCopier] using h2
      · intro e he hst
        rcases List.mem_cons.1 he with he1 | he1
        · subst he1
          simp at hst
        · exact h3 e he1 hst

/-- C3: for every input, argument 3 of command `k` that `ParseRDB` emits
starts with the `k`-th value opcode `stateOp` read (the first bytes of the
payloads are a prefix of the list of these opcodes); and the capture buffer
is empty at every call of `stateOp`. -/
theorem payload_starts_with_value_opcode (env : Env) (input : Bytes)
    (out : List RedisCommand) (ctr : Option Nat) :
    ∃ cmds, (ParseRDB env input out ctr).2.output = out ++ cmds ∧
      cmds.map (fun c => (c.arg 3).head?) <+:
        ((parseTrace env input out ctr).filterMap valueOpAt).map some ∧
      ∀ e ∈ parseTrace env input out ctr, e.1 = .stateOp → e.2.rawData = [] := by
  have h := run_firstBytes env (3 * input.length + 3) (some .stateMagic)
    (newParser input out ctr) (by simp [CaptureInv, State.isCopier, newParser])
  simpa [openOp, State.isCopier, newParser, ParseRDB, parseTrace] using h

/-! ## One command for each value record, in order (C6) -/

theorem keyAt_not_stateKey (st : State) (p : Parser) (h : st ≠ .stateKey) :
    keyAt (st, p) = none := by
  simp [keyAt, h]

theorem keyAt_ok (p mid : Parser) (k : Bytes) (h : readString false p = (.ok k, mid)) :
    keyAt (.stateKey, p) = some k := by
  simp [keyAt, h]

theorem openKey_copier (c : State) (p : Parser) (hc : c.isCopier = true) :
    openKey (some c) p = [p.key] := by
  simp [openKey, hc]

theorem openKey_not_copier (c : State) (p : Parser) (hc : c.isCopier = false) :
    openKey (some c) p = [] := by
  simp [openKey, hc]

theorem run_keys (env : Env) (hskip : env.SkipRDB = false) :
    ∀ fuel st p, KeyInv st p → (∀ c, p.counter = some c → c < 2 ^ 64) →
      (runStates env fuel st p).1 = .ok () →
      ∃ cmds, (runStates env fuel st p).2.output = p.output ++ cmds ∧
        cmds.map (fun c => c.arg 1) = openKey st p ++ (visited env fuel st p).filterMap keyAt ∧
        cmds.length =
          (openOp st p).length + ((visited env fuel st p).filterMap valueOpAt).length ∧
        (runStates env fuel st p).2.counter =
          p.counter.map (fun c => (c + cmds.length) % 2 ^ 64) := by
  apply run_induction env
  · intro fuel p _ hctr _
    rw [runStates_none, visited_none]
    refine ⟨[], by simp, by simp [openKey], by simp [openOp], ?_⟩
    cases hc : p.counter with
    | none => rfl
    | some c =>
      have := hctr c hc
      simp only [Option.map_some', List.length_nil, Nat.add_zero, Option.some.injEq]
      omega
  · intro st p _ _ hok
    simp [runStates] at hok
  · intro fuel st p e q h hf _ _ hok
    rw [runStates_error env fuel st p e q h] at hok
    simp at hok
  · intro fuel st p next q h hs ih hinv hctr hok
    rw [runStates_ok env fuel st p next q h] at hok ⊢
    rw [visited_ok env fuel st p next q h]
    cases hs with
    | magic _ mid version v16 hr hl =>
      obtain ⟨rd, rfl⟩ := (reads_eq_false hr)
      obtain ⟨cmds, h1, h2, h3, h4⟩ := ih (by simp [KeyInv]) hctr hok
      refine ⟨cmds, h1, ?_, ?_, h4⟩
      · rw [List.filterMap_cons, keyAt_not_stateKey _ _ (by simp)]
        simpa [openKey, State.isCopier] using h2
      · rw [List.filterMap_cons, valueOpAt_not_stateOp _ _ (by simp)]
        simpa [openOp, State.isCopier] using h3
    | opValue _ op rest c hr hc =>
      have hcop := copierOf_isCopier op c hc
      obtain ⟨cmds, h1, h2, h3, h4⟩ := ih (fun _ => ⟨c, rfl, hcop⟩) hctr hok
      refine ⟨cmds, h1, ?_, ?_, h4⟩
      · rw [List.filterMap_cons, keyAt_not_stateKey _ _ (by simp)]
        simpa [openKey, State.isCopier] using h2
      · rw [List.filterMap_cons, valueOpAt_value p op rest c hr hc]
        simp only [openOp, State.isCopier, List.length_cons, List.length_nil, Bool.false_eq_true,
          if_false] at h3 ⊢
        omega
    | opFraming _ op rest s hr hc hf =>
      have hs5 : s.isCopier = false ∧ s ≠ .stateKey := by
        rcases framingOf_cases op s hf with h1 | h1 | h1 | h1 | h1 <;>
          (rw [h1.2]; simp [State.isCopier])
      obtain ⟨cmds, h1, h2, h3, h4⟩ := ih (fun hk => by
        simp only [Option.some.injEq] at hk
        exact absurd hk hs5.2) hctr hok
      have ho : openOp (some s) { p with reader := rest, currentOp := op } = [] := by
        rcases framingOf_cases op s hf with h1 | h1 | h1 | h1 | h1 <;>
          (rw [h1.2]; simp [openOp, State.isCopier])
      refine ⟨cmds, h1, ?_, ?_, h4⟩
      · rw [List.filterMap_cons, keyAt_not_stateKey _ _ (by simp)]
        rw [openKey_not_copier s _ hs5.1] at h2
        simpa [openKey, State.isCopier] using h2
      · rw [List.filterMap_cons, valueOpAt_other p op rest hr hc]
        rw [ho] at h3
        simpa [openOp, State.isCopier] using h3
    | opEOF _ op rest hr hc hf he =>
      have hn : ∀ s : State, s = .stateCRC64 ∨ s = .statePadding →
          s.isCopier = false ∧ s ≠ .stateKey := by
        intro s hs
        rcases hs with h1 | h1 <;> (rw [h1]; simp [State.isCopier])
      have hnext := hn (if p.rdbVersion > 4 then State.stateCRC64 else State.statePadding)
        (by split_ifs <;> simp)
      obtain ⟨cmds, h1, h2, h3, h4⟩ := ih (fun hk => by
        simp only [Option.some.injEq] at hk
        exact absurd hk hnext.2) hctr hok
      have ho : openOp (some (if p.rdbVersion > 4 then State.stateCRC64 else State.statePadding))
          { p with reader := rest, currentOp := op, rawData := p.rawData ++ [op] } = [] := by
        split_ifs <;> simp [openOp, State.isCopier]
      refine ⟨cmds, h1, ?_, ?_, h4⟩
      · rw [List.filterMap_cons, keyAt_not_stateKey _ _ (by simp)]
        rw [openKey_not_copier _ _ hnext.1] at h2
        simpa [openKey, State.isCopier] using h2
      · rw [List.filterMap_cons, valueOpAt_other p op rest hr hc]
        rw [ho] at h3
        simpa [openOp, State.isCopier] using h3
    | skip _ _ _ hst2 hr =>
      obtain ⟨rd, rfl⟩ := (reads_eq_false hr)
      obtain ⟨cmds, h1, h2, h3, h4⟩ := ih (by simp [KeyInv]) hctr hok
      have hst3 : st.isCopier = false ∧ st ≠ .stateKey ∧ st ≠ .stateOp := by
        rcases hst2 with h1 | h1 | h1 <;> (rw [h1]; simp [State.isCopier])
      have ho : openOp (some st) p = [] := by
        rcases hst2 with h1 | h1 | h1 <;> (subst h1; simp [openOp, State.isCopier])
      refine ⟨cmds, h1, ?_, ?_, h4⟩
      · rw [List.filterMap_cons, keyAt_not_stateKey _ _ hst3.2.1, openKey_not_copier _ _ hst3.1]
        simpa [openKey, State.isCopier] using h2
      · rw [List.filterMap_cons, valueOpAt_not_stateOp _ _ hst3.2.2, ho]
        simpa [openOp, State.isCopier] using h3
    | expiry _ _ mid e hst2 hr =>
      obtain ⟨rd, rfl⟩ := (reads_eq_false hr)
      obtain ⟨cmds, h1, h2, h3, h4⟩ := ih (by simp [KeyInv]) hctr hok
      have hst3 : st.isCopier = false ∧ st ≠ .stateKey ∧ st ≠ .stateOp := by
        rcases hst2 with h1 | h1 <;> (rw [h1]; simp [State.isCopier])
      have ho : openOp (some st) p = [] := by
        rcases hst2 with h1 | h1 <;> (subst h1; simp [openOp, State.isCopier])
      refine ⟨cmds, h1, ?_, ?_, h4⟩
      · rw [List.filterMap_cons, keyAt_not_stateKey _ _ hst3.2.1, openKey_not_copier _ _ hst3.1]
        simpa [openKey, State.isCopier] using h2
      · rw [List.filterMap_cons, valueOpAt_not_stateOp _ _ hst3.2.2, ho]
        simpa [openOp, State.isCopier] using h3
    | key _ mid k hk hr =>
      obtain ⟨rd, rfl⟩ := (reads_eq_false hr)
      obtain ⟨c, hc, hcop⟩ := hinv rfl
      rw [hc] at ih hok ⊢
      have hck : c ≠ .stateKey := by
        intro h; subst h; simp [State.isCopier] at hcop
      obtain ⟨cmds, h1, h2, h3, h4⟩ := ih (fun hk2 => by
        simp only [Option.some.injEq] at hk2
        exact absurd hk2 hck) hctr hok
      refine ⟨cmds, h1, ?_, ?_, h4⟩
      · rw [List.filterMap_cons, keyAt_ok p _ k hk, openKey_copier c _ hcop] at *
        simpa [openKey, State.isCopier] using h2
      · rw [List.filterMap_cons, valueOpAt_not_stateOp _ _ (by simp)]
        rw [openOp_copier c _ hcop] at h3
        simpa [openOp] using h3
    | copier _ _ mid hcop hr =>
      obtain ⟨rd, w, rfl⟩ := (reads_eq hr)
      have hk := keep_eq env { p with reader := rd, rawData := p.rawData ++ w }
      rw [hskip] at hk
      simp only [Bool.false_eq_true, if_false] at hk
      have hk2 : (keep env { p with reader := rd, rawData := p.rawData ++ w }).2 = _ :=
        congrArg Prod.snd hk
      rw [hk2] at ih hok ⊢
      have hctr2 : ∀ c, Option.map (fun c => (c + 1) % 2 ^ 64) p.counter = some c → c < 2 ^ 64 := by
        intro c hc
        cases hpc : p.counter with
        | none => simp [hpc] at hc
        | some c0 =>
          simp only [hpc, Option.map_some', Option.some.injEq] at hc
          rw [← hc]
          exact Nat.mod_lt _ (by decide)
      obtain ⟨cmds, h1, h2, h3, h4⟩ := ih (by simp [KeyInv]) hctr2 hok
      simp only [] at h1 h4
      rw [List.append_assoc] at h1
      have hst3 : st ≠ .stateKey ∧ st ≠ .stateOp := by
        constructor <;> (intro h; subst h; simp [State.isCopier] at hcop)
      refine ⟨_, h1, ?_, ?_, ?_⟩
      · rw [List.filterMap_cons, keyAt_not_stateKey _ _ hst3.1, openKey_copier st p hcop]
        simp only [List.singleton_append, List.map_cons, (mkCommand_arg env _).1]
        simpa [openKey, State.isCopier] using h2
      · rw [List.filterMap_cons, valueOpAt_not_stateOp _ _ hst3.2, openOp_copier st p hcop]
        simp only [openOp, State.isCopier, List.length_nil, Bool.false_eq_true, if_false,
          List.singleton_append, List.length_cons] at h3 ⊢
        omega
      · rw [h4]
        cases hpc : p.counter with
        | none => rfl
        | some c0 =>
          simp only [Option.map_some', List.singleton_append, List.length_cons, Option.some.injEq]
          omega
    | crc _ _ hr =>
      obtain ⟨rd, rfl⟩ := (reads_eq_false hr)
      obtain ⟨cmds, h1, h2, h3, h4⟩ := ih (by simp [KeyInv]) hctr hok
      refine ⟨cmds, h1, ?_, ?_, h4⟩
      · rw [List.filterMap_cons, keyAt_not_stateKey _ _ (by simp)]
        simpa [openKey, State.isCopier] using h2
      · rw [List.filterMap_cons, valueOpAt_not_stateOp _ _ (by simp)]
        simpa [openOp, State.isCopier] using h3
    | padding _ =>
      obtain ⟨cmds, h1, h2, h3, h4⟩ := ih (by simp [KeyInv]) hctr hok
      refine ⟨cmds, h1, ?_, ?_, h4⟩
      · rw [List.filterMap_cons, keyAt_not_stateKey _ _ (by simp)]
        simpa [openKey, State.isCopier] using h2
      · rw [List.filterMap_cons, valueOpAt_not_stateOp _ _ (by simp)]
        simpa [openOp, State.isCopier] using h3

/-- C6: when `ParseRDB` succeeds with `SkipRDB` unset, the keys (argument 1)
of the commands it emitted are, in order, the keys `stateKey` read; the
number of commands is the number of value opcodes `stateOp` read, and the
counter (a `uint64`, when there is one) has grown by that number. -/
theorem commands_follow_value_records (env : Env) (input : Bytes) (out : List RedisCommand)
    (ctr : Option Nat) (hskip : env.SkipRDB = false) (hctr : ∀ c, ctr = some c → c < 2 ^ 64)
    (hok : (ParseRDB env input out ctr).1 = .ok ()) :
    ∃ cmds, (ParseRDB env input out ctr).2.output = out ++ cmds ∧
      cmds.map (fun c => c.arg 1) = (parseTrace env input out ctr).filterMap keyAt ∧
      cmds.length = ((parseTrace env input out ctr).filterMap valueOpAt).length ∧
      (ParseRDB env input out ctr).2.counter = ctr.map (fun c => (c + cmds.length) % 2 ^ 64) := by
  have h := run_keys env hskip (3 * input.length + 3) (some .stateMagic)
    (newParser input out ctr) (by simp [KeyInv]) hctr hok
  simpa [openOp, openKey, State.isCopier, newParser, ParseRDB, parseTrace] using h

/-- C6 on a file with two string records, keys `k` and `k2`: the parse
succeeds, and two commands with these keys are emitted. -/
theorem commands_follow_value_records_witness :
    (sampleEnv.SkipRDB = false ∧ (∀ c, some 0 = some c → c < 2 ^ 64) ∧
      (ParseRDB sampleEnv twoKeysFile [] (some 0)).1 = .ok ()) ∧
    (parseTrace sampleEnv twoKeysFile [] (some 0)).filterMap keyAt = [[0x6b], [0x6b, 0x32]] ∧
    (parseTrace sampleEnv twoKeysFile [] (some 0)).filterMap valueOpAt = [0, 0] ∧
    ∃ cmds, (ParseRDB sampleEnv twoKeysFile [] (some 0)).2.output = [] ++ cmds ∧
      cmds.map (fun c => c.arg 1) =
        (parseTrace sampleEnv twoKeysFile [] (some 0)).filterMap keyAt ∧
      cmds.length = ((parseTrace sampleEnv twoKeysFile [] (some 0)).filterMap valueOpAt).length ∧
      (ParseRDB sampleEnv twoKeysFile [] (some 0)).2.counter =
        (some 0).map (fun c => (c + cmds.length) % 2 ^ 64) :=
  ⟨⟨rfl, fun c hc => by simp at hc; omega, by decide!⟩, by decide!, by decide!,
    commands_follow_value_records sampleEnv twoKeysFile [] (some 0) rfl
      (fun c hc => by simp at hc; omega) (by decide!)⟩

/-! ## The expiry is reset by `keep` (C7) -/

theorem opAt_not_stateOp (st : State) (p : Parser) (h : st ≠ .stateOp) :
    opAt (st, p) = none := by
  simp [opAt, h]

theorem opAt_cons (p : Parser) (op : Nat) (rest : Bytes) (hr : p.reader = op :: rest) :
    opAt (.stateOp, p) = some op := by
  simp [opAt, hr]

theorem zeroTtl_nil (flags : List Bool) : ZeroTtlWhere [] flags := by
  intro k c hk
  simp at hk

theorem zeroTtl_cons (c : RedisCommand) (cmds : List RedisCommand) (f : Bool)
    (flags : List Bool) (h0 : f = true → c.arg 2 = [0x30]) (h : ZeroTtlWhere cmds flags) :
    ZeroTtlWhere (c :: cmds) (f :: flags) := by
  intro k c2 hk hf
  cases k with
  | zero =>
    simp only [List.get?_cons_zero, Option.some.injEq] at hk hf
    subst hk
    exact h0 hf
  | succ k =>
    simp only [List.get?_cons_succ] at hk hf
    exact h k c2 hk hf

theorem decimal_zero : decimal 0 = [0x30] := by decide

theorem run_zeroTtl (env : Env) :
    ∀ fuel st p, ∀ seen : Bool, ExpiryInv st p seen →
      ∃ cmds, (runStates env fuel st p).2.output = p.output ++ cmds ∧
        ZeroTtlWhere cmds
          ((if recordOpen st then [!seen] else []) ++
            noExpiryBefore ((visited env fuel st p).filterMap opAt)
              (if recordOpen st then false else seen)) := by
  apply run_induction env
  · intro fuel p seen _
    rw [runStates_none]
    exact ⟨[], by simp, zeroTtl_nil _⟩
  · intro st p seen _
    exact ⟨[], by simp [runStates], zeroTtl_nil _⟩
  · intro fuel st p e q h hf seen _
    rw [runStates_error env fuel st p e q h]
    exact ⟨[], by simp [(failed_fields hf).1], zeroTtl_nil _⟩
  · intro fuel st p next q h hs ih seen hinv
    rw [runStates_ok env fuel st p next q h, visited_ok env fuel st p next q h]
    obtain ⟨hexp, hes, hkey⟩ := hinv
    cases hs with
    | magic _ mid version v16 hr hl =>
      obtain ⟨rd, rfl⟩ := (reads_eq_false hr)
      obtain ⟨cmds, h1, h2⟩ := ih seen ⟨hexp, by simp, by simp [KeyInv]⟩
      refine ⟨cmds, h1, ?_⟩
      rw [List.filterMap_cons, opAt_not_stateOp _ _ (by simp)]
      simpa [recordOpen, State.isCopier] using h2
    | opValue _ op rest c hr hc =>
      have hcop := copierOf_isCopier op c hc
      obtain ⟨cmds, h1, h2⟩ := ih seen ⟨hexp, by simp, fun _ => ⟨c, rfl, hcop⟩⟩
      refine ⟨cmds, h1, ?_⟩
      rw [List.filterMap_cons, opAt_cons p op rest hr]
      simp only [recordOpen, State.isCopier, Bool.false_eq_true, if_false, if_true,
        List.nil_append, noExpiryBefore, hc, Option.isSome_some] at h2 ⊢
      exact h2
    | opFraming _ op rest s hr hc hf =>
      have hs5 : recordOpen (some s) = false := by
        rcases framingOf_cases op s hf with h1 | h1 | h1 | h1 | h1 <;>
          (rw [h1.2]; simp [recordOpen, State.isCopier])
      have hsk : s ≠ .stateKey := by
        rcases framingOf_cases op s hf with h1 | h1 | h1 | h1 | h1 <;> (rw [h1.2]; simp)
      have hkey2 : KeyInv (some s) { p with reader := rest, currentOp := op } := fun hk => by
        simp only [Option.some.injEq] at hk
        exact absurd hk hsk
      by_cases hx : op = rdbOpExpirySec ∨ op = rdbOpExpiryMSec
      · obtain ⟨cmds, h1, h2⟩ := ih true ⟨by simp, by simp, hkey2⟩
        refine ⟨cmds, h1, ?_⟩
        rw [List.filterMap_cons, opAt_cons p op rest hr]
        rw [hs5] at h2
        simp only [recordOpen, State.isCopier, Bool.false_eq_true, if_false,
          List.nil_append, noExpiryBefore, hc, Option.isSome_none, hx, if_true] at h2 ⊢
        exact h2
      · have hse : ¬ (s = .stateExpirySec ∨ s = .stateExpiryMSec) := by
          rcases framingOf_cases op s hf with h1 | h1 | h1 | h1 | h1 <;>
            simp [h1.1, h1.2, rdbOpExpirySec, rdbOpExpiryMSec] at hx ⊢
        obtain ⟨cmds, h1, h2⟩ := ih seen ⟨hexp, fun h => by
          simp only [Option.some.injEq] at h
          exact absurd h hse, hkey2⟩
        refine ⟨cmds, h1, ?_⟩
        rw [List.filterMap_cons, opAt_cons p op rest hr]
        rw [hs5] at h2
        simp only [recordOpen, State.isCopier, Bool.false_eq_true, if_false,
          List.nil_append, noExpiryBefore, hc, Option.isSome_none, hx] at h2 ⊢
        exact h2
    | opEOF _ op rest hr hc hf he =>
      have hn : ∀ s : State, s = .stateCRC64 ∨ s = .statePadding →
          recordOpen (some s) = false ∧ s ≠ .stateKey ∧
            ¬ (s = .stateExpirySec ∨ s = .stateExpiryMSec) := by
        intro s hs
        rcases hs with h1 | h1 <;> (rw [h1]; simp [recordOpen, State.isCopier])
      have hnext := hn (if p.rdbVersion > 4 then State.stateCRC64 else State.statePadding)
        (by split_ifs <;> simp)
      have hx : ¬ (op = rdbOpExpirySec ∨ op = rdbOpExpiryMSec) := by
        rw [he]; decide
      obtain ⟨cmds, h1, h2⟩ := ih seen ⟨hexp, fun h => by
          simp only [Option.some.injEq] at h
          exact absurd h hnext.2.2, fun hk => by
          simp only [Option.some.injEq] at hk
          exact absurd hk hnext.2.1⟩
      refine ⟨cmds, h1, ?_⟩
      rw [List.filterMap_cons, opAt_cons p op rest hr]
      rw [hnext.1] at h2
      simp only [recordOpen, State.isCopier, Bool.false_eq_true, if_false,
        List.nil_append, noExpiryBefore, hc, Option.isSome_none, hx] at h2 ⊢
      exact h2
    | skip _ _ _ hst2 hr =>
      obtain ⟨rd, rfl⟩ := (reads_eq_false hr)
      obtain ⟨cmds, h1, h2⟩ := ih seen ⟨hexp, by simp, by simp [KeyInv]⟩
      have hst3 : recordOpen (some st) = false ∧ st ≠ .stateOp := by
        rcases hst2 with h1 | h1 | h1 <;> (rw [h1]; simp [recordOpen, State.isCopier])
      refine ⟨cmds, h1, ?_⟩
      rw [List.filterMap_cons, opAt_not_stateOp _ _ hst3.2, hst3.1]
      simpa [recordOpen, State.isCopier] using h2
    | expiry _ _ mid e hst2 hr =>
      obtain ⟨rd, rfl⟩ := (reads_eq_false hr)
      have hseen : seen = true := hes (by rcases hst2 with h1 | h1 <;> simp [h1])
      obtain ⟨cmds, h1, h2⟩ := ih seen ⟨by simp [hseen], by simp, by simp [KeyInv]⟩
      have hst3 : recordOpen (some st) = false ∧ st ≠ .stateOp := by
        rcases hst2 with h1 | h1 <;> (rw [h1]; simp [recordOpen, State.isCopier])
      refine ⟨cmds, h1, ?_⟩
      rw [List.filterMap_cons, opAt_not_stateOp _ _ hst3.2, hst3.1]
      simpa [recordOpen, State.isCopier] using h2
    | key _ mid k hk hr =>
      obtain ⟨rd, rfl⟩ := (reads_eq_false hr)
      obtain ⟨c, hc, hcop⟩ := hkey rfl
      rw [hc] at ih ⊢
      have hck : c ≠ .stateKey ∧ recordOpen (some c) = true ∧
          ¬ (c = .stateExpirySec ∨ c = .stateExpiryMSec) := by
        cases c <;> simp [State.isCopier] at hcop <;> simp [recordOpen, State.isCopier]
      obtain ⟨cmds, h1, h2⟩ := ih seen ⟨hexp, fun h => by
          simp only [Option.some.injEq] at h
          exact absurd h hck.2.2, fun hk2 => by
          simp only [Option.some.injEq] at hk2
          exact absurd hk2 hck.1⟩
      refine ⟨cmds, h1, ?_⟩
      rw [List.filterMap_cons, opAt_not_stateOp _ _ (by simp)]
      rw [hck.2.1] at h2
      simpa [recordOpen] using h2
    | copier _ _ mid hcop hr =>
      obtain ⟨rd, w, rfl⟩ := (reads_eq hr)
      have hk := keep_fields env { p with reader := rd, rawData := p.rawData ++ w }
      have hst3 : st ≠ .stateOp ∧ recordOpen (some st) = true := by
        cases st <;> simp [State.isCopier] at hcop <;> simp [recordOpen, State.isCopier]
      obtain ⟨cmds, h1, h2⟩ := ih false ⟨fun _ => hk.2.2.2.1, by simp, by simp [KeyInv]⟩
      simp only [recordOpen, State.isCopier, Bool.false_eq_true, if_false, List.nil_append] at h2
      rw [List.filterMap_cons, opAt_not_stateOp _ _ hst3.1]
      simp only [hst3.2, if_true, List.singleton_append]
      cases hskip : env.SkipRDB with
      | true =>
        have h0 := run_skip_output env hskip fuel (some State.stateOp)
          (keep env { p with reader := rd, rawData := p.rawData ++ w }).2
        rw [h0] at h1
        have hnil : cmds = [] := List.self_eq_append_right.1 h1
        subst hnil
        rw [keep_output, hskip] at h0
        exact ⟨[], by rw [h0]; simp, zeroTtl_nil _⟩
      | false =>
        rw [keep_output, hskip] at h1
        simp only [Bool.false_eq_true, if_false] at h1
        rw [List.append_assoc] at h1
        refine ⟨_, h1, ?_⟩
        refine zeroTtl_cons _ _ _ _ ?_ h2
        intro hns
        have hsf : seen = false := by simpa using hns
        rw [(mkCommand_arg env _).2.1]
        show decimal p.expiry = [0x30]
        rw [hexp hsf]
        exact decimal_zero
    | crc _ _ hr =>
      obtain ⟨rd, rfl⟩ := (reads_eq_false hr)
      obtain ⟨cmds, h1, h2⟩ := ih seen ⟨hexp, by simp, by simp [KeyInv]⟩
      refine ⟨cmds, h1, ?_⟩
      rw [List.filterMap_cons, opAt_not_stateOp _ _ (by simp)]
      simpa [recordOpen, State.isCopier] using h2
    | padding _ =>
      obtain ⟨cmds, h1, h2⟩ := ih seen ⟨hexp, by simp, by simp [KeyInv]⟩
      refine ⟨cmds, h1, ?_⟩
      rw [List.filterMap_cons, opAt_not_stateOp _ _ (by simp)]
      simpa [recordOpen, State.isCopier] using h2

/-- C7: after every call of `keep` the capture buffer is empty and the
expiry is 0, whatever `Replace` and `SkipRDB` are.  Hence among the commands
`ParseRDB` emits, command `k` has the ttl argument `0` whenever no expiry
opcode was read between the previous value opcode (or the start) and value
opcode `k`: an expiry opcode reaches the next value record only. -/
theorem keep_resets_capture_and_expiry (env : Env) :
    (∀ p : Parser, (keep env p).2.rawData = [] ∧ (keep env p).2.expiry = 0) ∧
    (∀ (input : Bytes) (out : List RedisCommand) (ctr : Option Nat),
      ∃ cmds, (ParseRDB env input out ctr).2.output = out ++ cmds ∧
        ∀ k c, cmds.get? k = some c →
          (noExpiryBefore ((parseTrace env input out ctr).filterMap opAt) false).get? k =
            some true →
          c.arg 2 = [0x30]) := by
  constructor
  · intro p
    exact ⟨(keep_fields env p).2.2.1, (keep_fields env p).2.2.2.1⟩
  · intro input out ctr
    have h := run_zeroTtl env (3 * input.length + 3) (some .stateMagic)
      (newParser input out ctr) false ⟨fun _ => rfl, by simp, by simp [KeyInv]⟩
    simpa [recordOpen, State.isCopier, newParser, ParseRDB, parseTrace, ZeroTtlWhere] using h

/-- C7 on a file with two string records, the first under an expiry opcode:
the first command carries the ttl `4000`, the second the ttl `0`. -/
theorem keep_resets_capture_and_expiry_witness :
    noExpiryBefore ((parseTrace sampleEnv twoKeysFile [] (some 0)).filterMap opAt) false =
      [false, true] ∧
    (ParseRDB sampleEnv twoKeysFile [] (some 0)).2.output.map (fun c => c.arg 2) =
      [[0x34, 0x30, 0x30, 0x30], [0x30]] ∧
    ∃ cmds, (ParseRDB sampleEnv twoKeysFile [] (some 0)).2.output = [] ++ cmds ∧
      ∀ k c, cmds.get? k = some c →
        (noExpiryBefore ((parseTrace sampleEnv twoKeysFile [] (some 0)).filterMap opAt)
          false).get? k = some true →
        c.arg 2 = [0x30] :=
  ⟨by decide!, by decide!,
    (keep_resets_capture_and_expiry sampleEnv).2 twoKeysFile [] (some 0)⟩

/-- C3 on a file with two string records: both payloads start with the
opcode 00 that `stateOp` read. -/
theorem payload_starts_with_value_opcode_witness :
    (parseTrace sampleEnv twoKeysFile [] (some 0)).filterMap valueOpAt = [0, 0] ∧
    (ParseRDB sampleEnv twoKeysFile [] (some 0)).2.output.map (fun c => (c.arg 3).head?) =
      [some 0, some 0] ∧
    ∃ cmds, (ParseRDB sampleEnv twoKeysFile [] (some 0)).2.output = [] ++ cmds ∧
      cmds.map (fun c => (c.arg 3).head?) <+:
        ((parseTrace sampleEnv twoKeysFile [] (some 0)).filterMap valueOpAt).map some ∧
      ∀ e ∈ parseTrace sampleEnv twoKeysFile [] (some 0), e.1 = .stateOp → e.2.rawData = [] :=
  ⟨by decide!, by decide!, payload_starts_with_value_opcode sampleEnv twoKeysFile [] (some 0)⟩

/-! ## The fuel of the loops is enough -/

theorem lzfLiteral_index (n : Nat) (inp : Bytes) (i o : Nat) (out : Bytes) (i2 o2 : Nat)
    (out2 : Bytes) (h : lzfLiteral n inp i o out = .ok (i2, o2, out2)) : i2 = i + n := by
  induction n generalizing i o out with
  | zero =>
    simp only [lzfLiteral, Except.ok.injEq, Prod.mk.injEq] at h
    omega
  | succ n ih =>
    unfold lzfLiteral at h
    split_ifs at h with h1 h2
    have := ih _ _ _ h
    omega

theorem lzfLiteral_noFuel (n : Nat) (inp : Bytes) (i o : Nat) (out : Bytes) :
    lzfLiteral n inp i o out ≠ .error .outOfFuel := by
  induction n generalizing i o out with
  | zero => simp [lzfLiteral]
  | succ n ih =>
    unfold lzfLiteral
    split_ifs
    · exact ih _ _ _
    · simp
    · simp

theorem lzfBackref_noFuel (n : Nat) (ref : Int) (o : Nat) (out : Bytes) :
    lzfBackref n ref o out ≠ .error .outOfFuel := by
  induction n generalizing ref o out with
  | zero => simp [lzfBackref]
  | succ n ih =>
    unfold lzfBackref
    split_ifs
    · exact ih _ _ _
    · simp
    · simp
    · simp

theorem lzfIn_noFuel (inp : Bytes) (i : Nat) : lzfIn inp i ≠ .error .outOfFuel := by
  unfold lzfIn
  split_ifs <;> simp

theorem lzfLoop_noFuel (fuel : Nat) (inp : Bytes) (inLen : Int) (i o : Nat) (out : Bytes)
    (h : inLen.toNat - i ≤ fuel) : lzfLoop fuel inp inLen i o out ≠ .error .outOfFuel := by
  induction fuel generalizing i o out with
  | zero =>
    unfold lzfLoop
    have : ¬ ((i : Int) < inLen) := by omega
    simp [this]
  | succ fuel ih =>
    unfold lzfLoop
    split_ifs with hlt
    · cases h1 : lzfIn inp i with
      | error e =>
        simp only []
        intro he
        cases he
        exact lzfIn_noFuel inp i h1
      | ok ctrl =>
        simp only []
        split_ifs with hc h7
        · cases h2 : lzfLiteral (ctrl + 1) inp (i + 1) o out with
          | error e =>
            simp only []
            intro he
            cases he
            exact lzfLiteral_noFuel _ _ _ _ _ h2
          | ok r =>
            obtain ⟨i2, o2, out2⟩ := r
            simp only []
            have := lzfLiteral_index _ _ _ _ _ _ _ _ h2
            exact ih _ _ _ (by omega)
        · cases h2 : lzfIn inp (i + 1) with
          | error e =>
            simp only []
            intro he
            cases he
            exact lzfIn_noFuel _ _ h2
          | ok ext =>
            simp only []
            cases h3 : lzfIn inp (i + 2) with
            | error e =>
              simp only []
              intro he
              cases he
              exact lzfIn_noFuel _ _ h3
            | ok d =>
              simp only []
              cases h4 : lzfBackref (ctrl >>> 5 + ext + 2)
                  ((o : Int) - (((ctrl &&& 0x1f) <<< 8 : Nat) : Int) - (d : Int) - 1) o out with
              | error e =>
                simp only []
                intro he
                cases he
                exact lzfBackref_noFuel _ _ _ _ h4
              | ok r =>
                obtain ⟨o2, out2⟩ := r
                simp only []
                exact ih _ _ _ (by omega)
        · cases h2 : lzfIn inp (i + 1) with
          | error e =>
            simp only []
            intro he
            cases he
            exact lzfIn_noFuel _ _ h2
          | ok d =>
            simp only []
            cases h4 : lzfBackref (ctrl >>> 5 + 2)
                ((o : Int) - (((ctrl &&& 0x1f) <<< 8 : Nat) : Int) - (d : Int) - 1) o out with
            | error e =>
              simp only []
              intro he
              cases he
              exact lzfBackref_noFuel _ _ _ _ h4
            | ok r =>
              obtain ⟨o2, out2⟩ := r
              simp only []
              exact ih _ _ _ (by omega)
    · simp

/-- The loop of `lzfDecompressNew` ends within `inLen` iterations:
`lzfDecompressNew` returns a slice or panics, it never runs out of fuel. -/
theorem lzfDecompressNew_noFuel (inp : Bytes) (inLen outLen : Int) :
    lzfDecompressNew inp inLen outLen ≠ .error .outOfFuel := by
  unfold lzfDecompressNew
  split_ifs
  · simp
  · exact lzfLoop_noFuel _ _ _ _ _ _ (by omega)

theorem nofuel_bind {α β : Type} {m : M α} {f : α → M β}
    (hm : NoFuelErr m) (hf : ∀ a, NoFuelErr (f a)) : NoFuelErr (m >>= f) := by
  intro p
  rw [bind_apply]
  have h1 := hm p
  rcases h : m p with ⟨r, p1⟩
  rw [h] at h1
  cases r with
  | ok a => exact hf a p1
  | error e =>
    intro he
    cases he
    exact h1 rfl

theorem nofuel_pure {α : Type} (a : α) : NoFuelErr (pure a : M α) := by
  intro p
  simp [pure_apply]

theorem nofuel_fail {α : Type} (e : Err) (he : e ≠ .outOfFuel) : NoFuelErr (fail e : M α) := by
  intro p h
  simp only [fail, Except.error.injEq] at h
  exact he h

theorem nofuel_liftE {α : Type} (r : Except Err α) (hr : r ≠ .error .outOfFuel) :
    NoFuelErr (liftE r) := by
  intro p
  exact hr

theorem nofuel_readByte : NoFuelErr readByte := by
  intro p
  unfold readByte
  cases p.reader <;> simp

theorem nofuel_safeRead (n : Nat) : NoFuelErr (safeRead n) := by
  intro p
  unfold safeRead
  split_ifs <;> simp

theorem nofuel_commandWrite (save : Bool) (data : Bytes) : NoFuelErr (commandWrite save data) := by
  intro p
  unfold commandWrite
  split_ifs <;> simp

theorem nofuel_update (f : Parser → Parser) :
    NoFuelErr (fun p => (.ok (), f p) : M Unit) := by
  intro p
  simp

theorem nofuel_keep (env : Env) : NoFuelErr (keep env) := by
  intro p
  rw [keep_eq]
  simp

theorem uint_noFuel (b : Bytes) :
    BigEndian_Uint32 b ≠ .error .outOfFuel ∧ BigEndian_Uint64 b ≠ .error .outOfFuel ∧
    LittleEndian_Uint64 b ≠ .error .outOfFuel := by
  unfold BigEndian_Uint32 BigEndian_Uint64 LittleEndian_Uint64
  refine ⟨?_, ?_, ?_⟩ <;> split_ifs <;> simp

theorem nofuel_readLength (save : Bool) : NoFuelErr (readLength save) := by
  unfold readLength
  refine nofuel_bind nofuel_readByte (fun pfx => ?_)
  refine nofuel_bind (nofuel_commandWrite save _) (fun _ => ?_)
  simp only []
  split_ifs
  · exact nofuel_pure _
  · refine nofuel_bind nofuel_readByte (fun d => ?_)
    refine nofuel_bind (nofuel_commandWrite save _) (fun _ => ?_)
    exact nofuel_pure _
  · refine nofuel_bind (nofuel_safeRead _) (fun d => ?_)
    refine nofuel_bind (nofuel_commandWrite save _) (fun _ => ?_)
    refine nofuel_bind (nofuel_liftE _ (uint_noFuel d).1) (fun _ => ?_)
    exact nofuel_pure _
  · refine nofuel_bind (nofuel_safeRead _) (fun d => ?_)
    refine nofuel_bind (nofuel_commandWrite save _) (fun _ => ?_)
    refine nofuel_bind (nofuel_liftE _ (uint_noFuel d).2.1) (fun _ => ?_)
    exact nofuel_pure _
  · exact nofuel_fail _ (by simp)
  · exact nofuel_pure _
  · exact nofuel_fail _ (by simp)

theorem nofuel_copyString (save : Bool) : NoFuelErr (copyString save) := by
  unfold copyString
  refine nofuel_bind (nofuel_readLength save) (fun x => ?_)
  obtain ⟨length, encoding⟩ := x
  simp only []
  split_ifs
  · refine nofuel_bind (nofuel_safeRead _) (fun d => ?_)
    exact nofuel_commandWrite save _
  · refine nofuel_bind (nofuel_safeRead _) (fun d => ?_)
    exact nofuel_commandWrite save _
  · refine nofuel_bind (nofuel_readLength save) (fun x => ?_)
    obtain ⟨clength, _⟩ := x
    refine nofuel_bind (nofuel_readLength save) (fun x => ?_)
    refine nofuel_bind (nofuel_safeRead _) (fun d => ?_)
    exact nofuel_commandWrite save _
  · exact nofuel_fail _ (by simp)

theorem nofuel_readString (save : Bool) : NoFuelErr (readString save) := by
  unfold readString
  refine nofuel_bind (nofuel_readLength false) (fun x => ?_)
  obtain ⟨length, encoding⟩ := x
  simp only []
  split_ifs
  · refine nofuel_bind (nofuel_safeRead _) (fun d => ?_)
    refine nofuel_bind (nofuel_commandWrite save _) (fun _ => ?_)
    exact nofuel_pure _
  · refine nofuel_bind (nofuel_safeRead _) (fun d => ?_)
    refine nofuel_bind (nofuel_commandWrite save _) (fun _ => ?_)
    exact nofuel_pure _
  · refine nofuel_bind (nofuel_readLength save) (fun x => ?_)
    obtain ⟨clength, _⟩ := x
    refine nofuel_bind (nofuel_readLength save) (fun x => ?_)
    obtain ⟨ulength, _⟩ := x
    refine nofuel_bind (nofuel_safeRead _) (fun d => ?_)
    refine nofuel_bind (nofuel_commandWrite save _) (fun _ => ?_)
    exact nofuel_liftE _ (lzfDecompressNew_noFuel _ _ _)
  · exact nofuel_fail _ (by simp)

theorem nofuel_loopN (body : M Unit) (h : NoFuelErr body) (n : Nat) :
    NoFuelErr (loopN body n) := by
  induction n with
  | zero => exact nofuel_pure _
  | succ n ih =>
    unfold loopN
    exact nofuel_bind h (fun _ => ih)

theorem nofuel_zsetEntry : NoFuelErr zsetEntry := by
  unfold zsetEntry
  refine nofuel_bind (nofuel_copyString true) (fun _ => ?_)
  refine nofuel_bind nofuel_readByte (fun dlen => ?_)
  refine nofuel_bind (nofuel_commandWrite true _) (fun _ => ?_)
  split_ifs
  · refine nofuel_bind (nofuel_safeRead _) (fun d => ?_)
    exact nofuel_commandWrite true _
  · exact nofuel_pure _

theorem nofuel_zset2Entry : NoFuelErr zset2Entry := by
  unfold zset2Entry
  refine nofuel_bind (nofuel_copyString true) (fun _ => ?_)
  refine nofuel_bind (nofuel_safeRead _) (fun d => ?_)
  refine nofuel_bind (nofuel_liftE _ (uint_noFuel d).2.2) (fun _ => ?_)
  exact nofuel_pure _

theorem nofuel_readUnsigned (save : Bool) : NoFuelErr (readUnsigned save) := by
  unfold readUnsigned
  refine nofuel_bind (nofuel_readLength save) (fun x => ?_)
  obtain ⟨val, _⟩ := x
  simp only []
  split_ifs
  · exact nofuel_fail _ (by simp)
  · refine nofuel_bind (nofuel_readLength save) (fun x => ?_)
    exact nofuel_pure _

theorem nofuel_readDouble (save : Bool) : NoFuelErr (readDouble save) := by
  unfold readDouble
  refine nofuel_bind (nofuel_readLength save) (fun x => ?_)
  obtain ⟨val, _⟩ := x
  simp only []
  split_ifs
  · exact nofuel_fail _ (by simp)
  · refine nofuel_bind (nofuel_safeRead _) (fun d => ?_)
    refine nofuel_bind (nofuel_commandWrite true _) (fun _ => ?_)
    refine nofuel_bind (nofuel_liftE _ (uint_noFuel d).2.2) (fun _ => ?_)
    exact nofuel_pure _

theorem nofuel_readStringBuffer (save : Bool) : NoFuelErr (readStringBuffer save) := by
  unfold readStringBuffer
  refine nofuel_bind (nofuel_readLength save) (fun x => ?_)
  obtain ⟨val, _⟩ := x
  simp only []
  split_ifs
  · exact nofuel_fail _ (by simp)
  · refine nofuel_bind (nofuel_copyString save) (fun x => ?_)
    exact nofuel_pure _

theorem nofuel_bloomEntry : NoFuelErr bloomEntry := by
  unfold bloomEntry
  refine nofuel_bind (nofuel_readUnsigned true) (fun _ => ?_)
  refine nofuel_bind (nofuel_readDouble true) (fun _ => ?_)
  refine nofuel_bind (nofuel_readUnsigned true) (fun _ => ?_)
  refine nofuel_bind (nofuel_readDouble true) (fun _ => ?_)
  refine nofuel_bind (nofuel_readUnsigned true) (fun _ => ?_)
  refine nofuel_bind (nofuel_readUnsigned true) (fun _ => ?_)
  refine nofuel_bind (nofuel_readStringBuffer true) (fun _ => ?_)
  refine nofuel_bind (nofuel_readUnsigned true) (fun _ => ?_)
  exact nofuel_pure _

theorem nofuel_cuckooEntry : NoFuelErr cuckooEntry := by
  unfold cuckooEntry
  refine nofuel_bind (nofuel_readUnsigned true) (fun _ => ?_)
  refine nofuel_bind (nofuel_readStringBuffer true) (fun _ => ?_)
  exact nofuel_pure _

theorem nofuel_keepEnd (env : Env) :
    NoFuelErr (keep env >>= fun _ => (pure (some State.stateOp) : M (Option State))) :=
  nofuel_bind (nofuel_keep env) (fun _ => nofuel_pure _)

theorem nofuel_moduleEOF (env : Env) : NoFuelErr (moduleEOF env) := by
  unfold moduleEOF
  refine nofuel_bind (nofuel_readLength true) (fun x => ?_)
  obtain ⟨eof, _⟩ := x
  simp only []
  split_ifs
  · exact nofuel_fail _ (by simp)
  · exact nofuel_keepEnd env

theorem nofuel_stateCopyModule2 (env : Env) : NoFuelErr (stateCopyModule2 env) := by
  unfold stateCopyModule2
  refine nofuel_bind (nofuel_readLength true) (fun x => ?_)
  obtain ⟨length, _⟩ := x
  simp only []
  split_ifs
  · unfold stateCopyBloomFilter
    refine nofuel_bind (nofuel_readUnsigned true) (fun _ => ?_)
    refine nofuel_bind (nofuel_readUnsigned true) (fun _ => ?_)
    refine nofuel_bind (nofuel_readUnsigned true) (fun _ => ?_)
    refine nofuel_bind (nofuel_readUnsigned true) (fun _ => ?_)
    refine nofuel_bind (nofuel_loopN _ nofuel_bloomEntry _) (fun _ => ?_)
    exact nofuel_moduleEOF env
  · unfold stateCopyCuckooFilter
    refine nofuel_bind (nofuel_readUnsigned true) (fun _ => ?_)
    refine nofuel_bind (nofuel_readUnsigned true) (fun _ => ?_)
    refine nofuel_bind (nofuel_readUnsigned true) (fun _ => ?_)
    refine nofuel_bind (nofuel_readUnsigned true) (fun _ => ?_)
    refine nofuel_bind (nofuel_readUnsigned true) (fun _ => ?_)
    refine nofuel_bind (nofuel_readUnsigned true) (fun _ => ?_)
    refine nofuel_bind (nofuel_readUnsigned true) (fun _ => ?_)
    refine nofuel_bind (nofuel_loopN _ nofuel_cuckooEntry _) (fun _ => ?_)
    exact nofuel_moduleEOF env
  · exact nofuel_fail _ (by simp)

theorem nofuel_stateMagic : NoFuelErr stateMagic := by
  unfold stateMagic
  refine nofuel_bind (nofuel_safeRead _) (fun signature => ?_)
  split_ifs
  · exact nofuel_fail _ (by simp)
  · refine nofuel_bind (nofuel_safeRead _) (fun versionRaw => ?_)
    cases Atoi versionRaw with
    | none => exact nofuel_fail _ (by simp)
    | some version =>
      simp only []
      split_ifs
      · exact nofuel_fail _ (by simp)
      · exact nofuel_bind (nofuel_update _) (fun _ => nofuel_pure _)

theorem nofuel_stateOp : NoFuelErr stateOp := by
  intro p
  cases hr : p.reader with
  | nil => rw [stateOp_nil p hr]; simp
  | cons op rest =>
    cases hc : copierOf op with
    | some c => rw [stateOp_value p op rest c hr hc]; simp
    | none =>
      rw [stateOp_other p op rest hr hc]
      cases framingOf op with
      | some s => simp
      | none =>
        simp only []
        split_ifs <;> simp

/-- No state function reports that fuel ran out. -/
theorem nofuel_callState (env : Env) (st : State) : NoFuelErr (callState env st) := by
  cases st with
  | stateMagic => exact nofuel_stateMagic
  | stateOp => exact nofuel_stateOp
  | stateResizeDB =>
    exact nofuel_bind (nofuel_readLength false) (fun _ =>
      nofuel_bind (nofuel_readLength false) (fun _ => nofuel_pure _))
  | stateAux =>
    exact nofuel_bind (nofuel_readString false) (fun _ =>
      nofuel_bind (nofuel_readString false) (fun _ => nofuel_pure _))
  | stateDB => exact nofuel_bind (nofuel_readLength false) (fun _ => nofuel_pure _)
  | stateExpirySec =>
    show NoFuelErr (stateExpirySec env)
    unfold stateExpirySec
    refine nofuel_bind (nofuel_safeRead _) (fun d => ?_)
    refine nofuel_bind (nofuel_liftE _ (uint_noFuel d).2.2) (fun fd => ?_)
    exact nofuel_bind (nofuel_update _) (fun _ => nofuel_pure _)
  | stateExpiryMSec =>
    show NoFuelErr (stateExpiryMSec env)
    unfold stateExpiryMSec
    refine nofuel_bind (nofuel_safeRead _) (fun d => ?_)
    refine nofuel_bind (nofuel_liftE _ (uint_noFuel d).2.2) (fun fc => ?_)
    simp only []
    split_ifs
    · exact nofuel_bind (nofuel_update _) (fun _ => nofuel_pure _)
    · exact nofuel_bind (nofuel_update _) (fun _ => nofuel_pure _)
  | stateKey =>
    show NoFuelErr stateKey
    unfold stateKey
    refine nofuel_bind (nofuel_readString false) (fun key => ?_)
    intro p
    simp
  | stateCopyString =>
    exact nofuel_bind (nofuel_copyString true) (fun _ => nofuel_keepEnd env)
  | stateCopySetOrList =>
    exact nofuel_bind (nofuel_readLength true) (fun _ =>
      nofuel_bind (nofuel_loopN _ (nofuel_copyString true) _) (fun _ => nofuel_keepEnd env))
  | stateCopyHash =>
    exact nofuel_bind (nofuel_readLength true) (fun _ =>
      nofuel_bind (nofuel_loopN _
        (nofuel_bind (nofuel_copyString true) (fun _ => nofuel_copyString true)) _)
        (fun _ => nofuel_keepEnd env))
  | stateCopyZset =>
    exact nofuel_bind (nofuel_readLength true) (fun _ =>
      nofuel_bind (nofuel_loopN _ nofuel_zsetEntry _) (fun _ => nofuel_keepEnd env))
  | stateCopyZset2 =>
    exact nofuel_bind (nofuel_readLength true) (fun _ =>
      nofuel_bind (nofuel_loopN _ nofuel_zset2Entry _) (fun _ => nofuel_keepEnd env))
  | stateCopyQuicklist =>
    exact nofuel_bind (nofuel_readLength true) (fun _ =>
      nofuel_bind (nofuel_loopN _ (nofuel_copyString true) _) (fun _ => nofuel_keepEnd env))
  | stateCopyListpacks => exact nofuel_fail _ (by simp)
  | stateCopyModule2 => exact nofuel_stateCopyModule2 env
  | stateCRC64 => exact nofuel_bind (nofuel_safeRead _) (fun _ => nofuel_pure _)
  | statePadding => exact nofuel_pure _

theorem reads_length {save : Bool} {p q : Parser} (h : Reads save p q) :
    q.reader.length ≤ p.reader.length := by
  obtain ⟨c, w, hr, _, _⟩ := h
  rw [hr, List.length_append]
  omega

theorem stepsNeeded_copier (c : State) (n : Nat) (hc : c.isCopier = true) :
    stepsNeeded (some c) n = 3 * n + 2 := by
  cases c <;> simp [State.isCopier] at hc <;> rfl

theorem stepsNeeded_pos (st : State) (n : Nat) : 1 ≤ stepsNeeded (some st) n := by
  cases st <;> simp [stepsNeeded]

theorem run_fuel_enough (env : Env) :
    ∀ fuel st p, KeyInv st p → stepsNeeded st p.reader.length ≤ fuel →
      (runStates env fuel st p).1 ≠ .error .outOfFuel := by
  apply run_induction env
  · intro fuel p _ _
    rw [runStates_none]
    simp
  · intro st p _ h
    have := stepsNeeded_pos st p.reader.length
    omega
  · intro fuel st p e q h hf _ _
    rw [runStates_error env fuel st p e q h]
    have := nofuel_callState env st p
    rw [h] at this
    intro he
    simp only [Except.error.injEq] at he
    subst he
    exact this rfl
  · intro fuel st p next q h hs ih hinv hfuel
    rw [runStates_ok env fuel st p next q h]
    cases hs with
    | magic _ mid version v16 hr hl =>
      have hlen := reads_length hr
      refine ih (by simp [KeyInv]) ?_
      simp only [stepsNeeded] at hfuel ⊢
      omega
    | opValue _ op rest c hr hc =>
      refine ih (fun _ => ⟨c, rfl, copierOf_isCopier op c hc⟩) ?_
      simp only [stepsNeeded, hr, List.length_cons] at hfuel ⊢
      omega
    | opFraming _ op rest s hr hc hf =>
      have hsk : s ≠ .stateKey := by
        rcases framingOf_cases op s hf with h1 | h1 | h1 | h1 | h1 <;> (rw [h1.2]; simp)
      have hneed : stepsNeeded (some s) rest.length = 3 * rest.length + 2 := by
        rcases framingOf_cases op s hf with h1 | h1 | h1 | h1 | h1 <;> (rw [h1.2]; rfl)
      refine ih (fun hk => by
        simp only [Option.some.injEq] at hk
        exact absurd hk hsk) ?_
      simp only [stepsNeeded, hr, List.length_cons] at hfuel
      show stepsNeeded (some s) rest.length ≤ fuel
      omega
    | opEOF _ op rest hr hc hf he =>
      have hneed : stepsNeeded
          (some (if p.rdbVersion > 4 then State.stateCRC64 else State.statePadding))
          rest.length ≤ 2 := by
        split_ifs <;> simp [stepsNeeded]
      refine ih (fun hk => by
        simp only [Option.some.injEq] at hk
        split_ifs at hk) ?_
      simp only [stepsNeeded, hr, List.length_cons] at hfuel
      show stepsNeeded _ rest.length ≤ fuel
      omega
    | skip _ _ _ hst2 hr =>
      have hlen := reads_length hr
      refine ih (by simp [KeyInv]) ?_
      rcases hst2 with h1 | h1 | h1 <;>
        (subst h1; simp only [stepsNeeded] at hfuel ⊢; omega)
    | expiry _ _ mid e hst2 hr =>
      have hlen := reads_length hr
      refine ih (by simp [KeyInv]) ?_
      rcases hst2 with h1 | h1 <;>
        (subst h1; simp only [stepsNeeded] at hfuel ⊢; omega)
    | key _ mid k hk hr =>
      have hlen := reads_length hr
      obtain ⟨c, hc, hcop⟩ := hinv rfl
      rw [hc] at ih ⊢
      have hck : c ≠ .stateKey := by
        intro h; subst h; simp [State.isCopier] at hcop
      refine ih (fun hk2 => by
        simp only [Option.some.injEq] at hk2
        exact absurd hk2 hck) ?_
      rw [stepsNeeded_copier c _ hcop]
      simp only [stepsNeeded] at hfuel
      show 3 * mid.reader.length + 2 ≤ fuel
      omega
    | copier _ _ mid hcop hr =>
      have hlen := reads_length hr
      have hk := keep_fields env mid
      refine ih (by simp [KeyInv]) ?_
      rw [stepsNeeded_copier st _ hcop] at hfuel
      simp only [stepsNeeded, hk.2.2.2.2.1]
      omega
    | crc _ _ hr =>
      refine ih (by simp [KeyInv]) ?_
      simp only [stepsNeeded] at hfuel ⊢
      omega
    | padding _ =>
      refine ih (by simp [KeyInv]) ?_
      simp only [stepsNeeded] at hfuel ⊢
      omega

/-- The fuel `ParseRDB` gives its loop is enough on every input: the loop
stops with a result or an error of the code, never for lack of fuel. -/
theorem ParseRDB_fuel_enough (env : Env) (input : Bytes) (out : List RedisCommand)
    (ctr : Option Nat) : (ParseRDB env input out ctr).1 ≠ .error .outOfFuel := by
  unfold ParseRDB
  refine run_fuel_enough env _ _ _ (by simp [KeyInv]) ?_
  simp only [stepsNeeded, newParser]
  omega

/-! ## The string reader (C11) -/

theorem or_shift_eq (x b k : Nat) (hx : x < 2 ^ k) : x ||| (b <<< k) = x + b * 2 ^ k := by
  rw [Nat.shiftLeft_eq, Nat.or_comm, Nat.mul_comm b, ← Nat.mul_add_lt_is_or hx]
  omega

theorem intOfData_one (b0 : Nat) : intOfData 0 [b0] = leValue [b0] := by
  simp [intOfData, leValue]

theorem intOfData_two (b0 b1 : Nat) (h0 : b0 < 256) (h1 : b1 < 256) :
    intOfData 1 [b0, b1] = leValue [b0, b1] := by
  have e : b0 ||| (b1 <<< 8) = b0 + b1 * 2 ^ 8 := or_shift_eq b0 b1 8 (by omega)
  have c1 : ¬ ((1 : Int) = 0) := by decide
  simp only [intOfData, leValue, List.getD_cons_zero, List.getD_cons_succ, if_neg c1, if_true, e]
  omega

theorem intOfData_four (b0 b1 b2 b3 : Nat) (h0 : b0 < 256) (h1 : b1 < 256) (h2 : b2 < 256)
    (h3 : b3 < 256) : intOfData 2 [b0, b1, b2, b3] = leValue [b0, b1, b2, b3] := by
  have e1 : b0 ||| (b1 <<< 8) = b0 + b1 * 2 ^ 8 := or_shift_eq b0 b1 8 (by omega)
  have e2 : (b0 + b1 * 2 ^ 8) ||| (b2 <<< 16) = b0 + b1 * 2 ^ 8 + b2 * 2 ^ 16 :=
    or_shift_eq _ b2 16 (by omega)
  have e3 : (b0 + b1 * 2 ^ 8 + b2 * 2 ^ 16) ||| (b3 <<< 24) =
      b0 + b1 * 2 ^ 8 + b2 * 2 ^ 16 + b3 * 2 ^ 24 := or_shift_eq _ b3 24 (by omega)
  have c1 : ¬ ((2 : Int) = 0) := by decide
  have c2 : ¬ ((2 : Int) = 1) := by decide
  simp only [intOfData, leValue, List.getD_cons_zero, List.getD_cons_succ, if_neg c1, if_neg c2,
    if_true, e1, e2, e3]
  omega

theorem beValue_foldl_lt (l : Bytes) (acc n : Nat) (hl : ∀ b ∈ l, b < 256) (hacc : acc < 256 ^ n) :
    l.foldl (fun a x => a * 256 + x) acc < 256 ^ (n + l.length) := by
  induction l generalizing acc n with
  | nil => simpa using hacc
  | cons b rest ih =>
    have hb : b < 256 := hl b (by simp)
    have h2 : acc * 256 + b < 256 ^ (n + 1) := by
      rw [pow_succ]
      have : acc + 1 ≤ 256 ^ n := hacc
      nlinarith
    have := ih (acc * 256 + b) (n + 1) (fun x hx => hl x (by simp [hx])) h2
    simpa [List.length_cons, Nat.add_assoc, Nat.add_comm 1] using this

theorem beValue_lt (l : Bytes) (hl : ∀ b ∈ l, b < 256) : beValue l < 256 ^ l.length := by
  have := beValue_foldl_lt l 0 0 hl (by simp)
  simpa [beValue] using this


theorem safeRead_ok {n : Nat} {p q : Parser} {d : Bytes} (h : safeRead n p = (.ok d, q)) :
    n ≤ p.reader.length ∧ d = p.reader.take n ∧ q = { p with reader := p.reader.drop n } := by
  unfold safeRead at h
  split_ifs at h with h1 h2
  · simp only [Prod.mk.injEq, Except.ok.injEq] at h
    exact ⟨h1, h.1.symm, h.2.symm⟩
  · simp at h
  · simp at h

theorem commandWrite_ok {save : Bool} {d : Bytes} {p q : Parser}
    (h : commandWrite save d p = (.ok (), q)) : q.reader = p.reader := by
  unfold commandWrite at h
  split_ifs at h <;> simp only [Prod.mk.injEq, true_and] at h <;> rw [← h]

theorem toInt64_small (n : Nat) (h : n < 2 ^ 63) : toInt64 n = (n : Int) := by
  unfold toInt64
  have h2 : n % 2 ^ 64 = n := Nat.mod_eq_of_lt (by omega)
  rw [h2, if_pos h]

theorem toInt64_nonneg (n : Nat) (h : n < 2 ^ 64) (h0 : 0 ≤ toInt64 n) : toInt64 n = (n : Int) := by
  unfold toInt64 at *
  have h2 : n % 2 ^ 64 = n := Nat.mod_eq_of_lt h
  rw [h2] at h0 ⊢
  split_ifs at h0 ⊢ with c
  · rfl
  · omega

theorem readLength_lt (save : Bool) (p q : Parser) (len : Nat) (enc : Int)
    (hb : ∀ b ∈ p.reader, b < 256) (h : readLength save p = (.ok (len, enc), q)) :
    len < 2 ^ 64 := by
  unfold readLength at h
  rw [bind_ok_iff] at h
  obtain ⟨pfx, p1, h1, h⟩ := h
  rw [bind_ok_iff] at h
  obtain ⟨_, p2, h2, h⟩ := h
  have hr2 := commandWrite_ok h2
  have hp1 : Reads save p p1 := by
    have := reads_readByte save p
    rw [h1] at this
    exact this
  have hsub : ∀ b ∈ p2.reader, b < 256 := by
    intro b hb2
    obtain ⟨c, w, hr, _, _⟩ := hp1
    apply hb
    rw [hr, ← hr2]
    exact List.mem_append_right _ hb2
  have h63 : pfx &&& 0x3F ≤ 0x3F := Nat.and_le_right
  split_ifs at h with c1 c2 c3 c4 c5 c6
  · simp only [pure_apply, Prod.mk.injEq, Except.ok.injEq] at h
    omega
  · rw [bind_ok_iff] at h
    obtain ⟨data, p3, h3, h⟩ := h
    rw [bind_ok_iff] at h
    obtain ⟨_, p4, h4, h⟩ := h
    simp only [pure_apply, Prod.mk.injEq, Except.ok.injEq] at h
    have hd : data < 256 := by
      unfold readByte at h3
      rcases hr : p2.reader with _ | ⟨b, rest⟩
      · simp [hr] at h3
      · simp only [hr, Prod.mk.injEq, Except.ok.injEq] at h3
        rw [← h3.1]
        exact hsub b (by simp [hr])
    have hs : (pfx &&& 0x3F) <<< 8 < 2 ^ 14 := by
      rw [Nat.shiftLeft_eq]
      omega
    have := Nat.or_lt_two_pow hs (show data < 2 ^ 14 by omega)
    omega
  · rw [bind_ok_iff] at h
    obtain ⟨data, p3, h3, h⟩ := h
    rw [bind_ok_iff] at h
    obtain ⟨_, p4, h4, h⟩ := h
    rw [bind_ok_iff] at h
    obtain ⟨v, p5, h5, h⟩ := h
    simp only [pure_apply, Prod.mk.injEq, Except.ok.injEq] at h
    obtain ⟨hn, hd, -⟩ := safeRead_ok h3
    unfold liftE BigEndian_Uint32 at h5
    split_ifs at h5 with c
    · simp at h5
    · simp only [Prod.mk.injEq, Except.ok.injEq] at h5
      have := beValue_lt (data.take 4) (fun b hb4 => hsub b (by
        rw [hd] at hb4
        exact List.mem_of_mem_take (List.mem_of_mem_take hb4)))
      have hl : (data.take 4).length ≤ 4 := by simp
      have : (256 : Nat) ^ (data.take 4).length ≤ 256 ^ 4 := Nat.pow_le_pow_right (by omega) hl
      omega
  · rw [bind_ok_iff] at h
    obtain ⟨data, p3, h3, h⟩ := h
    rw [bind_ok_iff] at h
    obtain ⟨_, p4, h4, h⟩ := h
    rw [bind_ok_iff] at h
    obtain ⟨v, p5, h5, h⟩ := h
    simp only [pure_apply, Prod.mk.injEq, Except.ok.injEq] at h
    obtain ⟨hn, hd, -⟩ := safeRead_ok h3
    unfold liftE BigEndian_Uint64 at h5
    split_ifs at h5 with c
    · simp at h5
    · simp only [Prod.mk.injEq, Except.ok.injEq] at h5
      have := beValue_lt (data.take 8) (fun b hb4 => hsub b (by
        rw [hd] at hb4
        exact List.mem_of_mem_take (List.mem_of_mem_take hb4)))
      have hl : (data.take 8).length ≤ 8 := by simp
      have : (256 : Nat) ^ (data.take 8).length ≤ 256 ^ 8 := Nat.pow_le_pow_right (by omega) hl
      omega
  · simp [fail] at h
  · simp only [pure_apply, Prod.mk.injEq, Except.ok.injEq] at h
    omega
  · simp [fail] at h


theorem reads_of_ok {α : Type} {save : Bool} {m : M α} (hm : Always (Reads save) m)
    {p q : Parser} {a : α} (h : m p = (.ok a, q)) : Reads save p q := by
  have := hm p
  rw [h] at this
  exact this

theorem reads_bytes {save : Bool} {p q : Parser} (h : Reads save p q)
    (hb : ∀ b ∈ p.reader, b < 256) : ∀ b ∈ q.reader, b < 256 := by
  obtain ⟨c, w, hr, _, _⟩ := h
  intro b hq
  apply hb
  rw [hr]
  exact List.mem_append_right _ hq

theorem intOfData_leValue (enc : Int) (data : Bytes) (h0 : 0 ≤ enc) (h2 : enc ≤ 2)
    (hl : data.length = 2 ^ enc.toNat) (hb : ∀ b ∈ data, b < 256) :
    intOfData enc data = leValue data := by
  have hc : enc = 0 ∨ enc = 1 ∨ enc = 2 := by omega
  rcases hc with rfl | rfl | rfl
  · match data, hl with
    | [b0], _ => exact intOfData_one b0
  · match data, hl, hb with
    | [b0, b1], _, hb => exact intOfData_two b0 b1 (hb b0 (by simp)) (hb b1 (by simp))
  · match data, hl, hb with
    | [b0, b1, b2, b3], _, hb =>
      exact intOfData_four b0 b1 b2 b3 (hb b0 (by simp)) (hb b1 (by simp)) (hb b2 (by simp))
        (hb b3 (by simp))

/-- C11: on every stream of bytes on which `readString` succeeds, the string
returned is, after the length prefix read by `readLength false`: for
encoding -1 the `length` bytes that follow; for the encoding tags 0, 1 and 2
the decimal digits of the little-endian unsigned integer held in the next 1,
2 or 4 bytes; for the encoding tag 3 the result of `lzfDecompressNew` on the
`C` bytes that follow the two lengths `C` and `U`, with output length `U`.
`stateKey` stores the string `readString false` returns as the key. -/
theorem readString_value (save : Bool) (p q : Parser) (k : Bytes)
    (hb : ∀ b ∈ p.reader, b < 256) (hlen : p.reader.length < 2 ^ 63)
    (hok : readString save p = (.ok k, q)) :
    (∃ len enc p1, readLength false p = (.ok (len, enc), p1) ∧
      ((enc = -1 ∧ len ≤ p1.reader.length ∧ k = p1.reader.take len) ∨
       (0 ≤ enc ∧ enc ≤ 2 ∧ 2 ^ enc.toNat ≤ p1.reader.length ∧
          k = decimal (leValue (p1.reader.take (2 ^ enc.toNat)))) ∨
       (enc = 3 ∧ ∃ C e1 p2 U e2 p3, readLength save p1 = (.ok (C, e1), p2) ∧
          readLength save p2 = (.ok (U, e2), p3) ∧ C ≤ p3.reader.length ∧
          lzfDecompressNew (p3.reader.take C) (C : Int) (U : Int) = .ok k))) ∧
    (∀ k2 q2, readString false p = (.ok k2, q2) →
      stateKey p = (.ok q2.valueState, { q2 with key := k2 })) := by
  constructor
  · unfold readString at hok
    rw [bind_ok_iff] at hok
    obtain ⟨⟨len, enc⟩, p1, h1, h2⟩ := hok
    refine ⟨len, enc, p1, h1, ?_⟩
    have hr1 : Reads false p p1 := reads_of_ok (reads_readLength false) h1
    have hb1 := reads_bytes hr1 hb
    simp only [] at h2
    split_ifs at h2 with c1 c2 c3
    · left
      rw [bind_ok_iff] at h2
      obtain ⟨data, p2, h3, h2⟩ := h2
      rw [bind_ok_iff] at h2
      obtain ⟨_, p3, h4, h2⟩ := h2
      simp only [pure_apply, Prod.mk.injEq, Except.ok.injEq] at h2
      obtain ⟨hn, hd, -⟩ := safeRead_ok h3
      exact ⟨c1, hn, by rw [← h2.1, hd]⟩
    · right
      left
      rw [bind_ok_iff] at h2
      obtain ⟨data, p2, h3, h2⟩ := h2
      rw [bind_ok_iff] at h2
      obtain ⟨_, p3, h4, h2⟩ := h2
      simp only [pure_apply, Prod.mk.injEq, Except.ok.injEq] at h2
      obtain ⟨hn, hd, -⟩ := safeRead_ok h3
      rw [Nat.one_shiftLeft] at hn hd
      have h0 : 0 ≤ enc := by omega
      have h22 : enc ≤ 2 := by omega
      refine ⟨h0, h22, hn, ?_⟩
      rw [← h2.1, ← hd, intOfData_leValue enc data h0 h22]
      · rw [hd, List.length_take]
        omega
      · intro b hbd
        rw [hd] at hbd
        exact hb1 b (List.mem_of_mem_take hbd)
    · right
      right
      rw [bind_ok_iff] at h2
      obtain ⟨⟨C, e1⟩, p2, h3, h2⟩ := h2
      simp only [] at h2
      rw [bind_ok_iff] at h2
      obtain ⟨⟨U, e2⟩, p3, h4, h2⟩ := h2
      simp only [] at h2
      rw [bind_ok_iff] at h2
      obtain ⟨data, p4, h5, h2⟩ := h2
      rw [bind_ok_iff] at h2
      obtain ⟨_, p5, h6, h2⟩ := h2
      simp only [liftE, Prod.mk.injEq] at h2
      obtain ⟨hn, hd, -⟩ := safeRead_ok h5
      have hr2 : Reads save p1 p2 := reads_of_ok (reads_readLength save) h3
      have hr3 : Reads save p2 p3 := reads_of_ok (reads_readLength save) h4
      have hb2 := reads_bytes hr2 hb1
      have hU : U < 2 ^ 64 := readLength_lt save p2 p3 U e2 hb2 h4
      have hC : C < 2 ^ 63 := by
        have := reads_length hr1
        have := reads_length hr2
        have := reads_length hr3
        omega
      have hdec := h2.1
      rw [toInt64_small C hC] at hdec
      have hU0 : 0 ≤ toInt64 U := by
        by_contra hneg
        unfold lzfDecompressNew at hdec
        rw [if_pos (by omega)] at hdec
        cases hdec
      rw [toInt64_nonneg U hU hU0, hd] at hdec
      exact ⟨c3, C, e1, p2, U, e2, p3, h3, h4, hn, hdec⟩
    · simp [fail] at h2
  · intro k2 q2 h
    rw [stateKey_eq, h]

/-- The integer case of C11 on the stream C1 39 30 07: the key is `12345`. -/
theorem readString_value_witness :
    (∀ b ∈ intKeyParser.reader, b < 256) ∧ intKeyParser.reader.length < 2 ^ 63 ∧
    readString true intKeyParser =
      (.ok [0x31, 0x32, 0x33, 0x34, 0x35], intKeyParser.advance true [0x39, 0x30] [0x07]) ∧
    ∃ len enc p1, readLength false intKeyParser = (.ok (len, enc), p1) ∧
      ((enc = -1 ∧ len ≤ p1.reader.length ∧ [0x31, 0x32, 0x33, 0x34, 0x35] = p1.reader.take len) ∨
       (0 ≤ enc ∧ enc ≤ 2 ∧ 2 ^ enc.toNat ≤ p1.reader.length ∧
          [0x31, 0x32, 0x33, 0x34, 0x35] = decimal (leValue (p1.reader.take (2 ^ enc.toNat)))) ∨
       (enc = 3 ∧ ∃ C e1 p2 U e2 p3, readLength true p1 = (.ok (C, e1), p2) ∧
          readLength true p2 = (.ok (U, e2), p3) ∧ C ≤ p3.reader.length ∧
          lzfDecompressNew (p3.reader.take C) (C : Int) (U : Int) =
            .ok [0x31, 0x32, 0x33, 0x34, 0x35])) :=
  ⟨by decide, by decide, by decide!,
   (readString_value true intKeyParser (intKeyParser.advance true [0x39, 0x30] [0x07])
      [0x31, 0x32, 0x33, 0x34, 0x35] (by decide) (by decide) (by decide!)).1⟩

/-! ## `lzfDecompressNew` against the decoder of the specification (C12, C13, C14) -/

theorem drop_cons_info {inp : Bytes} {i c : Nat} {rest : Bytes} (h : inp.drop i = c :: rest) :
    i < inp.length ∧ lzfIn inp i = .ok c ∧ inp.drop (i + 1) = rest := by
  have hi : i < inp.length := by
    by_contra hn
    rw [List.drop_eq_nil_of_le (by omega)] at h
    cases h
  rw [List.drop_eq_getElem_cons hi] at h
  obtain ⟨h1, h2⟩ := List.cons.inj h
  refine ⟨hi, ?_, h2⟩
  unfold lzfIn
  rw [dif_pos hi, List.get_eq_getElem, h1]

theorem lzfIn_none {inp : Bytes} {i : Nat} (h : inp.length ≤ i) :
    lzfIn inp i = .error .panicIndexOutOfRange := by
  unfold lzfIn
  rw [dif_neg (by omega)]

theorem set_zero_tail (d : Bytes) (z x : Nat) :
    (d ++ List.replicate (z + 1) 0).set d.length x = (d ++ [x]) ++ List.replicate z 0 := by
  induction d with
  | nil => simp [List.replicate_succ]
  | cons a d ih => simpa using ih

theorem lzfLiteral_ok (inp : Bytes) : ∀ (n i : Nat) (d : Bytes) (z : Nat),
    i + n ≤ inp.length → n ≤ z →
    lzfLiteral n inp i d.length (d ++ List.replicate z 0) =
      .ok (i + n, d.length + n, (d ++ (inp.drop i).take n) ++ List.replicate (z - n) 0) := by
  intro n
  induction n with
  | zero =>
    intro i d z _ _
    simp [lzfLiteral]
  | succ n ih =>
    intro i d z hi hz
    have hi2 : i < inp.length := by omega
    obtain ⟨z2, rfl⟩ : ∃ z2, z = z2 + 1 := ⟨z - 1, by omega⟩
    rw [lzfLiteral, dif_pos hi2, if_pos (by simp), set_zero_tail]
    have h := ih (i + 1) (d ++ [inp.get ⟨i, hi2⟩]) z2 (by omega) (by omega)
    simp only [List.length_append, List.length_singleton] at h
    rw [h, List.drop_eq_getElem_cons hi2]
    simp only [List.take_succ_cons, List.get_eq_getElem, List.append_assoc, List.singleton_append,
      Nat.add_sub_add_right]
    congr 2
    · omega
    · congr 1
      omega

theorem lzfLiteral_short (inp : Bytes) : ∀ (n i : Nat) (d : Bytes) (z : Nat),
    i ≤ inp.length → (inp.length < i + n ∨ z < n) →
    lzfLiteral n inp i d.length (d ++ List.replicate z 0) = .error .panicIndexOutOfRange := by
  intro n
  induction n with
  | zero =>
    intro i d z hle h
    omega
  | succ n ih =>
    intro i d z hle h
    rw [lzfLiteral]
    by_cases hi : i < inp.length
    · rw [dif_pos hi]
      by_cases hz : 0 < z
      · obtain ⟨z2, rfl⟩ : ∃ z2, z = z2 + 1 := ⟨z - 1, by omega⟩
        rw [if_pos (by simp), set_zero_tail]
        have h2 := ih (i + 1) (d ++ [inp.get ⟨i, hi⟩]) z2 (by omega) (by omega)
        simp only [List.length_append, List.length_singleton] at h2
        exact h2
      · have : z = 0 := by omega
        subst this
        rw [if_neg (by simp)]
    · rw [dif_neg hi]

theorem lzfSpecCopy_length : ∀ (n src : Nat) (d : Bytes),
    (lzfSpecCopy n src d).length = d.length + n := by
  intro n
  induction n with
  | zero =>
    intro src d
    rfl
  | succ n ih =>
    intro src d
    rw [lzfSpecCopy, ih]
    simp only [List.length_append, List.length_singleton]
    omega

theorem lzfBackref_ok : ∀ (n src : Nat) (d : Bytes) (z : Nat),
    src < d.length → n ≤ z →
    lzfBackref n (src : Int) d.length (d ++ List.replicate z 0) =
      .ok (d.length + n, lzfSpecCopy n src d ++ List.replicate (z - n) 0) := by
  intro n
  induction n with
  | zero =>
    intro src d z _ _
    simp [lzfBackref, lzfSpecCopy]
  | succ n ih =>
    intro src d z hs hz
    obtain ⟨z2, rfl⟩ : ∃ z2, z = z2 + 1 := ⟨z - 1, by omega⟩
    have hlen : (src : Int).toNat < (d ++ List.replicate (z2 + 1) 0).length := by
      simp only [Int.toNat_ofNat, List.length_append, List.length_replicate]
      omega
    rw [lzfBackref, if_pos (by omega), dif_pos hlen, if_pos (by simp), set_zero_tail]
    have hget : (d ++ List.replicate (z2 + 1) 0).get ⟨(src : Int).toNat, hlen⟩ = d.getD src 0 := by
      simp only [List.get_eq_getElem, Int.toNat_ofNat]
      rw [List.getElem_append_left hs, List.getD_eq_getElem _ _ hs]
    rw [hget]
    have h := ih (src + 1) (d ++ [d.getD src 0]) z2 (by simp; omega) (by omega)
    simp only [List.length_append, List.length_singleton] at h
    have hc : ((src : Int) + 1) = ((src + 1 : Nat) : Int) := by omega
    rw [hc, h, lzfSpecCopy]
    simp only [Nat.add_sub_add_right]
    congr 2
    omega

theorem lzfBackref_short : ∀ (n src : Nat) (d : Bytes) (z : Nat),
    src < d.length → z < n →
    lzfBackref n (src : Int) d.length (d ++ List.replicate z 0) = .error .panicIndexOutOfRange := by
  intro n
  induction n with
  | zero =>
    intro src d z _ h
    omega
  | succ n ih =>
    intro src d z hs hz
    by_cases hz0 : 0 < z
    · obtain ⟨z2, rfl⟩ : ∃ z2, z = z2 + 1 := ⟨z - 1, by omega⟩
      have hlen : (src : Int).toNat < (d ++ List.replicate (z2 + 1) 0).length := by
        simp only [Int.toNat_ofNat, List.length_append, List.length_replicate]
        omega
      rw [lzfBackref, if_pos (by omega), dif_pos hlen, if_pos (by simp), set_zero_tail]
      have h := ih (src + 1) (d ++ [(d ++ List.replicate (z2 + 1) 0).get ⟨(src : Int).toNat, hlen⟩])
        z2 (by simp; omega) (by omega)
      simp only [List.length_append, List.length_singleton] at h
      have hc : ((src : Int) + 1) = ((src + 1 : Nat) : Int) := by omega
      rw [hc, h]
    · have : z = 0 := by omega
      subst this
      have hlen : (src : Int).toNat < (d ++ List.replicate 0 0).length := by
        simp only [Int.toNat_ofNat, List.length_append, List.length_replicate]
        omega
      rw [lzfBackref, if_pos (by omega), dif_pos hlen, if_neg (by simp)]

theorem lzfBackref_negative (n : Nat) (ref : Int) (o : Nat) (out : Bytes) (h : ref < 0) :
    lzfBackref (n + 1) ref o out = .error .panicIndexOutOfRange := by
  rw [lzfBackref, if_neg (by omega)]

theorem lzfBackref_spec (U c len D : Nat) (d : Bytes) (hD : D < 256) (hd : d.length ≤ U) :
    match lzfSpecBackref U c len D d with
    | .ok d2 =>
      lzfBackref (len + 2) ((d.length : Int) - (((c &&& 0x1f) <<< 8 : Nat) : Int) - (D : Int) - 1)
        d.length (d ++ List.replicate (U - d.length) 0) =
        .ok (d2.length, d2 ++ List.replicate (U - d2.length) 0) ∧ d2.length ≤ U
    | .error _ =>
      lzfBackref (len + 2) ((d.length : Int) - (((c &&& 0x1f) <<< 8 : Nat) : Int) - (D : Int) - 1)
        d.length (d ++ List.replicate (U - d.length) 0) = .error .panicIndexOutOfRange := by
  have hoff : ((c &&& 0x1F) <<< 8) ||| D = ((c &&& 0x1F) <<< 8) + D := by
    rw [Nat.or_comm, or_shift_eq D (c &&& 0x1F) 8 (by omega), Nat.shiftLeft_eq]
    omega
  unfold lzfSpecBackref
  rw [hoff]
  generalize (c &&& 0x1F) <<< 8 = hi
  split_ifs with h1 h2
  · simp only []
    exact lzfBackref_negative _ _ _ _ (by omega)
  · simp only []
    have hc : (d.length : Int) - (hi : Int) - (D : Int) - 1 = ((d.length - (hi + D) - 1 : Nat) : Int) := by
      omega
    rw [hc]
    exact lzfBackref_short _ _ _ _ (by omega) (by omega)
  · simp only []
    have hc : (d.length : Int) - (hi : Int) - (D : Int) - 1 = ((d.length - (hi + D) - 1 : Nat) : Int) := by
      omega
    rw [hc, lzfBackref_ok _ _ _ _ (by omega) (by omega), lzfSpecCopy_length]
    refine ⟨?_, by omega⟩
    rw [Nat.sub_sub U]

theorem lzfLoop_spec (inp : Bytes) (U : Nat) (hb : ∀ b ∈ inp, b < 256) :
    ∀ (fuel i : Nat) (d : Bytes), i ≤ inp.length → inp.length - i ≤ fuel → d.length ≤ U →
    lzfLoop fuel inp inp.length i d.length (d ++ List.replicate (U - d.length) 0) =
      lzfExpected U (lzfSpecBlocks U fuel (inp.drop i) d) := by
  intro fuel
  induction fuel with
  | zero =>
    intro i d hi hf hd
    have : i = inp.length := by omega
    subst this
    simp [lzfLoop, lzfSpecBlocks, lzfExpected]
  | succ fuel ih =>
    intro i d hi hf hd
    rcases hdrop : inp.drop i with _ | ⟨c, rest⟩
    · have hge : inp.length ≤ i := List.drop_eq_nil_iff.mp hdrop
      rw [lzfLoop, if_neg (by omega)]
      simp [lzfSpecBlocks, lzfExpected]
    · obtain ⟨hlt, hin, hrest⟩ := drop_cons_info hdrop
      subst hrest
      have hrl : (inp.drop (i + 1)).length = inp.length - (i + 1) := List.length_drop _ _
      rw [lzfLoop, if_pos (by omega), hin]
      simp only [lzfSpecBlocks]
      by_cases hc : c < 32
      · rw [if_pos hc, if_pos hc]
        by_cases ht : (inp.drop (i + 1)).length < c + 1
        · rw [if_pos ht, lzfLiteral_short inp (c + 1) (i + 1) d _ (by omega) (Or.inl (by omega))]
          rfl
        · rw [if_neg ht]
          by_cases ho : U < d.length + (c + 1)
          · rw [if_pos ho, lzfLiteral_short inp (c + 1) (i + 1) d _ (by omega) (Or.inr (by omega))]
            rfl
          · rw [if_neg ho, lzfLiteral_ok inp (c + 1) (i + 1) d _ (by omega) (by omega)]
            simp only []
            have h := ih (i + 1 + (c + 1)) (d ++ (inp.drop (i + 1)).take (c + 1)) (by omega)
              (by omega) (by
                rw [List.length_append, List.length_take]
                omega)
            have hl : (d ++ (inp.drop (i + 1)).take (c + 1)).length = d.length + (c + 1) := by
              rw [List.length_append, List.length_take]
              omega
            rw [hl] at h
            have hz : U - d.length - (c + 1) = U - (d.length + (c + 1)) := by omega
            rw [hz, h, List.drop_drop]
      · rw [if_neg hc, if_neg hc]
        by_cases h7 : c >>> 5 = 7
        · rw [if_pos h7, if_pos h7]
          rcases hd1 : inp.drop (i + 1) with _ | ⟨ext, rest1⟩
          · rw [lzfIn_none (List.drop_eq_nil_iff.mp hd1)]
            rfl
          · obtain ⟨hlt1, hin1, hrest1⟩ := drop_cons_info hd1
            subst hrest1
            rw [hin1]
            simp only []
            rcases hd2 : inp.drop (i + 1 + 1) with _ | ⟨D, rest2⟩
            · rw [lzfIn_none (List.drop_eq_nil_iff.mp hd2)]
              rfl
            · obtain ⟨hlt2, hin2, hrest2⟩ := drop_cons_info hd2
              subst hrest2
              rw [hin2]
              simp only []
              have hD : D < 256 := hb D (by
                have : D ∈ inp.drop (i + 1 + 1) := by simp [hd2]
                exact List.mem_of_mem_drop this)
              have hs := lzfBackref_spec U c (c >>> 5 + ext) D d hD hd
              rcases hres : lzfSpecBackref U c (c >>> 5 + ext) D d with f | d2
              · rw [hres] at hs
                simp only [] at hs
                rw [hs]
                rfl
              · rw [hres] at hs
                simp only [] at hs
                rw [hs.1]
                simp only []
                exact ih (i + 3) d2 (by omega) (by omega) hs.2
        · rw [if_neg h7, if_neg h7]
          rcases hd1 : inp.drop (i + 1) with _ | ⟨D, rest1⟩
          · rw [lzfIn_none (List.drop_eq_nil_iff.mp hd1)]
            rfl
          · obtain ⟨hlt1, hin1, hrest1⟩ := drop_cons_info hd1
            subst hrest1
            rw [hin1]
            simp only []
            have hD : D < 256 := hb D (by
              have : D ∈ inp.drop (i + 1) := by simp [hd1]
              exact List.mem_of_mem_drop this)
            have hs := lzfBackref_spec U c (c >>> 5) D d hD hd
            rcases hres : lzfSpecBackref U c (c >>> 5) D d with f | d2
            · rw [hres] at hs
              simp only [] at hs
              rw [hs]
              rfl
            · rw [hres] at hs
              simp only [] at hs
              rw [hs.1]
              simp only []
              exact ih (i + 2) d2 (by omega) (by omega) hs.2

theorem lzfDecompressNew_spec (inp : Bytes) (U : Nat) (hb : ∀ b ∈ inp, b < 256) :
    lzfDecompressNew inp (inp.length : Int) (U : Int) = lzfExpected U (lzfSpecDecode inp U) := by
  have h := lzfLoop_spec inp U hb inp.length 0 [] (by omega) (by omega) (by simp)
  simp only [List.length_nil, List.nil_append, Nat.sub_zero, List.drop_zero] at h
  unfold lzfDecompressNew lzfSpecDecode
  rw [if_neg (by omega)]
  simpa using h

theorem lzfLiteral_shape : ∀ (n : Nat) (inp : Bytes) (i o : Nat) (out : Bytes),
    lzfLiteral n inp i o out = .error .panicIndexOutOfRange ∨
    ∃ i2 o2 out2, lzfLiteral n inp i o out = .ok (i2, o2, out2) ∧ out2.length = out.length := by
  intro n
  induction n with
  | zero =>
    intro inp i o out
    exact Or.inr ⟨i, o, out, rfl, rfl⟩
  | succ n ih =>
    intro inp i o out
    rw [lzfLiteral]
    split_ifs with h1 h2
    · rcases ih inp (i + 1) (o + 1) (out.set o (inp.get ⟨i, h1⟩)) with h | ⟨i2, o2, out2, h, hl⟩
      · exact Or.inl h
      · exact Or.inr ⟨i2, o2, out2, h, by rw [hl, List.length_set]⟩
    · exact Or.inl rfl
    · exact Or.inl rfl

theorem lzfBackref_shape : ∀ (n : Nat) (ref : Int) (o : Nat) (out : Bytes),
    lzfBackref n ref o out = .error .panicIndexOutOfRange ∨
    ∃ o2 out2, lzfBackref n ref o out = .ok (o2, out2) ∧ out2.length = out.length := by
  intro n
  induction n with
  | zero =>
    intro ref o out
    exact Or.inr ⟨o, out, rfl, rfl⟩
  | succ n ih =>
    intro ref o out
    rw [lzfBackref]
    split_ifs with h1 h2 h3
    · rcases ih (ref + 1) (o + 1) (out.set o (out.get ⟨ref.toNat, h2⟩)) with h | ⟨o2, out2, h, hl⟩
      · exact Or.inl h
      · exact Or.inr ⟨o2, out2, h, by rw [hl, List.length_set]⟩
    · exact Or.inl rfl
    · exact Or.inl rfl
    · exact Or.inl rfl

theorem lzfIn_shape (inp : Bytes) (i : Nat) :
    lzfIn inp i = .error .panicIndexOutOfRange ∨ ∃ c, lzfIn inp i = .ok c := by
  unfold lzfIn
  split_ifs with h
  · exact Or.inr ⟨_, rfl⟩
  · exact Or.inl rfl

theorem lzfLoop_shape (inp : Bytes) (inLen : Int) : ∀ (fuel i o : Nat) (out : Bytes),
    inLen.toNat - i ≤ fuel →
    lzfLoop fuel inp inLen i o out = .error .panicIndexOutOfRange ∨
    ∃ out2, lzfLoop fuel inp inLen i o out = .ok out2 ∧ out2.length = out.length := by
  intro fuel
  induction fuel with
  | zero =>
    intro i o out hf
    rw [lzfLoop, if_neg (by omega)]
    exact Or.inr ⟨out, rfl, rfl⟩
  | succ fuel ih =>
    intro i o out hf
    rw [lzfLoop]
    split_ifs with h1
    · rcases lzfIn_shape inp i with hc | ⟨c, hc⟩
      · rw [hc]
        exact Or.inl rfl
      · rw [hc]
        simp only []
        split_ifs with h2 h3
        · rcases lzfLiteral_shape (c + 1) inp (i + 1) o out with hl | ⟨i2, o2, out2, hl, hlen⟩
          · rw [hl]
            exact Or.inl rfl
          · rw [hl]
            simp only []
            have hi2 := lzfLiteral_index _ _ _ _ _ _ _ _ hl
            rw [← hlen]
            exact ih i2 o2 out2 (by omega)
        · rcases lzfIn_shape inp (i + 1) with he | ⟨ext, he⟩
          · rw [he]
            exact Or.inl rfl
          · rw [he]
            simp only []
            rcases lzfIn_shape inp (i + 2) with hd | ⟨D, hd⟩
            · rw [hd]
              exact Or.inl rfl
            · rw [hd]
              simp only []
              rcases lzfBackref_shape (c >>> 5 + ext + 2)
                ((o : Int) - (((c &&& 0x1f) <<< 8 : Nat) : Int) - (D : Int) - 1) o out with
                hl | ⟨o2, out2, hl, hlen⟩
              · rw [hl]
                exact Or.inl rfl
              · rw [hl]
                simp only []
                rw [← hlen]
                exact ih (i + 3) o2 out2 (by omega)
        · rcases lzfIn_shape inp (i + 1) with hd | ⟨D, hd⟩
          · rw [hd]
            exact Or.inl rfl
          · rw [hd]
            simp only []
            rcases lzfBackref_shape (c >>> 5 + 2)
              ((o : Int) - (((c &&& 0x1f) <<< 8 : Nat) : Int) - (D : Int) - 1) o out with
              hl | ⟨o2, out2, hl, hlen⟩
            · rw [hl]
              exact Or.inl rfl
            · rw [hl]
              simp only []
              rw [← hlen]
              exact ih (i + 2) o2 out2 (by omega)
    · exact Or.inr ⟨out, rfl, rfl⟩

theorem lzfDecompressNew_shape (inp : Bytes) (inLen : Int) (U : Nat) :
    lzfDecompressNew inp inLen (U : Int) = .error .panicIndexOutOfRange ∨
    ∃ out, lzfDecompressNew inp inLen (U : Int) = .ok out ∧ out.length = U := by
  unfold lzfDecompressNew
  rw [if_neg (by omega)]
  rcases lzfLoop_shape inp inLen inLen.toNat 0 0 (List.replicate (U : Int).toNat 0) (by omega) with
    h | ⟨out, h, hl⟩
  · exact Or.inl h
  · exact Or.inr ⟨out, h, by simpa using hl⟩

theorem lzfSpecDecode_length (inp : Bytes) (U : Nat) (d : Bytes) (hb : ∀ b ∈ inp, b < 256)
    (h : lzfSpecDecode inp U = .ok d) : d.length ≤ U := by
  have h1 := lzfDecompressNew_spec inp U hb
  rw [h] at h1
  rcases lzfDecompressNew_shape inp inp.length U with h2 | ⟨out, h2, hl⟩
  · rw [h2] at h1
    cases h1
  · rw [h2] at h1
    simp only [lzfExpected, Except.ok.injEq] at h1
    rw [h1, List.length_append, List.length_replicate] at hl
    omega

/-- C12, as stated, fails on the stream 00 61 with U = 3: the stream is
well formed, its one literal block decodes to the byte 61, and
`lzfDecompressNew` returns the whole buffer of three bytes, 61 00 00. -/
theorem lzfDecompressNew_pads_short_stream :
    lzfSpecDecode [0x00, 0x61] 3 = .ok [0x61] ∧
    lzfDecompressNew [0x00, 0x61] 2 3 = .ok [0x61, 0, 0] ∧
    lzfDecompressNew [0x00, 0x61] 2 3 ≠ .ok [0x61] := by
  refine ⟨by decide, by decide, by decide⟩

/-- C12, amended: on every well-formed stream, with an output length `U`
that `make` accepts, `lzfDecompressNew(in, len(in), U)` returns the bytes
the reference decoder of the spec decodes, followed by zero bytes up to
the length `U`.  It returns the output of the reference decoder itself
exactly when the blocks decode `U` bytes. -/
theorem lzfDecompressNew_refines_spec (inp : Bytes) (U : Nat) (d : Bytes)
    (hb : ∀ b ∈ inp, b < 256) (_hU : U ≤ makeLimit) (hwf : lzfSpecDecode inp U = .ok d) :
    d.length ≤ U ∧
    lzfDecompressNew inp (inp.length : Int) (U : Int) =
      .ok (d ++ List.replicate (U - d.length) 0) ∧
    (lzfDecompressNew inp (inp.length : Int) (U : Int) = .ok d ↔ d.length = U) := by
  have h1 := lzfDecompressNew_spec inp U hb
  rw [hwf] at h1
  have hlen := lzfSpecDecode_length inp U d hb hwf
  refine ⟨hlen, h1, ?_⟩
  rw [h1]
  simp only [lzfExpected, Except.ok.injEq]
  constructor
  · intro h
    have h2 := congrArg List.length h
    simp only [List.length_append, List.length_replicate] at h2
    omega
  · intro hl
    simp [hl]

/-- The stream 01 61 61 40 00 (C12): a literal block `aa` and a
back-reference of length 4 at distance 1; with U = 6 the blocks decode six
bytes and the code returns them. -/
theorem lzfDecompressNew_refines_spec_witness :
    lzfDecompressNew [0x01, 0x61, 0x61, 0x40, 0x00] 5 6 = .ok [0x61, 0x61, 0x61, 0x61, 0x61, 0x61] :=
  (lzfDecompressNew_refines_spec [0x01, 0x61, 0x61, 0x40, 0x00] 6
    [0x61, 0x61, 0x61, 0x61, 0x61, 0x61] (by decide) (by decide) (by decide)).2.2.2 (by decide)

theorem compressChunks_bytes : ∀ (fuel : Nat) (x : Bytes), (∀ b ∈ x, b < 256) →
    ∀ b ∈ compressChunks fuel x, b < 256 := by
  intro fuel
  induction fuel with
  | zero =>
    intro x _ b hb
    cases x <;> simp [compressChunks] at hb
  | succ fuel ih =>
    intro x hx b hb
    cases x with
    | nil => simp [compressChunks] at hb
    | cons a x =>
      rw [compressChunks, literalChunk, List.cons_append, List.mem_cons, List.mem_append] at hb
      rcases hb with rfl | hb | hb
      · have : (List.take 32 (a :: x)).length ≤ 32 := by
          rw [List.length_take]
          omega
        omega
      · exact hx b (List.mem_of_mem_take hb)
      · exact ih _ (fun c hc => hx c (List.mem_of_mem_drop hc)) b hb

theorem lzfSpecBlocks_compress (U : Nat) : ∀ (fuel : Nat) (x d : Bytes) (fuel2 : Nat),
    x.length ≤ fuel → (compressChunks fuel x).length ≤ fuel2 → d.length + x.length ≤ U →
    lzfSpecBlocks U fuel2 (compressChunks fuel x) d = .ok (d ++ x) := by
  intro fuel
  induction fuel with
  | zero =>
    intro x d fuel2 hx _ _
    have : x = [] := List.length_eq_zero.mp (by omega)
    subst this
    cases fuel2 <;> simp [compressChunks, lzfSpecBlocks]
  | succ fuel ih =>
    intro x d fuel2 hx hf hU
    cases x with
    | nil => cases fuel2 <;> simp [compressChunks, lzfSpecBlocks]
    | cons a x =>
      rw [compressChunks, literalChunk, List.cons_append] at hf ⊢
      have hlen : (List.take 32 (a :: x)).length = min 32 (x.length + 1) := by
        rw [List.length_take, List.length_cons]
      have hpos : 1 ≤ (List.take 32 (a :: x)).length := by
        rw [hlen]
        omega
      have hle : (List.take 32 (a :: x)).length ≤ 32 := by
        rw [hlen]
        omega
      obtain ⟨f2, rfl⟩ : ∃ f2, fuel2 = f2 + 1 := by
        rw [List.length_cons] at hf
        exact ⟨fuel2 - 1, by omega⟩
      have hc1 : (List.take 32 (a :: x)).length - 1 + 1 = (List.take 32 (a :: x)).length := by
        omega
      simp only [lzfSpecBlocks]
      rw [if_pos (by omega), hc1, if_neg (by
        rw [List.length_append]
        omega), if_neg (by
        rw [hlen]
        simp only [List.length_cons] at hU
        omega), List.drop_left, List.take_left]
      have h := ih (List.drop 32 (a :: x)) (d ++ List.take 32 (a :: x)) f2
        (by
          rw [List.length_drop]
          simp only [List.length_cons] at hx ⊢
          omega)
        (by
          rw [List.length_cons, List.length_append] at hf
          omega)
        (by
          rw [List.length_append, List.length_drop, hlen]
          simp only [List.length_cons] at hU ⊢
          omega)
      rw [h, List.append_assoc, List.take_append_drop]

theorem literalEncoding_bytes : ∀ (chunks : List Bytes),
    (∀ c ∈ chunks, c.length ≤ 32) → (∀ b ∈ chunks.flatten, b < 256) →
    ∀ b ∈ literalEncoding chunks, b < 256 := by
  intro chunks
  induction chunks with
  | nil =>
    intro _ _ b hb
    simp [literalEncoding] at hb
  | cons c cs ih =>
    intro hc hx b hb
    simp only [literalEncoding, List.map_cons, List.flatten_cons, literalChunk, List.cons_append,
      List.mem_cons, List.mem_append] at hb
    rcases hb with rfl | hb | hb
    · have := hc c (by simp)
      omega
    · exact hx b (by simp [hb])
    · refine ih (fun c2 h2 => hc c2 (List.mem_cons_of_mem _ h2)) (fun b2 h2 => hx b2 ?_) b hb
      rw [List.flatten_cons]
      exact List.mem_append_right _ h2

theorem lzfSpecBlocks_literal (U : Nat) : ∀ (chunks : List Bytes) (d : Bytes) (fuel : Nat),
    (∀ c ∈ chunks, 1 ≤ c.length ∧ c.length ≤ 32) → (literalEncoding chunks).length ≤ fuel →
    d.length + chunks.flatten.length ≤ U →
    lzfSpecBlocks U fuel (literalEncoding chunks) d = .ok (d ++ chunks.flatten) := by
  intro chunks
  induction chunks with
  | nil =>
    intro d fuel _ _ _
    cases fuel <;> simp [literalEncoding, lzfSpecBlocks]
  | cons c cs ih =>
    intro d fuel hc hf hU
    have hcl := hc c (by simp)
    have henc : literalEncoding (c :: cs) = (c.length - 1) :: (c ++ literalEncoding cs) := by
      simp [literalEncoding, literalChunk]
    rw [henc] at hf ⊢
    rw [List.length_cons, List.length_append] at hf
    rw [List.flatten_cons, List.length_append] at hU
    obtain ⟨f2, rfl⟩ : ∃ f2, fuel = f2 + 1 := ⟨fuel - 1, by omega⟩
    have hc1 : c.length - 1 + 1 = c.length := by omega
    simp only [lzfSpecBlocks]
    rw [if_pos (by omega), hc1, if_neg (by
      rw [List.length_append]
      omega), if_neg (by omega), List.drop_left, List.take_left]
    rw [ih (d ++ c) f2 (fun c2 h2 => hc c2 (List.mem_cons_of_mem _ h2)) (by omega) (by
      rw [List.length_append]
      omega), List.flatten_cons, List.append_assoc]

/-- C14: for every byte string `x`, `lzfDecompressNew` applied to the
literal-only encoding `compress x`, with the length of that encoding and the
output length `x.length`, returns `x`; and so it does for the literal-only
encoding of any cut of `x` into chunks of 1 to 32 bytes. -/
theorem lzfDecompressNew_compress (x : Bytes) (hx : ∀ b ∈ x, b < 256) :
    lzfDecompressNew (compress x) ((compress x).length : Int) (x.length : Int) = .ok x ∧
    ∀ chunks : List Bytes, chunks.flatten = x → (∀ c ∈ chunks, 1 ≤ c.length ∧ c.length ≤ 32) →
      lzfDecompressNew (literalEncoding chunks) ((literalEncoding chunks).length : Int)
        (x.length : Int) = .ok x := by
  constructor
  · rw [lzfDecompressNew_spec (compress x) x.length (compressChunks_bytes _ x hx)]
    unfold lzfSpecDecode
    have h := lzfSpecBlocks_compress x.length x.length x [] (compress x).length (by omega)
      (by unfold compress; omega) (by simp)
    unfold compress at h ⊢
    rw [h]
    simp [lzfExpected]
  · intro chunks hj hc
    subst hj
    rw [lzfDecompressNew_spec (literalEncoding chunks) chunks.flatten.length
      (literalEncoding_bytes chunks (fun c h => (hc c h).2) hx)]
    unfold lzfSpecDecode
    rw [lzfSpecBlocks_literal chunks.flatten.length chunks [] _ hc (by omega) (by simp)]
    simp [lzfExpected]

/-- The round trip of C14 on a string of 33 bytes, which takes two chunks. -/
theorem lzfDecompressNew_compress_witness :
    compress (List.replicate 33 7) = 31 :: List.replicate 32 7 ++ [0, 7] ∧
    lzfDecompressNew (compress (List.replicate 33 7))
      ((compress (List.replicate 33 7)).length : Int) ((List.replicate 33 7).length : Int) =
      .ok (List.replicate 33 7) :=
  ⟨by decide, (lzfDecompressNew_compress (List.replicate 33 7) (by decide)).1⟩

/-! ## The header: `stateMagic` (C15, C16) -/

theorem stateMagic_eval (p : Parser) (s v rest : Bytes) (hr : p.reader = s ++ (v ++ rest))
    (hs : s.length = 5) (hv : v.length = 4) :
    stateMagic p =
      if s ≠ rdbSignature then (.error .ErrWrongSignature, { p with reader := v ++ rest })
      else match Atoi v with
        | none => (.error .ErrWrongSignature, { p with reader := rest })
        | some version =>
          if version > 9 then (.error .ErrVersionUnsupported, { p with reader := rest })
          else (.ok (some .stateOp), { p with reader := rest, rdbVersion := version,
                                              rdbVersion16bit := LittleEndian_PutUint16 version }) := by
  unfold stateMagic
  have h5 := safeRead_append p s (v ++ rest) hr
  rw [hs] at h5
  rw [bind_apply, h5]
  simp only []
  split_ifs with h
  · rfl
  · have h4 := safeRead_append { p with reader := v ++ rest } v rest rfl
    rw [hv] at h4
    rw [bind_apply, h4]
    simp only []
    cases Atoi v with
    | none => rfl
    | some version =>
      simp only []
      split_ifs
      · rfl
      · rfl

theorem atoiDigits_eq : ∀ (l : Bytes) (acc : Nat), (∀ b ∈ l, b < 256) →
    atoiDigits l acc =
      if ∀ b ∈ l, isAsciiDigit b then some (l.foldl (fun a b => a * 10 + (b - 48)) acc) else none := by
  intro l
  induction l with
  | nil =>
    intro acc _
    simp [atoiDigits]
  | cons c l ih =>
    intro acc hb
    have hc : c < 256 := hb c (by simp)
    rw [atoiDigits]
    by_cases hd : isAsciiDigit c
    · have hd2 := hd
      unfold isAsciiDigit at hd2
      have e : (c + 256 - 48) % 256 = c - 48 := by omega
      rw [if_neg (by omega), ih _ (fun b h => hb b (List.mem_cons_of_mem _ h)), e]
      simp [hd]
    · have hd2 := hd
      unfold isAsciiDigit at hd2
      rw [if_pos (by omega)]
      simp [hd]

theorem digits_three (v1 v2 v3 : Nat) :
    (∀ b ∈ [v1, v2, v3], isAsciiDigit b) ↔ isAsciiDigit v1 ∧ isAsciiDigit v2 ∧ isAsciiDigit v3 := by
  simp

theorem digits_four (v0 v1 v2 v3 : Nat) :
    (∀ b ∈ [v0, v1, v2, v3], isAsciiDigit b) ↔
      isAsciiDigit v0 ∧ isAsciiDigit v1 ∧ isAsciiDigit v2 ∧ isAsciiDigit v3 := by
  simp

theorem Atoi_four (v0 v1 v2 v3 : Nat) (h0 : v0 < 256) (h1 : v1 < 256) (h2 : v2 < 256)
    (h3 : v3 < 256) :
    (Atoi [v0, v1, v2, v3] = none ↔
      ¬ (isSignOrDigit v0 ∧ isAsciiDigit v1 ∧ isAsciiDigit v2 ∧ isAsciiDigit v3)) ∧
    (isAsciiDigit v0 → isAsciiDigit v1 → isAsciiDigit v2 → isAsciiDigit v3 →
      Atoi [v0, v1, v2, v3] =
        some (((1000 * (v0 - 48) + 100 * (v1 - 48) + 10 * (v2 - 48) + (v3 - 48) : Nat) : Int))) := by
  have hb3 : ∀ b ∈ [v1, v2, v3], b < 256 := by
    intro b hb
    simp only [List.mem_cons, List.mem_singleton, List.not_mem_nil, or_false] at hb
    rcases hb with rfl | rfl | rfl <;> assumption
  have hb4 : ∀ b ∈ [v0, v1, v2, v3], b < 256 := by
    intro b hb
    simp only [List.mem_cons, List.mem_singleton, List.not_mem_nil, or_false] at hb
    rcases hb with rfl | rfl | rfl | rfl <;> assumption
  constructor
  · unfold Atoi
    simp only []
    split_ifs with c1 c2 c3 c4
    · simp at c2
    · rw [atoiDigits_eq _ _ hb3]
      subst c1
      by_cases hp : ∀ b ∈ [v1, v2, v3], isAsciiDigit b
      · rw [if_pos hp]
        rw [digits_three] at hp
        simp [isSignOrDigit, hp]
      · rw [if_neg hp]
        rw [digits_three] at hp
        simp only [isSignOrDigit]
        constructor
        · intro _ h
          exact hp h.2
        · intro _
          rfl
    · simp at c4
    · rw [atoiDigits_eq _ _ hb3]
      subst c3
      by_cases hp : ∀ b ∈ [v1, v2, v3], isAsciiDigit b
      · rw [if_pos hp]
        rw [digits_three] at hp
        simp [isSignOrDigit, hp]
      · rw [if_neg hp]
        rw [digits_three] at hp
        simp only [isSignOrDigit]
        constructor
        · intro _ h
          exact hp h.2
        · intro _
          rfl
    · rw [atoiDigits_eq _ _ hb4]
      by_cases hp : ∀ b ∈ [v0, v1, v2, v3], isAsciiDigit b
      · rw [if_pos hp]
        rw [digits_four] at hp
        simp [isSignOrDigit, hp]
      · rw [if_neg hp]
        rw [digits_four] at hp
        simp only [isSignOrDigit]
        constructor
        · intro _ h
          rcases h.1 with h0 | h0 | h0
          · exact hp ⟨h0, h.2⟩
          · exact c3 h0
          · exact c1 h0
        · intro _
          rfl
  · intro d0 d1 d2 d3
    have e0 := d0
    have e1 := d1
    have e2 := d2
    have e3 := d3
    unfold isAsciiDigit at e0 e1 e2 e3
    unfold Atoi
    simp only []
    rw [if_neg (by omega), if_neg (by omega), atoiDigits_eq _ _ hb4,
      if_pos ((digits_four v0 v1 v2 v3).mpr ⟨d0, d1, d2, d3⟩)]
    simp only [List.foldl]
    have e : ((((0 * 10 + (v0 - 48)) * 10 + (v1 - 48)) * 10 + (v2 - 48)) * 10 + (v3 - 48)) =
        1000 * (v0 - 48) + 100 * (v1 - 48) + 10 * (v2 - 48) + (v3 - 48) := by omega
    rw [e]
    rfl

theorem ParseRDB_magic_error (env : Env) (input : Bytes) (out : List RedisCommand)
    (ctr : Option Nat) (e : Err) (q : Parser)
    (h : stateMagic (newParser input out ctr) = (.error e, q)) :
    ParseRDB env input out ctr = (.error e, q) := by
  rw [ParseRDB_eq]
  have hc : callState env .stateMagic (newParser input out ctr) = (.error e, q) := h
  rw [hc]

/-- The stream `REDIS+009` has 9 bytes, starts with `REDIS` and its next 4
bytes are not all ASCII digits, and `stateMagic` does not fail on it: it
continues with `stateOp`, and `ParseRDB` goes on to read an opcode. -/
theorem stateMagic_accepts_signed_version :
    signedHeader.length = 9 ∧ signedHeader.take 5 = rdbSignature ∧
    ¬ (∀ b ∈ (signedHeader.drop 5).take 4, isAsciiDigit b) ∧
    (stateMagic (newParser signedHeader [] none)).1 = .ok (some .stateOp) ∧
    (stateMagic (newParser signedHeader [] none)).2.rdbVersion = 9 ∧
    (ParseRDB sampleEnv signedHeader [] none).1 = .error .EOF := by
  refine ⟨by decide, by decide, by decide, by decide!, by decide!, by decide!⟩

/-- C15, amended: on every stream of at least 9 bytes, `stateMagic` fails
with `ErrWrongSignature` exactly when the first 5 bytes are not `REDIS` or
the next 4 bytes are not what `strconv.Atoi` accepts: an ASCII digit or a
sign `+` or `-`, followed by three ASCII digits.  `ParseRDB` then returns
`ErrWrongSignature` and emits no command. -/
theorem stateMagic_wrong_signature (p : Parser) (s : Bytes) (v0 v1 v2 v3 : Nat) (rest : Bytes)
    (hr : p.reader = s ++ ([v0, v1, v2, v3] ++ rest)) (hs : s.length = 5)
    (h0 : v0 < 256) (h1 : v1 < 256) (h2 : v2 < 256) (h3 : v3 < 256) :
    ((stateMagic p).1 = .error .ErrWrongSignature ↔
      (s ≠ rdbSignature ∨
        ¬ (isSignOrDigit v0 ∧ isAsciiDigit v1 ∧ isAsciiDigit v2 ∧ isAsciiDigit v3))) ∧
    ((s ≠ rdbSignature ∨
        ¬ (isSignOrDigit v0 ∧ isAsciiDigit v1 ∧ isAsciiDigit v2 ∧ isAsciiDigit v3)) →
      ∀ env out ctr,
        (ParseRDB env p.reader out ctr).1 = .error .ErrWrongSignature ∧
        (ParseRDB env p.reader out ctr).2.output = out) := by
  have hA := (Atoi_four v0 v1 v2 v3 h0 h1 h2 h3).1
  have key : ∀ p2 : Parser, p2.reader = s ++ ([v0, v1, v2, v3] ++ rest) →
      ((stateMagic p2).1 = .error .ErrWrongSignature ↔
        (s ≠ rdbSignature ∨
          ¬ (isSignOrDigit v0 ∧ isAsciiDigit v1 ∧ isAsciiDigit v2 ∧ isAsciiDigit v3))) ∧
      (stateMagic p2).2.output = p2.output := by
    intro p2 hr2
    rw [stateMagic_eval p2 s [v0, v1, v2, v3] rest hr2 hs rfl]
    by_cases hsig : s = rdbSignature
    · rw [if_neg (not_not.mpr hsig)]
      rcases hat : Atoi [v0, v1, v2, v3] with _ | version
      · have := hA.mp hat
        simp [this]
      · have hne : ¬ (Atoi [v0, v1, v2, v3] = none) := by
          rw [hat]
          simp
        have hdig := not_not.mp (fun h => hne (hA.mpr h))
        simp only []
        split_ifs <;> simp [hsig, hdig]
    · rw [if_pos hsig]
      simp [hsig]
  refine ⟨(key p hr).1, fun hcond env out ctr => ?_⟩
  have hk := key (newParser p.reader out ctr) hr
  have herr := hk.1.mpr hcond
  rcases hsm : stateMagic (newParser p.reader out ctr) with ⟨r, q⟩
  rw [hsm] at herr hk
  simp only [] at herr
  subst herr
  rw [ParseRDB_magic_error env p.reader out ctr _ q hsm]
  exact ⟨rfl, hk.2⟩

/-- The stream `REDIS00a8` fails with `ErrWrongSignature` (C15), and so does
`ParseRDB` on it, with nothing emitted. -/
theorem stateMagic_wrong_signature_witness :
    (stateMagic (newParser (rdbSignature ++ [0x30, 0x30, 0x61, 0x38]) [] none)).1 =
      .error .ErrWrongSignature ∧
    (ParseRDB sampleEnv (rdbSignature ++ [0x30, 0x30, 0x61, 0x38]) [] none).1 =
      .error .ErrWrongSignature ∧
    (ParseRDB sampleEnv (rdbSignature ++ [0x30, 0x30, 0x61, 0x38]) [] none).2.output = [] :=
  ⟨(stateMagic_wrong_signature (newParser (rdbSignature ++ [0x30, 0x30, 0x61, 0x38]) [] none)
      rdbSignature 0x30 0x30 0x61 0x38 [] rfl rfl (by decide) (by decide) (by decide)
      (by decide)).1.mpr (Or.inr (by decide)),
   (stateMagic_wrong_signature (newParser (rdbSignature ++ [0x30, 0x30, 0x61, 0x38]) [] none)
      rdbSignature 0x30 0x30 0x61 0x38 [] rfl rfl (by decide) (by decide) (by decide)
      (by decide)).2 (Or.inr (by decide)) sampleEnv [] none⟩

/-- The stream `REDIS0000` starts with `REDIS` followed by four ASCII
digits that denote 0, which is not one of the versions 1 to 9, and
`stateMagic` accepts it with version 0. -/
theorem stateMagic_accepts_version_zero :
    header0.take 5 = rdbSignature ∧ (∀ b ∈ header0.drop 5, isAsciiDigit b) ∧
    digitsValue 0x30 0x30 0x30 0x30 = 0 ∧
    stateMagic (newParser header0 [] none) =
      (.ok (some .stateOp),
        { newParser header0 [] none with reader := [], rdbVersion := 0, rdbVersion16bit := [0, 0] }) := by
  refine ⟨by decide, by decide, by decide, by decide!⟩

/-- C16, amended: `stateMagic` accepts exactly the versions 0 to 9: on every
stream that starts with `REDIS` followed by four ASCII digits denoting the
integer `n`, it succeeds if and only if `n ≤ 9`, then stores `n` as the
version and continues with `stateOp`; it fails with `ErrVersionUnsupported`
when `n > 9`. -/
theorem stateMagic_accepts_up_to_nine (p : Parser) (v0 v1 v2 v3 : Nat) (rest : Bytes)
    (hr : p.reader = rdbSignature ++ ([v0, v1, v2, v3] ++ rest))
    (d0 : isAsciiDigit v0) (d1 : isAsciiDigit v1) (d2 : isAsciiDigit v2) (d3 : isAsciiDigit v3) :
    ((∃ next q, stateMagic p = (.ok next, q)) ↔ digitsValue v0 v1 v2 v3 ≤ 9) ∧
    (digitsValue v0 v1 v2 v3 ≤ 9 →
      stateMagic p = (.ok (some .stateOp),
        { p with reader := rest, rdbVersion := (digitsValue v0 v1 v2 v3 : Nat),
                 rdbVersion16bit := LittleEndian_PutUint16 (digitsValue v0 v1 v2 v3 : Nat) })) ∧
    (9 < digitsValue v0 v1 v2 v3 →
      stateMagic p = (.error .ErrVersionUnsupported, { p with reader := rest })) := by
  have e0 := d0
  have e1 := d1
  have e2 := d2
  have e3 := d3
  unfold isAsciiDigit at e0 e1 e2 e3
  have hA := (Atoi_four v0 v1 v2 v3 (by omega) (by omega) (by omega) (by omega)).2 d0 d1 d2 d3
  have hev := stateMagic_eval p rdbSignature [v0, v1, v2, v3] rest hr rfl rfl
  rw [if_neg (by simp), hA] at hev
  simp only [] at hev
  have hn : digitsValue v0 v1 v2 v3 =
      1000 * (v0 - 48) + 100 * (v1 - 48) + 10 * (v2 - 48) + (v3 - 48) := rfl
  rw [← hn] at hev
  by_cases h9 : digitsValue v0 v1 v2 v3 ≤ 9
  · rw [if_neg (by omega)] at hev
    exact ⟨⟨fun _ => h9, fun _ => ⟨_, _, hev⟩⟩, fun _ => hev, fun h => by omega⟩
  · rw [if_pos (by omega)] at hev
    refine ⟨⟨fun h => ?_, fun h => absurd h h9⟩, fun h => absurd h h9, fun _ => hev⟩
    obtain ⟨next, q, hq⟩ := h
    rw [hev] at hq
    cases hq

/-- Version 8 is accepted and version 10 is refused (C16). -/
theorem stateMagic_accepts_up_to_nine_witness :
    stateMagic (newParser header8 [] none) =
      (.ok (some .stateOp),
        { newParser header8 [] none with reader := [], rdbVersion := 8, rdbVersion16bit := [8, 0] }) ∧
    stateMagic (newParser (rdbSignature ++ [0x30, 0x30, 0x31, 0x30]) [] none) =
      (.error .ErrVersionUnsupported,
        { newParser (rdbSignature ++ [0x30, 0x30, 0x31, 0x30]) [] none with reader := [] }) :=
  ⟨(stateMagic_accepts_up_to_nine (newParser header8 [] none) 0x30 0x30 0x30 0x38 [] rfl
      (by decide) (by decide) (by decide) (by decide)).2.1 (by decide),
   (stateMagic_accepts_up_to_nine (newParser (rdbSignature ++ [0x30, 0x30, 0x31, 0x30]) [] none)
      0x30 0x30 0x31 0x30 [] rfl (by decide) (by decide) (by decide) (by decide)).2.2 (by decide)⟩

/-! ## The stream opcode 0F (C17) -/

theorem visited_suffix (env : Env) : ∀ (fuel : Nat) (st0 : Option State) (p0 : Parser)
    (st : State) (p : Parser), (st, p) ∈ visited env fuel st0 p0 →
    ∃ k, runStates env fuel st0 p0 = runStates env (k + 1) (some st) p := by
  intro fuel
  induction fuel with
  | zero =>
    intro st0 p0 st p h
    cases st0 <;> simp [visited] at h
  | succ fuel ih =>
    intro st0 p0 st p h
    cases st0 with
    | none => simp [visited] at h
    | some s0 =>
      rw [visited, List.mem_cons] at h
      rcases h with h | h
      · obtain ⟨h1, h2⟩ := Prod.mk.inj h
        subst h1 h2
        exact ⟨fuel, rfl⟩
      · rcases hc : callState env s0 p0 with ⟨r, q⟩
        rw [hc] at h
        cases r with
        | error e => simp at h
        | ok next =>
          simp only [] at h
          obtain ⟨k, hk⟩ := ih next q st p h
          exact ⟨k, by rw [runStates_ok env fuel s0 p0 next q hc, hk]⟩

theorem avoids_bind {α β : Type} {e0 : Err} {m : M α} {f : α → M β}
    (hm : Avoids e0 m) (hf : ∀ a, Avoids e0 (f a)) : Avoids e0 (m >>= f) := by
  intro p
  rw [bind_apply]
  have h1 := hm p
  rcases h : m p with ⟨r, p1⟩
  rw [h] at h1
  cases r with
  | ok a => exact hf a p1
  | error e =>
    intro he
    cases he
    exact h1 rfl

theorem avoids_pure {α : Type} (e0 : Err) (a : α) : Avoids e0 (pure a : M α) := by
  intro p
  simp [pure_apply]

theorem avoids_fail {α : Type} {e0 : Err} (e : Err) (he : e ≠ e0) : Avoids e0 (fail e : M α) := by
  intro p h
  simp only [fail, Except.error.injEq] at h
  exact he h

theorem avoids_liftE {α : Type} {e0 : Err} (r : Except Err α) (hr : r ≠ .error e0) :
    Avoids e0 (liftE r) := by
  intro p
  exact hr

theorem readByte_avoids_unsupportedOp : Avoids .ErrUnsupportedOp readByte := by
  intro p
  unfold readByte
  cases p.reader <;> simp

theorem safeRead_avoids_unsupportedOp (n : Nat) : Avoids .ErrUnsupportedOp (safeRead n) := by
  intro p
  unfold safeRead
  split_ifs <;> simp

theorem commandWrite_avoids (e0 : Err) (save : Bool) (data : Bytes) :
    Avoids e0 (commandWrite save data) := by
  intro p
  unfold commandWrite
  split_ifs <;> simp

theorem uint_avoids_unsupportedOp (b : Bytes) :
    BigEndian_Uint32 b ≠ .error .ErrUnsupportedOp ∧ BigEndian_Uint64 b ≠ .error .ErrUnsupportedOp := by
  unfold BigEndian_Uint32 BigEndian_Uint64
  refine ⟨?_, ?_⟩ <;> split_ifs <;> simp

theorem lzfDecompressNew_avoids_unsupportedOp (inp : Bytes) (inLen outLen : Int) :
    lzfDecompressNew inp inLen outLen ≠ .error .ErrUnsupportedOp := by
  unfold lzfDecompressNew
  split_ifs
  · simp
  · rcases lzfLoop_shape inp inLen inLen.toNat 0 0 (List.replicate outLen.toNat 0) (by omega) with
      h | ⟨out, h, -⟩
    · rw [h]
      simp
    · rw [h]
      simp

theorem readLength_avoids_unsupportedOp (save : Bool) :
    Avoids .ErrUnsupportedOp (readLength save) := by
  unfold readLength
  refine avoids_bind readByte_avoids_unsupportedOp (fun pfx => ?_)
  refine avoids_bind (commandWrite_avoids _ save _) (fun _ => ?_)
  simp only []
  split_ifs
  · exact avoids_pure _ _
  · refine avoids_bind readByte_avoids_unsupportedOp (fun d => ?_)
    refine avoids_bind (commandWrite_avoids _ save _) (fun _ => ?_)
    exact avoids_pure _ _
  · refine avoids_bind (safeRead_avoids_unsupportedOp _) (fun d => ?_)
    refine avoids_bind (commandWrite_avoids _ save _) (fun _ => ?_)
    refine avoids_bind (avoids_liftE _ (uint_avoids_unsupportedOp d).1) (fun _ => ?_)
    exact avoids_pure _ _
  · refine avoids_bind (safeRead_avoids_unsupportedOp _) (fun d => ?_)
    refine avoids_bind (commandWrite_avoids _ save _) (fun _ => ?_)
    refine avoids_bind (avoids_liftE _ (uint_avoids_unsupportedOp d).2) (fun _ => ?_)
    exact avoids_pure _ _
  · exact avoids_fail _ (by simp)
  · exact avoids_pure _ _
  · exact avoids_fail _ (by simp)

/-- Reading a string never fails with `ErrUnsupportedOp`: its failures are
those of the reads, `ErrUnsupportedStringEnc` and the panics. -/
theorem readString_avoids_unsupportedOp (save : Bool) :
    Avoids .ErrUnsupportedOp (readString save) := by
  unfold readString
  refine avoids_bind (readLength_avoids_unsupportedOp false) (fun x => ?_)
  obtain ⟨length, encoding⟩ := x
  simp only []
  split_ifs
  · refine avoids_bind (safeRead_avoids_unsupportedOp _) (fun d => ?_)
    refine avoids_bind (commandWrite_avoids _ save _) (fun _ => ?_)
    exact avoids_pure _ _
  · refine avoids_bind (safeRead_avoids_unsupportedOp _) (fun d => ?_)
    refine avoids_bind (commandWrite_avoids _ save _) (fun _ => ?_)
    exact avoids_pure _ _
  · refine avoids_bind (readLength_avoids_unsupportedOp save) (fun x => ?_)
    obtain ⟨clength, _⟩ := x
    refine avoids_bind (readLength_avoids_unsupportedOp save) (fun x => ?_)
    obtain ⟨ulength, _⟩ := x
    refine avoids_bind (safeRead_avoids_unsupportedOp _) (fun d => ?_)
    refine avoids_bind (commandWrite_avoids _ save _) (fun _ => ?_)
    exact avoids_liftE _ (lzfDecompressNew_avoids_unsupportedOp _ _ _)
  · exact avoids_fail _ (by simp)

theorem run_listpacks (env : Env) (k : Nat) (p : Parser) (rest : Bytes)
    (hr : p.reader = rdbOpStreamListpacks :: rest)
    (hfuel : (runStates env (k + 1) (some .stateOp) p).1 ≠ .error .outOfFuel) :
    (runStates env (k + 1) (some .stateOp) p).2.output = p.output ∧
    (∀ key q, readString false (afterValueOp p rdbOpStreamListpacks rest .stateCopyListpacks) =
        (.ok key, q) → (runStates env (k + 1) (some .stateOp) p).1 = .error .notImp) ∧
    (∀ e q, readString false (afterValueOp p rdbOpStreamListpacks rest .stateCopyListpacks) =
        (.error e, q) → (runStates env (k + 1) (some .stateOp) p).1 = .error e) ∧
    (runStates env (k + 1) (some .stateOp) p).1 ≠ .error .ErrUnsupportedOp ∧
    (runStates env (k + 1) (some .stateOp) p).1 ≠ .ok () := by
  have hop : callState env .stateOp p =
      (.ok (some .stateKey), afterValueOp p rdbOpStreamListpacks rest .stateCopyListpacks) :=
    stateOp_value p _ rest .stateCopyListpacks hr (by decide)
  rw [runStates_ok env k .stateOp p _ _ hop] at hfuel ⊢
  cases k with
  | zero => exact absurd rfl hfuel
  | succ k =>
    have hrd := reads_readString false
      (afterValueOp p rdbOpStreamListpacks rest .stateCopyListpacks)
    have hkey := stateKey_eq (afterValueOp p rdbOpStreamListpacks rest .stateCopyListpacks)
    have hav := readString_avoids_unsupportedOp false
      (afterValueOp p rdbOpStreamListpacks rest .stateCopyListpacks)
    rcases hrs : readString false (afterValueOp p rdbOpStreamListpacks rest .stateCopyListpacks)
      with ⟨r, mid⟩
    rw [hrs] at hrd hkey hav
    have hf := reads_fields hrd
    cases r with
    | error e =>
      simp only [] at hkey
      have hc : callState env .stateKey
          (afterValueOp p rdbOpStreamListpacks rest .stateCopyListpacks) = (.error e, mid) := hkey
      rw [runStates_error env k .stateKey _ e mid hc]
      refine ⟨hf.1, fun key q h => ?_, fun e2 q h => ?_, fun h => ?_, fun h => ?_⟩
      · cases h
      · obtain ⟨h1, -⟩ := Prod.mk.inj h
        cases h1
        rfl
      · cases h
        exact hav rfl
      · cases h
    | ok key =>
      simp only [] at hkey
      have hvs : mid.valueState = some .stateCopyListpacks := hf.2.2.2.2.2.2.1
      have hc : callState env .stateKey
          (afterValueOp p rdbOpStreamListpacks rest .stateCopyListpacks) =
          (.ok mid.valueState, { mid with key := key }) := hkey
      have hnext : runStates env k mid.valueState { mid with key := key } =
          runStates env k (some .stateCopyListpacks) { mid with key := key } :=
        congrArg (fun s => runStates env k s { mid with key := key }) hvs
      rw [runStates_ok env k .stateKey _ _ _ hc, hnext] at hfuel ⊢
      cases k with
      | zero => exact absurd rfl hfuel
      | succ k =>
        have hl : callState env .stateCopyListpacks { mid with key := key } =
            (.error .notImp, { mid with key := key }) := rfl
        rw [runStates_error env k .stateCopyListpacks _ _ _ hl]
        refine ⟨hf.1, fun key2 q h => rfl, fun e2 q h => ?_, fun h => ?_, fun h => ?_⟩
        · cases h
        · cases h
        · cases h

/-- The file `listpacksFile` has one record, with opcode 0F: `stateOp`
reads that opcode, and `ParseRDB` fails with the error `not imp` of
`stateCopyListpacks`, not with `ErrUnsupportedOp`. -/
theorem listpacks_fails_with_not_imp :
    (parseTrace sampleEnv listpacksFile [] none).filterMap opAt = [rdbOpStreamListpacks] ∧
    (ParseRDB sampleEnv listpacksFile [] none).1 = .error .notImp ∧
    (ParseRDB sampleEnv listpacksFile [] none).1 ≠ .error .ErrUnsupportedOp := by
  refine ⟨by decide!, by decide!, by decide!⟩

/-- C17, amended: on every input in which `stateOp` reads the opcode 0F as
a top-level opcode, `ParseRDB` fails and emits no command for that record:
the output at the end is the output when the opcode was read.  The failure
is the error `not imp` of `stateCopyListpacks` when the key of the record
can be read, and the error of reading the key otherwise; in both cases
`ParseRDB` does not return `ErrUnsupportedOp`, and it does not succeed. -/
theorem listpacks_record_fails (env : Env) (input : Bytes) (out : List RedisCommand)
    (ctr : Option Nat) (p : Parser) (rest : Bytes)
    (hmem : (State.stateOp, p) ∈ parseTrace env input out ctr)
    (hr : p.reader = rdbOpStreamListpacks :: rest) :
    (ParseRDB env input out ctr).2.output = p.output ∧
    (∀ key q, readString false (afterValueOp p rdbOpStreamListpacks rest .stateCopyListpacks) =
        (.ok key, q) → (ParseRDB env input out ctr).1 = .error .notImp) ∧
    (∀ e q, readString false (afterValueOp p rdbOpStreamListpacks rest .stateCopyListpacks) =
        (.error e, q) → (ParseRDB env input out ctr).1 = .error e) ∧
    (ParseRDB env input out ctr).1 ≠ .error .ErrUnsupportedOp ∧
    (ParseRDB env input out ctr).1 ≠ .ok () := by
  obtain ⟨k, hk⟩ := visited_suffix env _ _ _ _ _ hmem
  have hfuel := ParseRDB_fuel_enough env input out ctr
  unfold ParseRDB at hfuel ⊢
  rw [hk] at hfuel ⊢
  exact run_listpacks env k p rest hr hfuel

/-- The record of `listpacksFile` (C17): `stateOp` reads 0F, the key `k` is
read, and `ParseRDB` fails with `not imp` without a command. -/
theorem listpacks_record_fails_witness :
    (State.stateOp, listpacksParser) ∈ parseTrace sampleEnv listpacksFile [] none ∧
    (ParseRDB sampleEnv listpacksFile [] none).2.output = [] ∧
    (ParseRDB sampleEnv listpacksFile [] none).1 = .error .notImp :=
  ⟨by decide!,
   (listpacks_record_fails sampleEnv listpacksFile [] none listpacksParser
      (listpacksFile.drop 10) (by decide!) (by decide)).1,
   (listpacks_record_fails sampleEnv listpacksFile [] none listpacksParser
      (listpacksFile.drop 10) (by decide!) (by decide)).2.1 [0x6b]
      (readString false (afterValueOp listpacksParser rdbOpStreamListpacks
        (listpacksFile.drop 10) .stateCopyListpacks)).2 (by decide!)⟩

/-! ## A dry run: `SkipRDB` (C18) -/

theorem sameButQueue_refl (p : Parser) : SameButQueue p p := ⟨p.output, p.counter, rfl⟩

theorem agree_bind {α β : Type} {m1 m2 : M α} {f1 f2 : α → M β}
    (hm : Agree m1 m2) (hf : ∀ a, Agree (f1 a) (f2 a)) : Agree (m1 >>= f1) (m2 >>= f2) := by
  intro p1 p2 hp
  rw [bind_apply, bind_apply]
  obtain ⟨hr, hq⟩ := hm p1 p2 hp
  rcases e1 : m1 p1 with ⟨r1, q1⟩
  rcases e2 : m2 p2 with ⟨r2, q2⟩
  rw [e1, e2] at hr hq
  simp only [] at hr hq
  subst hr
  cases r1 with
  | ok a => exact hf a q1 q2 hq
  | error e => exact ⟨rfl, hq⟩

theorem agree_lift {α : Type} (m : M α)
    (h : ∀ p o c, m { p with output := o, counter := c } =
      ((m p).1, { (m p).2 with output := o, counter := c })) : Agree m m := by
  intro p1 p2 hp
  obtain ⟨o, c, rfl⟩ := hp
  have e := h p1 o c
  exact ⟨by rw [e], o, c, by rw [e]⟩

theorem agree_pure {α : Type} (a : α) : Agree (pure a : M α) (pure a) :=
  agree_lift _ (fun _ _ _ => rfl)

theorem agree_fail {α : Type} (e : Err) : Agree (fail e : M α) (fail e) :=
  agree_lift _ (fun _ _ _ => rfl)

theorem agree_liftE {α : Type} (r : Except Err α) : Agree (liftE r) (liftE r) :=
  agree_lift _ (fun _ _ _ => rfl)

theorem agree_readByte : Agree readByte readByte := by
  refine agree_lift _ (fun p o c => ?_)
  cases h : p.reader <;> simp [readByte, h]

theorem agree_safeRead (n : Nat) : Agree (safeRead n) (safeRead n) := by
  refine agree_lift _ (fun p o c => ?_)
  simp only [safeRead]
  split_ifs <;> rfl

theorem agree_commandWrite (save : Bool) (data : Bytes) :
    Agree (commandWrite save data) (commandWrite save data) := by
  refine agree_lift _ (fun p o c => ?_)
  simp only [commandWrite]
  split_ifs <;> rfl

theorem agree_toKey (s : State) : Agree (toKey s) (toKey s) :=
  agree_lift _ (fun _ _ _ => rfl)

theorem agree_keep (env1 env2 : Env) : Agree (keep env1) (keep env2) := by
  intro p1 p2 hp
  obtain ⟨o, c, rfl⟩ := hp
  rw [keep_eq, keep_eq]
  refine ⟨rfl, ?_⟩
  cases env1.SkipRDB <;> cases env2.SkipRDB <;> exact ⟨_, _, rfl⟩

theorem agree_readLength (save : Bool) : Agree (readLength save) (readLength save) := by
  unfold readLength
  refine agree_bind agree_readByte (fun pfx => ?_)
  refine agree_bind (agree_commandWrite save _) (fun _ => ?_)
  simp only []
  split_ifs
  · exact agree_pure _
  · refine agree_bind agree_readByte (fun d => ?_)
    refine agree_bind (agree_commandWrite save _) (fun _ => ?_)
    exact agree_pure _
  · refine agree_bind (agree_safeRead _) (fun d => ?_)
    refine agree_bind (agree_commandWrite save _) (fun _ => ?_)
    refine agree_bind (agree_liftE _) (fun _ => ?_)
    exact agree_pure _
  · refine agree_bind (agree_safeRead _) (fun d => ?_)
    refine agree_bind (agree_commandWrite save _) (fun _ => ?_)
    refine agree_bind (agree_liftE _) (fun _ => ?_)
    exact agree_pure _
  · exact agree_fail _
  · exact agree_pure _
  · exact agree_fail _

theorem agree_copyString (save : Bool) : Agree (copyString save) (copyString save) := by
  unfold copyString
  refine agree_bind (agree_readLength save) (fun x => ?_)
  obtain ⟨length, encoding⟩ := x
  simp only []
  split_ifs
  · refine agree_bind (agree_safeRead _) (fun d => ?_)
    exact agree_commandWrite save _
  · refine agree_bind (agree_safeRead _) (fun d => ?_)
    exact agree_commandWrite save _
  · refine agree_bind (agree_readLength save) (fun x => ?_)
    obtain ⟨clength, _⟩ := x
    refine agree_bind (agree_readLength save) (fun x => ?_)
    refine agree_bind (agree_safeRead _) (fun d => ?_)
    exact agree_commandWrite save _
  · exact agree_fail _

theorem agree_readString (save : Bool) : Agree (readString save) (readString save) := by
  unfold readString
  refine agree_bind (agree_readLength false) (fun x => ?_)
  obtain ⟨length, encoding⟩ := x
  simp only []
  split_ifs
  · refine agree_bind (agree_safeRead _) (fun d => ?_)
    refine agree_bind (agree_commandWrite save _) (fun _ => ?_)
    exact agree_pure _
  · refine agree_bind (agree_safeRead _) (fun d => ?_)
    refine agree_bind (agree_commandWrite save _) (fun _ => ?_)
    exact agree_pure _
  · refine agree_bind (agree_readLength save) (fun x => ?_)
    obtain ⟨clength, _⟩ := x
    refine agree_bind (agree_readLength save) (fun x => ?_)
    obtain ⟨ulength, _⟩ := x
    refine agree_bind (agree_safeRead _) (fun d => ?_)
    refine agree_bind (agree_commandWrite save _) (fun _ => ?_)
    exact agree_liftE _
  · exact agree_fail _

theorem agree_loopN (body : M Unit) (h : Agree body body) (n : Nat) :
    Agree (loopN body n) (loopN body n) := by
  induction n with
  | zero => exact agree_pure _
  | succ n ih =>
    unfold loopN
    exact agree_bind h (fun _ => ih)

theorem agree_zsetEntry : Agree zsetEntry zsetEntry := by
  unfold zsetEntry
  refine agree_bind (agree_copyString true) (fun _ => ?_)
  refine agree_bind agree_readByte (fun dlen => ?_)
  refine agree_bind (agree_commandWrite true _) (fun _ => ?_)
  split_ifs
  · refine agree_bind (agree_safeRead _) (fun d => ?_)
    exact agree_commandWrite true _
  · exact agree_pure _

theorem agree_zset2Entry : Agree zset2Entry zset2Entry := by
  unfold zset2Entry
  refine agree_bind (agree_copyString true) (fun _ => ?_)
  refine agree_bind (agree_safeRead _) (fun d => ?_)
  refine agree_bind (agree_liftE _) (fun _ => ?_)
  exact agree_pure _

theorem agree_readUnsigned (save : Bool) : Agree (readUnsigned save) (readUnsigned save) := by
  unfold readUnsigned
  refine agree_bind (agree_readLength save) (fun x => ?_)
  obtain ⟨val, _⟩ := x
  simp only []
  split_ifs
  · exact agree_fail _
  · refine agree_bind (agree_readLength save) (fun x => ?_)
    exact agree_pure _

theorem agree_readDouble (save : Bool) : Agree (readDouble save) (readDouble save) := by
  unfold readDouble
  refine agree_bind (agree_readLength save) (fun x => ?_)
  obtain ⟨val, _⟩ := x
  simp only []
  split_ifs
  · exact agree_fail _
  · refine agree_bind (agree_safeRead _) (fun d => ?_)
    refine agree_bind (agree_commandWrite true _) (fun _ => ?_)
    refine agree_bind (agree_liftE _) (fun _ => ?_)
    exact agree_pure _

theorem agree_readStringBuffer (save : Bool) :
    Agree (readStringBuffer save) (readStringBuffer save) := by
  unfold readStringBuffer
  refine agree_bind (agree_readLength save) (fun x => ?_)
  obtain ⟨val, _⟩ := x
  simp only []
  split_ifs
  · exact agree_fail _
  · refine agree_bind (agree_copyString save) (fun x => ?_)
    exact agree_pure _

theorem agree_bloomEntry : Agree bloomEntry bloomEntry := by
  unfold bloomEntry
  refine agree_bind (agree_readUnsigned true) (fun _ => ?_)
  refine agree_bind (agree_readDouble true) (fun _ => ?_)
  refine agree_bind (agree_readUnsigned true) (fun _ => ?_)
  refine agree_bind (agree_readDouble true) (fun _ => ?_)
  refine agree_bind (agree_readUnsigned true) (fun _ => ?_)
  refine agree_bind (agree_readUnsigned true) (fun _ => ?_)
  refine agree_bind (agree_readStringBuffer true) (fun _ => ?_)
  refine agree_bind (agree_readUnsigned true) (fun _ => ?_)
  exact agree_pure _

theorem agree_cuckooEntry : Agree cuckooEntry cuckooEntry := by
  unfold cuckooEntry
  refine agree_bind (agree_readUnsigned true) (fun _ => ?_)
  refine agree_bind (agree_readStringBuffer true) (fun _ => ?_)
  exact agree_pure _

theorem agree_keepEnd (env1 env2 : Env) :
    Agree (keep env1 >>= fun _ => (pure (some State.stateOp) : M (Option State)))
      (keep env2 >>= fun _ => (pure (some State.stateOp) : M (Option State))) :=
  agree_bind (agree_keep env1 env2) (fun _ => agree_pure _)

theorem agree_moduleEOF (env1 env2 : Env) : Agree (moduleEOF env1) (moduleEOF env2) := by
  unfold moduleEOF
  refine agree_bind (agree_readLength true) (fun x => ?_)
  obtain ⟨eof, _⟩ := x
  simp only []
  split_ifs
  · exact agree_fail _
  · exact agree_keepEnd env1 env2

theorem agree_stateCopyModule2 (env1 env2 : Env) :
    Agree (stateCopyModule2 env1) (stateCopyModule2 env2) := by
  unfold stateCopyModule2
  refine agree_bind (agree_readLength true) (fun x => ?_)
  obtain ⟨length, _⟩ := x
  simp only []
  split_ifs
  · unfold stateCopyBloomFilter
    refine agree_bind (agree_readUnsigned true) (fun _ => ?_)
    refine agree_bind (agree_readUnsigned true) (fun _ => ?_)
    refine agree_bind (agree_readUnsigned true) (fun _ => ?_)
    refine agree_bind (agree_readUnsigned true) (fun _ => ?_)
    refine agree_bind (agree_loopN _ agree_bloomEntry _) (fun _ => ?_)
    exact agree_moduleEOF env1 env2
  · unfold stateCopyCuckooFilter
    refine agree_bind (agree_readUnsigned true) (fun _ => ?_)
    refine agree_bind (agree_readUnsigned true) (fun _ => ?_)
    refine agree_bind (agree_readUnsigned true) (fun _ => ?_)
    refine agree_bind (agree_readUnsigned true) (fun _ => ?_)
    refine agree_bind (agree_readUnsigned true) (fun _ => ?_)
    refine agree_bind (agree_readUnsigned true) (fun _ => ?_)
    refine agree_bind (agree_readUnsigned true) (fun _ => ?_)
    refine agree_bind (agree_loopN _ agree_cuckooEntry _) (fun _ => ?_)
    exact agree_moduleEOF env1 env2
  · exact agree_fail _

theorem agree_stateMagic : Agree stateMagic stateMagic := by
  unfold stateMagic
  refine agree_bind (agree_safeRead _) (fun signature => ?_)
  split_ifs
  · exact agree_fail _
  · refine agree_bind (agree_safeRead _) (fun versionRaw => ?_)
    cases Atoi versionRaw with
    | none => exact agree_fail _
    | some version =>
      simp only []
      split_ifs
      · exact agree_fail _
      · exact agree_bind (agree_lift _ (fun _ _ _ => rfl)) (fun _ => agree_pure _)

theorem agree_stateOp : Agree stateOp stateOp := by
  intro p1 p2 hp
  obtain ⟨o, c, rfl⟩ := hp
  have hcases : p1.reader = [] ∨ ∃ op rest, p1.reader = op :: rest := by
    cases p1.reader <;> simp
  rcases hcases with hr | ⟨op, rest, hr⟩
  · rw [stateOp_nil p1 hr, stateOp_nil { p1 with output := o, counter := c } hr]
    exact ⟨rfl, o, c, rfl⟩
  · cases hc : copierOf op with
    | some s =>
      rw [stateOp_value p1 op rest s hr hc,
        stateOp_value { p1 with output := o, counter := c } op rest s hr hc]
      exact ⟨rfl, o, c, rfl⟩
    | none =>
      rw [stateOp_other p1 op rest hr hc,
        stateOp_other { p1 with output := o, counter := c } op rest hr hc]
      cases framingOf op with
      | some s => exact ⟨rfl, o, c, rfl⟩
      | none =>
        simp only []
        split_ifs
        · exact ⟨rfl, o, c, rfl⟩
        · exact ⟨rfl, o, c, rfl⟩
        · exact ⟨rfl, o, c, rfl⟩

theorem agree_copier (env1 env2 : Env) (m : M Unit) (hm : Agree m m) :
    Agree (m >>= fun _ => keep env1 >>= fun _ => (pure (some State.stateOp) : M (Option State)))
      (m >>= fun _ => keep env2 >>= fun _ => (pure (some State.stateOp) : M (Option State))) :=
  agree_bind hm (fun _ => agree_keepEnd env1 env2)

theorem agree_lengthCopier (env1 env2 : Env) (body : M Unit) (hb : Agree body body) :
    Agree
      (readLength true >>= fun x => loopN body x.1 >>= fun _ => keep env1 >>= fun _ =>
        (pure (some State.stateOp) : M (Option State)))
      (readLength true >>= fun x => loopN body x.1 >>= fun _ => keep env2 >>= fun _ =>
        (pure (some State.stateOp) : M (Option State))) :=
  agree_bind (agree_readLength true) (fun x =>
    agree_bind (agree_loopN body hb x.1) (fun _ => agree_keepEnd env1 env2))

/-- The state functions do not look at the queue, and two environments with
the same clock make them agree. -/
theorem agree_callState (env1 env2 : Env) (ht : env1.currentTimestamp = env2.currentTimestamp)
    (st : State) : Agree (callState env1 st) (callState env2 st) := by
  cases st with
  | stateMagic => exact agree_stateMagic
  | stateOp => exact agree_stateOp
  | stateResizeDB =>
    exact agree_bind (agree_readLength false) (fun _ =>
      agree_bind (agree_readLength false) (fun _ => agree_pure _))
  | stateAux =>
    exact agree_bind (agree_readString false) (fun _ =>
      agree_bind (agree_readString false) (fun _ => agree_pure _))
  | stateDB => exact agree_bind (agree_readLength false) (fun _ => agree_pure _)
  | stateExpirySec =>
    show Agree (stateExpirySec env1) (stateExpirySec env2)
    unfold stateExpirySec
    rw [ht]
    refine agree_bind (agree_safeRead _) (fun d => ?_)
    refine agree_bind (agree_liftE _) (fun fd => ?_)
    exact agree_bind (agree_lift _ (fun _ _ _ => rfl)) (fun _ => agree_pure _)
  | stateExpiryMSec =>
    show Agree (stateExpiryMSec env1) (stateExpiryMSec env2)
    unfold stateExpiryMSec
    rw [ht]
    refine agree_bind (agree_safeRead _) (fun d => ?_)
    refine agree_bind (agree_liftE _) (fun fc => ?_)
    simp only []
    split_ifs
    · exact agree_bind (agree_lift _ (fun _ _ _ => rfl)) (fun _ => agree_pure _)
    · exact agree_bind (agree_lift _ (fun _ _ _ => rfl)) (fun _ => agree_pure _)
  | stateKey =>
    exact agree_bind (agree_readString false) (fun _ => agree_lift _ (fun _ _ _ => rfl))
  | stateCopyString => exact agree_copier env1 env2 _ (agree_copyString true)
  | stateCopySetOrList => exact agree_lengthCopier env1 env2 _ (agree_copyString true)
  | stateCopyHash =>
    exact agree_lengthCopier env1 env2 _
      (agree_bind (agree_copyString true) (fun _ => agree_copyString true))
  | stateCopyZset => exact agree_lengthCopier env1 env2 _ agree_zsetEntry
  | stateCopyZset2 => exact agree_lengthCopier env1 env2 _ agree_zset2Entry
  | stateCopyQuicklist => exact agree_lengthCopier env1 env2 _ (agree_copyString true)
  | stateCopyListpacks => exact agree_fail _
  | stateCopyModule2 => exact agree_stateCopyModule2 env1 env2
  | stateCRC64 => exact agree_bind (agree_safeRead _) (fun _ => agree_pure _)
  | statePadding => exact agree_pure _

theorem agree_run (env1 env2 : Env) (ht : env1.currentTimestamp = env2.currentTimestamp) :
    ∀ (fuel : Nat) (st : Option State) (p1 p2 : Parser), SameButQueue p1 p2 →
      (runStates env1 fuel st p1).1 = (runStates env2 fuel st p2).1 ∧
      SameButQueue (runStates env1 fuel st p1).2 (runStates env2 fuel st p2).2 := by
  intro fuel
  induction fuel with
  | zero =>
    intro st p1 p2 hp
    cases st with
    | none => exact ⟨rfl, hp⟩
    | some s => exact ⟨rfl, hp⟩
  | succ fuel ih =>
    intro st p1 p2 hp
    cases st with
    | none => exact ⟨rfl, hp⟩
    | some s =>
      obtain ⟨hr, hq⟩ := agree_callState env1 env2 ht s p1 p2 hp
      rcases e1 : callState env1 s p1 with ⟨r1, q1⟩
      rcases e2 : callState env2 s p2 with ⟨r2, q2⟩
      rw [e1, e2] at hr hq
      simp only [] at hr hq
      subst hr
      cases r1 with
      | ok next =>
        rw [runStates_ok env1 fuel s p1 next q1 e1, runStates_ok env2 fuel s p2 next q2 e2]
        exact ih next q1 q2 hq
      | error e =>
        rw [runStates_error env1 fuel s p1 e q1 e1, runStates_error env2 fuel s p2 e q2 e2]
        exact ⟨rfl, hq⟩

theorem run_skip_counter (env : Env) (hskip : env.SkipRDB = true) :
    ∀ fuel st p, (runStates env fuel st p).2.counter = p.counter := by
  apply run_induction env
  · intro fuel p
    rw [runStates_none]
  · intro st p
    rfl
  · intro fuel st p e q h hf
    rw [runStates_error env fuel st p e q h]
    exact (failed_fields hf).2.1
  · intro fuel st p next q h hs ih
    rw [runStates_ok env fuel st p next q h, ih]
    cases hs with
    | magic _ mid version v16 hr hl => exact (reads_fields hr).2.1
    | opValue _ op rest c hr hc => rfl
    | opFraming _ op rest s hr hc hf => rfl
    | opEOF _ op rest hr hc hf he => rfl
    | skip _ _ _ hst2 hr => exact (reads_fields hr).2.1
    | expiry _ _ mid e hst2 hr => exact (reads_fields hr).2.1
    | key _ mid k hk hr => exact (reads_fields hr).2.1
    | copier _ _ mid hcop hr =>
      rw [keep_eq, hskip]
      exact (reads_fields hr).2.1
    | crc _ _ hr => exact (reads_fields hr).2.1
    | padding _ => rfl

/-- C18: with `SkipRDB` set, on every input `ParseRDB` sends no command and
leaves the counter unchanged, and it returns the same result, nil or the
same error, and leaves the same bytes of the stream unread as it does on
that input, output queue and counter with `SkipRDB` unset. -/
theorem skipRDB_dry_run (env : Env) (hskip : env.SkipRDB = true) (input : Bytes)
    (out : List RedisCommand) (ctr : Option Nat) :
    (ParseRDB env input out ctr).2.output = out ∧
    (ParseRDB env input out ctr).2.counter = ctr ∧
    (ParseRDB env input out ctr).1 = (ParseRDB { env with SkipRDB := false } input out ctr).1 ∧
    (ParseRDB env input out ctr).2.reader =
      (ParseRDB { env with SkipRDB := false } input out ctr).2.reader := by
  have h := agree_run env { env with SkipRDB := false } rfl (3 * input.length + 3)
    (some .stateMagic) (newParser input out ctr) (newParser input out ctr) (sameButQueue_refl _)
  refine ⟨run_skip_output env hskip _ _ _, run_skip_counter env hskip _ _ _, h.1, ?_⟩
  obtain ⟨o, c, hq⟩ := h.2
  unfold ParseRDB
  rw [hq]

/-- The dry run of C18 on the file with two keys: no command, the counter
still 0, and the result and the unread bytes of the run that sends the two
commands. -/
theorem skipRDB_dry_run_witness :
    dryRunEnv.SkipRDB = true ∧
    (ParseRDB dryRunEnv twoKeysFile [] (some 0)).2.output = [] ∧
    (ParseRDB dryRunEnv twoKeysFile [] (some 0)).2.counter = some 0 ∧
    (ParseRDB dryRunEnv twoKeysFile [] (some 0)).1 =
      (ParseRDB { dryRunEnv with SkipRDB := false } twoKeysFile [] (some 0)).1 ∧
    (ParseRDB dryRunEnv twoKeysFile [] (some 0)).2.reader =
      (ParseRDB { dryRunEnv with SkipRDB := false } twoKeysFile [] (some 0)).2.reader :=
  ⟨rfl, skipRDB_dry_run dryRunEnv rfl twoKeysFile [] (some 0)⟩

/-! ## The end opcode of a module value (C19) -/

/-- C19, the code at the failing input: `bloomFile` holds a Module2 record
with the identifier of the bloom filter and the byte C0 in the place of the
module end opcode.  `readLength` returns length 0 for C0, the check of
`moduleEOF` passes, the parse succeeds, and the byte of the payload before
its 10-byte suffix is C0, not 00. -/
theorem bloom_payload_ends_with_encoding_byte :
    (ParseRDB sampleEnv bloomFile [] (some 0)).1 = .ok () ∧
    (ParseRDB sampleEnv bloomFile [] (some 0)).2.reader = [] ∧
    (ParseRDB sampleEnv bloomFile [] (some 0)).2.output.map (fun c => c.arg 3) =
      [framed sampleEnv [0x07, 0x81, 0x30, 0x16, 0xE5, 0xA2, 0x89, 0xBE, 0xF8, 0x04,
        0x02, 0x00, 0x02, 0x00, 0x02, 0x00, 0x02, 0x00, 0xC0] [8, 0]] ∧
    (ParseRDB sampleEnv bloomFile [] (some 0)).2.output.map
      (fun c => lastBytes 1 (withoutLast 10 (c.arg 3))) = [[0xC0]] ∧
    (readLength true { sampleParser with reader := [0xC0, 0xFF] }).1 = .ok (0, 0) ∧
    (moduleEOF sampleEnv { sampleParser with reader := [0xC0, 0xFF] }).1 = .ok (some .stateOp) := by
  decide!

/-! ## The end of the file (C20) -/

theorem ParseRDB_eofFile (env : Env) (ver : Bytes) (v : Int) (t : Bytes)
    (out : List RedisCommand) (ctr : Option Nat)
    (hlen : ver.length = 4) (hver : Atoi ver = some v) (hv : v ≤ 9) :
    ParseRDB env (eofFile ver t) out ctr =
      if v > 4 then
        if 8 ≤ t.length then (.ok (), { afterEOF v t out ctr with reader := t.drop 8 })
        else if t = [] then (.error .EOF, afterEOF v t out ctr)
        else (.error .ErrUnexpectedEOF, { afterEOF v t out ctr with reader := [] })
      else (.ok (), afterEOF v t out ctr) := by
  have hfuel : 3 * (eofFile ver t).length + 3 = (3 * t.length + 29) + 4 := by
    simp only [eofFile, rdbSignature, List.length_append, List.length_cons, List.length_nil, hlen]
    omega
  unfold ParseRDB
  rw [hfuel]
  have h1 : callState env .stateMagic (newParser (eofFile ver t) out ctr) =
      (.ok (some .stateOp), { newParser (eofFile ver t) out ctr with
        reader := rdbOpEOF :: t, rdbVersion := v, rdbVersion16bit := LittleEndian_PutUint16 v }) := by
    have h := stateMagic_eval (newParser (eofFile ver t) out ctr) rdbSignature ver (rdbOpEOF :: t)
      rfl rfl hlen
    rw [if_neg (by simp), hver] at h
    simp only [] at h
    rw [if_neg (by omega)] at h
    exact h
  rw [runStates_ok env _ _ _ _ _ h1]
  have h2 : callState env .stateOp { newParser (eofFile ver t) out ctr with
        reader := rdbOpEOF :: t, rdbVersion := v, rdbVersion16bit := LittleEndian_PutUint16 v } =
      (.ok (some (if v > 4 then State.stateCRC64 else State.statePadding)),
        afterEOF v t out ctr) := by
    have h := stateOp_other { newParser (eofFile ver t) out ctr with
        reader := rdbOpEOF :: t, rdbVersion := v, rdbVersion16bit := LittleEndian_PutUint16 v }
      rdbOpEOF t rfl (by decide)
    have hf : framingOf rdbOpEOF = none := by decide
    rw [hf] at h
    simp only [if_true] at h
    exact h
  rw [runStates_ok env _ _ _ _ _ h2]
  have hrd : (afterEOF v t out ctr).reader = t := rfl
  by_cases h4 : v > 4
  · rw [if_pos h4, if_pos h4]
    by_cases h8 : 8 ≤ t.length
    · rw [if_pos h8]
      have h3 : callState env .stateCRC64 (afterEOF v t out ctr) =
          (.ok (some .statePadding), { afterEOF v t out ctr with reader := t.drop 8 }) := by
        show stateCRC64 (afterEOF v t out ctr) = _
        unfold stateCRC64
        rw [bind_apply]
        have hs : safeRead 8 (afterEOF v t out ctr) =
            (.ok (t.take 8), { afterEOF v t out ctr with reader := t.drop 8 }) := by
          unfold safeRead
          simp only [hrd]
          rw [if_pos h8]
        rw [hs]
        rfl
      rw [runStates_ok env _ _ _ _ _ h3]
      have h5 : callState env .statePadding { afterEOF v t out ctr with reader := t.drop 8 } =
          (.ok none, { afterEOF v t out ctr with reader := t.drop 8 }) := rfl
      rw [runStates_ok env _ _ _ _ _ h5, runStates_none]
    · rw [if_neg h8]
      by_cases hnil : t = []
      · rw [if_pos hnil]
        have h3 : callState env .stateCRC64 (afterEOF v t out ctr) =
            (.error .EOF, afterEOF v t out ctr) := by
          show stateCRC64 (afterEOF v t out ctr) = _
          unfold stateCRC64
          rw [bind_apply]
          have hs : safeRead 8 (afterEOF v t out ctr) = (.error .EOF, afterEOF v t out ctr) := by
            unfold safeRead
            simp only [hrd]
            rw [if_neg h8, if_pos hnil]
          rw [hs]
        rw [runStates_error env _ _ _ _ _ h3]
      · rw [if_neg hnil]
        have h3 : callState env .stateCRC64 (afterEOF v t out ctr) =
            (.error .ErrUnexpectedEOF, { afterEOF v t out ctr with reader := [] }) := by
          show stateCRC64 (afterEOF v t out ctr) = _
          unfold stateCRC64
          rw [bind_apply]
          have hs : safeRead 8 (afterEOF v t out ctr) =
              (.error .ErrUnexpectedEOF, { afterEOF v t out ctr with reader := [] }) := by
            unfold safeRead
            simp only [hrd]
            rw [if_neg h8, if_neg hnil]
          rw [hs]
        rw [runStates_error env _ _ _ _ _ h3]
  · rw [if_neg h4, if_neg h4]
    have h5 : callState env .statePadding (afterEOF v t out ctr) =
        (.ok none, afterEOF v t out ctr) := rfl
    rw [runStates_ok env _ _ _ _ _ h5, runStates_none]

/-- C20: for every header that `stateMagic` accepts, with version `v`,
followed by the opcode FF and a tail `t`, `ParseRDB` emits no command, and
it returns nil if and only if `v ≤ 4` or `t` has at least 8 bytes.  When
`v ≤ 4` it consumes nothing of `t`; when `v > 4` it consumes exactly 8 bytes
of `t`, or all of `t` when `t` is shorter and the parse fails.  The result is
the same for every tail of the same length. -/
theorem eof_record_ends_parse (env : Env) (ver : Bytes) (v : Int) (t : Bytes)
    (out : List RedisCommand) (ctr : Option Nat)
    (hlen : ver.length = 4) (hver : Atoi ver = some v) (hv : v ≤ 9) :
    (ParseRDB env (eofFile ver t) out ctr).2.output = out ∧
    ((ParseRDB env (eofFile ver t) out ctr).1 = .ok () ↔ (v ≤ 4 ∨ 8 ≤ t.length)) ∧
    (v ≤ 4 → (ParseRDB env (eofFile ver t) out ctr).2.reader = t) ∧
    (4 < v → 8 ≤ t.length → (ParseRDB env (eofFile ver t) out ctr).2.reader = t.drop 8) ∧
    (4 < v → t.length < 8 →
      (ParseRDB env (eofFile ver t) out ctr).1 =
        .error (if t = [] then .EOF else .ErrUnexpectedEOF) ∧
      (ParseRDB env (eofFile ver t) out ctr).2.reader = []) ∧
    (∀ t2 : Bytes, t2.length = t.length →
      (ParseRDB env (eofFile ver t2) out ctr).1 = (ParseRDB env (eofFile ver t) out ctr).1) := by
  have key : ∀ t : Bytes, ParseRDB env (eofFile ver t) out ctr = _ :=
    fun t => ParseRDB_eofFile env ver v t out ctr hlen hver hv
  refine ⟨?_, ?_, ?_, ?_, ?_, ?_⟩
  · rw [key]
    split_ifs <;> rfl
  · rw [key]
    split_ifs with h4 h8 hnil
    · simp [h8]
    · simp only [reduceCtorEq, false_iff, not_or]
      omega
    · simp only [reduceCtorEq, false_iff, not_or]
      omega
    · simp only [true_iff]
      omega
  · intro h
    rw [key, if_neg (by omega)]
    rfl
  · intro h4 h8
    rw [key, if_pos (by omega), if_pos h8]
  · intro h4 h8
    rw [key, if_pos (by omega), if_neg (by omega)]
    split_ifs with hnil
    · exact ⟨rfl, hnil⟩
    · exact ⟨rfl, rfl⟩
  · intro t2 h2
    rw [key, key, h2]
    have hnil : (t2 = []) ↔ (t = []) := by
      rw [← List.length_eq_zero, ← List.length_eq_zero, h2]
    by_cases h4 : v > 4
    · rw [if_pos h4, if_pos h4]
      by_cases h8 : 8 ≤ t.length
      · rw [if_pos h8, if_pos h8]
      · rw [if_neg h8, if_neg h8]
        by_cases hn : t = []
        · rw [if_pos hn, if_pos (hnil.mpr hn)]
        · rw [if_neg hn, if_neg (fun h => hn (hnil.mp h))]
    · rw [if_neg h4, if_neg h4]

/-- An empty database of version 8 with its eight checksum bytes parses to
nothing and is consumed whole; cut after three checksum bytes it fails;
with version 3 nothing is read after the opcode (C20). -/
theorem eof_record_ends_parse_witness :
    ((ParseRDB sampleEnv (eofFile [0x30, 0x30, 0x30, 0x38] [1, 2, 3, 4, 5, 6, 7, 8]) [] none).2.output
        = [] ∧
      (ParseRDB sampleEnv (eofFile [0x30, 0x30, 0x30, 0x38] [1, 2, 3, 4, 5, 6, 7, 8]) [] none).1
        = .ok () ∧
      (ParseRDB sampleEnv (eofFile [0x30, 0x30, 0x30, 0x38] [1, 2, 3, 4, 5, 6, 7, 8]) [] none).2.reader
        = []) ∧
    (ParseRDB sampleEnv (eofFile [0x30, 0x30, 0x30, 0x38] [1, 2, 3]) [] none).1 =
      .error .ErrUnexpectedEOF ∧
    (ParseRDB sampleEnv (eofFile [0x30, 0x30, 0x30, 0x33] [1, 2, 3]) [] none).2.reader = [1, 2, 3] :=
  ⟨⟨(eof_record_ends_parse sampleEnv [0x30, 0x30, 0x30, 0x38] 8 [1, 2, 3, 4, 5, 6, 7, 8] [] none
        rfl (by decide) (by decide)).1,
     (eof_record_ends_parse sampleEnv [0x30, 0x30, 0x30, 0x38] 8 [1, 2, 3, 4, 5, 6, 7, 8] [] none
        rfl (by decide) (by decide)).2.1.mpr (Or.inr (by decide)),
     (eof_record_ends_parse sampleEnv [0x30, 0x30, 0x30, 0x38] 8 [1, 2, 3, 4, 5, 6, 7, 8] [] none
        rfl (by decide) (by decide)).2.2.2.1 (by decide) (by decide)⟩,
   ((eof_record_ends_parse sampleEnv [0x30, 0x30, 0x30, 0x38] 8 [1, 2, 3] [] none
        rfl (by decide) (by decide)).2.2.2.2.1 (by decide) (by decide)).1,
   (eof_record_ends_parse sampleEnv [0x30, 0x30, 0x30, 0x33] 3 [1, 2, 3] [] none
        rfl (by decide) (by decide)).2.2.1 (by decide)⟩

/-! ## The panic of the length decoder (C22) -/

theorem readByte_error {p q : Parser} {e : Err} (h : readByte p = (.error e, q)) : e = .EOF := by
  unfold readByte at h
  cases hr : p.reader with
  | nil =>
    rw [hr] at h
    simp only [Prod.mk.injEq, Except.error.injEq] at h
    exact h.1.symm
  | cons b rest =>
    rw [hr] at h
    simp at h

theorem safeRead_error {n : Nat} {p q : Parser} {e : Err} (h : safeRead n p = (.error e, q)) :
    e = .EOF ∨ e = .ErrUnexpectedEOF := by
  unfold safeRead at h
  split_ifs at h
  · simp at h
  · simp only [Prod.mk.injEq, Except.error.injEq] at h
    exact Or.inl h.1.symm
  · simp only [Prod.mk.injEq, Except.error.injEq] at h
    exact Or.inr h.1.symm

theorem commandWrite_total (save : Bool) (data : Bytes) (p : Parser) :
    ∃ q, commandWrite save data p = (.ok (), q) := by
  unfold commandWrite
  split_ifs <;> exact ⟨_, rfl⟩

theorem readLength_tail32 (save : Bool) (p1 : Parser) :
    ReturnsOrReadError ((do
      let data ← safeRead 4
      commandWrite save data
      let v ← liftE (BigEndian_Uint32 data)
      pure (v, -1) : M (Nat × Int)) p1).1 := by
  rw [bind_apply]
  rcases h : safeRead 4 p1 with ⟨r, p2⟩
  cases r with
  | error e =>
    rcases safeRead_error h with rfl | rfl
    · exact Or.inr (Or.inl rfl)
    · exact Or.inr (Or.inr rfl)
  | ok data =>
    obtain ⟨hn, hd, -⟩ := safeRead_ok h
    have hl : data.length = 4 := by
      rw [hd, List.length_take]
      omega
    obtain ⟨p3, h3⟩ := commandWrite_total save data p2
    simp only []
    rw [bind_apply, h3]
    simp only []
    rw [bind_apply]
    simp only [liftE, BigEndian_Uint32, hl, Nat.lt_irrefl, if_false]
    exact Or.inl ⟨_, rfl⟩

theorem readLength_tail64 (save : Bool) (p1 : Parser) :
    ReturnsOrReadError ((do
      let data ← safeRead 8
      commandWrite save data
      let v ← liftE (BigEndian_Uint64 data)
      pure (v, -1) : M (Nat × Int)) p1).1 := by
  rw [bind_apply]
  rcases h : safeRead 8 p1 with ⟨r, p2⟩
  cases r with
  | error e =>
    rcases safeRead_error h with rfl | rfl
    · exact Or.inr (Or.inl rfl)
    · exact Or.inr (Or.inr rfl)
  | ok data =>
    obtain ⟨hn, hd, -⟩ := safeRead_ok h
    have hl : data.length = 8 := by
      rw [hd, List.length_take]
      omega
    obtain ⟨p3, h3⟩ := commandWrite_total save data p2
    simp only []
    rw [bind_apply, h3]
    simp only []
    rw [bind_apply]
    simp only [liftE, BigEndian_Uint64, hl, Nat.lt_irrefl, if_false]
    exact Or.inl ⟨_, rfl⟩

theorem readLength_tail14 (save : Bool) (pfx : Nat) (p1 : Parser) :
    ReturnsOrReadError ((do
      let data ← readByte
      commandWrite save [data]
      pure (((pfx &&& 0x3F) <<< 8) ||| data, -1) : M (Nat × Int)) p1).1 := by
  rw [bind_apply]
  rcases h : readByte p1 with ⟨r, p2⟩
  cases r with
  | error e =>
    rw [readByte_error h]
    exact Or.inr (Or.inl rfl)
  | ok data =>
    obtain ⟨p3, h3⟩ := commandWrite_total save [data] p2
    simp only []
    rw [bind_apply, h3]
    exact Or.inl ⟨_, rfl⟩

theorem readLength_kinds (save : Bool) (p : Parser) (pfx : Nat) (rest : Bytes)
    (hbyte : pfx < 256) (hr : p.reader = pfx :: rest) :
    (0x82 ≤ pfx ∧ pfx ≤ 0xBF ∧ (readLength save p).1 = .error .panicNeverReached) ∨
    (¬ (0x82 ≤ pfx ∧ pfx ≤ 0xBF) ∧ ReturnsOrReadError (readLength save p).1) := by
  have hk := kind_eq_div pfx hbyte
  obtain ⟨p1, h1⟩ := commandWrite_total save [pfx] { p with reader := rest }
  unfold readLength
  rw [bind_apply, readByte_cons p pfx rest hr]
  simp only []
  rw [bind_apply, h1]
  simp only [hk, rdbLen6Bit, rdbLen14bit, rdbLen32Bit, rdbLenEnc, Type32Bit, Type64Bit]
  split_ifs with c0 c1 c2 c3 c4 c5
  · exact Or.inr ⟨by omega, Or.inl ⟨_, rfl⟩⟩
  · exact Or.inr ⟨by omega, readLength_tail14 save pfx p1⟩
  · exact Or.inr ⟨by omega, readLength_tail32 save p1⟩
  · exact Or.inr ⟨by omega, readLength_tail64 save p1⟩
  · exact Or.inl ⟨by omega, by omega, rfl⟩
  · exact Or.inr ⟨by omega, Or.inl ⟨_, rfl⟩⟩
  · omega

/-- C22: `readLength` reaches `panic("never reached")` if and only if the
prefix byte lies in 0x82..0xBF.  On an empty stream it returns the read
error EOF; for every prefix byte in 0x82..0xBF and every stream it panics;
for every other prefix byte and every stream it returns a length with its
encoding tag or one of the read errors EOF and ErrUnexpectedEOF. -/
theorem readLength_panics_iff (save : Bool) (p : Parser) :
    (p.reader = [] → (readLength save p).1 = .error .EOF) ∧
    (∀ pfx rest, p.reader = pfx :: rest → pfx < 256 →
      ((readLength save p).1 = .error .panicNeverReached ↔ (0x82 ≤ pfx ∧ pfx ≤ 0xBF)) ∧
      (¬ (0x82 ≤ pfx ∧ pfx ≤ 0xBF) → ReturnsOrReadError (readLength save p).1)) := by
  constructor
  · intro hr
    simp [readLength, bind_apply, readByte, hr]
  · intro pfx rest hr hbyte
    rcases readLength_kinds save p pfx rest hbyte hr with ⟨h1, h2, h3⟩ | ⟨h1, h2⟩
    · exact ⟨⟨fun _ => ⟨h1, h2⟩, fun _ => h3⟩, fun hn => absurd ⟨h1, h2⟩ hn⟩
    · refine ⟨⟨fun hp => ?_, fun hin => absurd hin h1⟩, fun _ => h2⟩
      rcases h2 with ⟨v, hv⟩ | hv | hv <;> rw [hv] at hp <;> cases hp

/-- The prefix byte 0x90 makes `readLength` panic, the prefix byte 0x80 on
a stream that ends after two more bytes gives a read error (C22). -/
theorem readLength_panics_iff_witness :
    (readLength true { sampleParser with reader := [0x90, 0x01] }).1 =
      .error .panicNeverReached ∧
    ReturnsOrReadError (readLength true { sampleParser with reader := [0x80, 0x01, 0x02] }).1 ∧
    (readLength true { sampleParser with reader := [0x80, 0x01, 0x02] }).1 =
      .error .ErrUnexpectedEOF :=
  ⟨((readLength_panics_iff true { sampleParser with reader := [0x90, 0x01] }).2 0x90 [0x01] rfl
      (by decide)).1.mpr (by decide),
   ((readLength_panics_iff true { sampleParser with reader := [0x80, 0x01, 0x02] }).2 0x80
      [0x01, 0x02] rfl (by decide)).2 (by decide),
   by decide!⟩

/-! ## Framing records and the capture buffer (C21) -/

theorem sameCapture_of_reads {α : Type} {m : M α} (h : Always (Reads false) m) :
    Always SameCapture m := fun p => reads_rawData_false (h p)

theorem sameCapture_bind {α β : Type} {m : M α} {f : α → M β}
    (hm : Always SameCapture m) (hf : ∀ a, Always SameCapture (f a)) :
    Always SameCapture (m >>= f) :=
  always_bind SameCapture (fun a b c h1 h2 => by
    unfold SameCapture at *
    rw [h2, h1]) hm hf

theorem sameCapture_framing (env : Env) (s : State)
    (hs : s = .stateDB ∨ s = .stateResizeDB ∨ s = .stateAux ∨ s = .stateExpirySec ∨
      s = .stateExpiryMSec ∨ s = .stateCRC64 ∨ s = .statePadding) :
    Always SameCapture (callState env s) := by
  have hpure : ∀ a : Option State, Always SameCapture (pure a : M (Option State)) :=
    fun a p => rfl
  have hlen := sameCapture_of_reads (reads_readLength false)
  have hstr := sameCapture_of_reads (reads_readString false)
  rcases hs with rfl | rfl | rfl | rfl | rfl | rfl | rfl
  · exact sameCapture_bind hlen (fun _ => hpure _)
  · exact sameCapture_bind hlen (fun _ => sameCapture_bind hlen (fun _ => hpure _))
  · exact sameCapture_bind hstr (fun _ => sameCapture_bind hstr (fun _ => hpure _))
  · show Always SameCapture (stateExpirySec env)
    unfold stateExpirySec
    refine sameCapture_bind (sameCapture_of_reads (reads_safeRead false _)) (fun d => ?_)
    refine sameCapture_bind (sameCapture_of_reads (reads_liftE false _)) (fun fd => ?_)
    exact sameCapture_bind (fun p => rfl) (fun _ => hpure _)
  · show Always SameCapture (stateExpiryMSec env)
    unfold stateExpiryMSec
    refine sameCapture_bind (sameCapture_of_reads (reads_safeRead false _)) (fun d => ?_)
    refine sameCapture_bind (sameCapture_of_reads (reads_liftE false _)) (fun fc => ?_)
    simp only []
    split_ifs
    · exact sameCapture_bind (fun p => rfl) (fun _ => hpure _)
    · exact sameCapture_bind (fun p => rfl) (fun _ => hpure _)
  · exact sameCapture_bind (sameCapture_of_reads (reads_safeRead false _)) (fun _ => hpure _)
  · exact hpure _

/-- On the empty database `emptyFile` the only record is the end-of-file
record: `stateOp` appends its opcode byte FF to the capture buffer, which
is not left unchanged: it is empty before the record and holds FF after the
parse. -/
theorem eof_opcode_enters_capture :
    (stateOp { sampleParser with reader := [0xFF], rawData := [] }).2.rawData = [0xFF] ∧
    (ParseRDB sampleEnv emptyFile [] none).1 = .ok () ∧
    (ParseRDB sampleEnv emptyFile [] none).2.rawData = [0xFF] := by
  decide!

/-- C21, amended: processing a record whose opcode is DB (FE), ResizeDB
(FB), Aux (FA), ExpirySec (FD) or ExpiryMSec (FC) leaves the capture buffer
unchanged: `stateOp` reads the opcode byte without capturing it and
continues with the state function of the opcode, which leaves the capture
buffer as it is whether it succeeds or fails.  For the opcode EOF (FF)
`stateOp` appends the opcode byte to the capture buffer; `stateCRC64`, which
reads the trailing checksum, and `statePadding` leave the buffer unchanged. -/
theorem framing_leaves_capture (env : Env) (p : Parser) (op : Nat) (rest : Bytes)
    (hr : p.reader = op :: rest) :
    ((op = rdbOpDB ∨ op = rdbOpResizeDB ∨ op = rdbOpAux ∨ op = rdbOpExpirySec ∨
        op = rdbOpExpiryMSec) →
      ∃ s, stateOp p = (.ok (some s), { p with reader := rest, currentOp := op }) ∧
        (callState env s { p with reader := rest, currentOp := op }).2.rawData = p.rawData) ∧
    (op = rdbOpEOF →
      stateOp p = (.ok (some (if p.rdbVersion > 4 then State.stateCRC64 else State.statePadding)),
        { p with reader := rest, currentOp := op, rawData := p.rawData ++ [op] }) ∧
      ∀ q : Parser, (callState env .stateCRC64 q).2.rawData = q.rawData ∧
        (callState env .statePadding q).2.rawData = q.rawData) := by
  constructor
  · intro hop
    have hc : copierOf op = none := by
      rcases hop with rfl | rfl | rfl | rfl | rfl <;> decide
    have h := stateOp_other p op rest hr hc
    rcases hop with rfl | rfl | rfl | rfl | rfl
    · exact ⟨.stateDB, h, sameCapture_framing env _ (by simp) _⟩
    · exact ⟨.stateResizeDB, h, sameCapture_framing env _ (by simp) _⟩
    · exact ⟨.stateAux, h, sameCapture_framing env _ (by simp) _⟩
    · exact ⟨.stateExpirySec, h, sameCapture_framing env _ (by simp) _⟩
    · exact ⟨.stateExpiryMSec, h, sameCapture_framing env _ (by simp) _⟩
  · intro hop
    subst hop
    have h := stateOp_other p rdbOpEOF rest hr (by decide)
    have hf : framingOf rdbOpEOF = none := by decide
    rw [hf] at h
    simp only [if_true] at h
    exact ⟨h, fun q => ⟨sameCapture_framing env _ (by simp) q,
      sameCapture_framing env _ (by simp) q⟩⟩

/-- The database selector FE 00 leaves the capture buffer of the sample
parser unchanged (C21). -/
theorem framing_leaves_capture_witness :
    ∃ s, stateOp { sampleParser with reader := [0xFE, 0x00] } =
        (.ok (some s), { sampleParser with reader := [0x00], currentOp := 0xFE }) ∧
      (callState sampleEnv s { sampleParser with reader := [0x00], currentOp := 0xFE }).2.rawData
        = sampleParser.rawData :=
  (framing_leaves_capture sampleEnv { sampleParser with reader := [0xFE, 0x00] } 0xFE [0x00]
    rfl).1 (Or.inl rfl)

/-! ## What `readString` captures (C23) -/

/-- C23, as stated, fails on the stream 01 61 FF: both `readString true`
and `copyString true` consume the two bytes 01 61 of the string `a`;
`copyString` appends both to the capture buffer, `readString` appends the
byte 61 only: it reads the length prefix with `readLength false`. -/
theorem readString_capture_lacks_prefix :
    readString true stringParser = (.ok [0x61], stringParser.advance true [0x61] [0xFF]) ∧
    copyString true stringParser = (.ok (), stringParser.advance true [0x01, 0x61] [0xFF]) ∧
    (readString true stringParser).2.reader = (copyString true stringParser).2.reader ∧
    (readString true stringParser).2.rawData = [0, 0x61] ∧
    (copyString true stringParser).2.rawData = [0, 0x01, 0x61] := by
  decide!

/-! ## Truncated inputs (C24) -/

theorem stable_bind {α β : Type} {m : M α} {f : α → M β}
    (hm : Stable m) (hf : ∀ a, Stable (f a)) : Stable (m >>= f) := by
  intro p t b q h
  obtain ⟨a, p1, h1, h2⟩ := (bind_ok_iff m f p b q).mp h
  exact (bind_ok_iff m f (withTail p t) b (withTail q t)).mpr
    ⟨a, withTail p1 t, hm p t a p1 h1, hf a p1 t b q h2⟩

theorem stable_lift {α : Type} (m : M α)
    (h : ∀ p t, m (withTail p t) = ((m p).1, withTail (m p).2 t)) : Stable m := by
  intro p t a q hp
  rw [h p t, hp]

theorem stable_pure {α : Type} (a : α) : Stable (pure a : M α) :=
  stable_lift _ (fun _ _ => rfl)

theorem stable_fail {α : Type} (e : Err) : Stable (fail e : M α) :=
  stable_lift _ (fun _ _ => rfl)

theorem stable_liftE {α : Type} (r : Except Err α) : Stable (liftE r) :=
  stable_lift _ (fun _ _ => rfl)

theorem stable_readByte : Stable readByte := by
  intro p t a q h
  unfold readByte at h ⊢
  have hcases : p.reader = [] ∨ ∃ b rest, p.reader = b :: rest := by
    cases p.reader <;> simp
  rcases hcases with hr | ⟨b, rest, hr⟩
  · rw [hr] at h
    simp at h
  · rw [hr] at h
    simp only [Prod.mk.injEq, Except.ok.injEq] at h
    obtain ⟨h1, h2⟩ := h
    subst h1 h2
    simp [withTail, hr]

theorem stable_safeRead (n : Nat) : Stable (safeRead n) := by
  intro p t a q h
  obtain ⟨hn, ha, hq⟩ := safeRead_ok h
  subst ha hq
  unfold safeRead
  have hle : n ≤ (withTail p t).reader.length := by
    simp only [withTail, List.length_append]
    omega
  rw [if_pos hle]
  simp only [withTail, List.take_append_of_le_length hn, List.drop_append_of_le_length hn]

theorem stable_commandWrite (save : Bool) (data : Bytes) : Stable (commandWrite save data) := by
  refine stable_lift _ (fun p t => ?_)
  simp only [commandWrite]
  split_ifs <;> rfl

theorem stable_toKey (s : State) : Stable (toKey s) :=
  stable_lift _ (fun _ _ => rfl)

theorem stable_keep (env : Env) : Stable (keep env) := by
  refine stable_lift _ (fun p t => ?_)
  rw [keep_eq, keep_eq]
  cases env.SkipRDB <;> rfl

theorem stable_readLength (save : Bool) : Stable (readLength save) := by
  unfold readLength
  refine stable_bind stable_readByte (fun pfx => ?_)
  refine stable_bind (stable_commandWrite save _) (fun _ => ?_)
  simp only []
  split_ifs
  · exact stable_pure _
  · refine stable_bind stable_readByte (fun d => ?_)
    refine stable_bind (stable_commandWrite save _) (fun _ => ?_)
    exact stable_pure _
  · refine stable_bind (stable_safeRead _) (fun d => ?_)
    refine stable_bind (stable_commandWrite save _) (fun _ => ?_)
    refine stable_bind (stable_liftE _) (fun _ => ?_)
    exact stable_pure _
  · refine stable_bind (stable_safeRead _) (fun d => ?_)
    refine stable_bind (stable_commandWrite save _) (fun _ => ?_)
    refine stable_bind (stable_liftE _) (fun _ => ?_)
    exact stable_pure _
  · exact stable_fail _
  · exact stable_pure _
  · exact stable_fail _

theorem stable_copyString (save : Bool) : Stable (copyString save) := by
  unfold copyString
  refine stable_bind (stable_readLength save) (fun x => ?_)
  obtain ⟨length, encoding⟩ := x
  simp only []
  split_ifs
  · refine stable_bind (stable_safeRead _) (fun d => ?_)
    exact stable_commandWrite save _
  · refine stable_bind (stable_safeRead _) (fun d => ?_)
    exact stable_commandWrite save _
  · refine stable_bind (stable_readLength save) (fun x => ?_)
    obtain ⟨clength, _⟩ := x
    refine stable_bind (stable_readLength save) (fun x => ?_)
    refine stable_bind (stable_safeRead _) (fun d => ?_)
    exact stable_commandWrite save _
  · exact stable_fail _

theorem stable_readString (save : Bool) : Stable (readString save) := by
  unfold readString
  refine stable_bind (stable_readLength false) (fun x => ?_)
  obtain ⟨length, encoding⟩ := x
  simp only []
  split_ifs
  · refine stable_bind (stable_safeRead _) (fun d => ?_)
    refine stable_bind (stable_commandWrite save _) (fun _ => ?_)
    exact stable_pure _
  · refine stable_bind (stable_safeRead _) (fun d => ?_)
    refine stable_bind (stable_commandWrite save _) (fun _ => ?_)
    exact stable_pure _
  · refine stable_bind (stable_readLength save) (fun x => ?_)
    obtain ⟨clength, _⟩ := x
    refine stable_bind (stable_readLength save) (fun x => ?_)
    obtain ⟨ulength, _⟩ := x
    refine stable_bind (stable_safeRead _) (fun d => ?_)
    refine stable_bind (stable_commandWrite save _) (fun _ => ?_)
    exact stable_liftE _
  · exact stable_fail _

theorem stable_loopN (body : M Unit) (h : Stable body) (n : Nat) : Stable (loopN body n) := by
  induction n with
  | zero => exact stable_pure _
  | succ n ih =>
    unfold loopN
    exact stable_bind h (fun _ => ih)

theorem stable_zsetEntry : Stable zsetEntry := by
  unfold zsetEntry
  refine stable_bind (stable_copyString true) (fun _ => ?_)
  refine stable_bind stable_readByte (fun dlen => ?_)
  refine stable_bind (stable_commandWrite true _) (fun _ => ?_)
  split_ifs
  · refine stable_bind (stable_safeRead _) (fun d => ?_)
    exact stable_commandWrite true _
  · exact stable_pure _

theorem stable_zset2Entry : Stable zset2Entry := by
  unfold zset2Entry
  refine stable_bind (stable_copyString true) (fun _ => ?_)
  refine stable_bind (stable_safeRead _) (fun d => ?_)
  refine stable_bind (stable_liftE _) (fun _ => ?_)
  exact stable_pure _

theorem stable_readUnsigned (save : Bool) : Stable (readUnsigned save) := by
  unfold readUnsigned
  refine stable_bind (stable_readLength save) (fun x => ?_)
  obtain ⟨val, _⟩ := x
  simp only []
  split_ifs
  · exact stable_fail _
  · refine stable_bind (stable_readLength save) (fun x => ?_)
    exact stable_pure _

theorem stable_readDouble (save : Bool) : Stable (readDouble save) := by
  unfold readDouble
  refine stable_bind (stable_readLength save) (fun x => ?_)
  obtain ⟨val, _⟩ := x
  simp only []
  split_ifs
  · exact stable_fail _
  · refine stable_bind (stable_safeRead _) (fun d => ?_)
    refine stable_bind (stable_commandWrite true _) (fun _ => ?_)
    refine stable_bind (stable_liftE _) (fun _ => ?_)
    exact stable_pure _

theorem stable_readStringBuffer (save : Bool) : Stable (readStringBuffer save) := by
  unfold readStringBuffer
  refine stable_bind (stable_readLength save) (fun x => ?_)
  obtain ⟨val, _⟩ := x
  simp only []
  split_ifs
  · exact stable_fail _
  · refine stable_bind (stable_copyString save) (fun x => ?_)
    exact stable_pure _

theorem stable_bloomEntry : Stable bloomEntry := by
  unfold bloomEntry
  refine stable_bind (stable_readUnsigned true) (fun _ => ?_)
  refine stable_bind (stable_readDouble true) (fun _ => ?_)
  refine stable_bind (stable_readUnsigned true) (fun _ => ?_)
  refine stable_bind (stable_readDouble true) (fun _ => ?_)
  refine stable_bind (stable_readUnsigned true) (fun _ => ?_)
  refine stable_bind (stable_readUnsigned true) (fun _ => ?_)
  refine stable_bind (stable_readStringBuffer true) (fun _ => ?_)
  refine stable_bind (stable_readUnsigned true) (fun _ => ?_)
  exact stable_pure _

theorem stable_cuckooEntry : Stable cuckooEntry := by
  unfold cuckooEntry
  refine stable_bind (stable_readUnsigned true) (fun _ => ?_)
  refine stable_bind (stable_readStringBuffer true) (fun _ => ?_)
  exact stable_pure _

theorem stable_keepEnd (env : Env) :
    Stable (keep env >>= fun _ => (pure (some State.stateOp) : M (Option State))) :=
  stable_bind (stable_keep env) (fun _ => stable_pure _)

theorem stable_moduleEOF (env : Env) : Stable (moduleEOF env) := by
  unfold moduleEOF
  refine stable_bind (stable_readLength true) (fun x => ?_)
  obtain ⟨eof, _⟩ := x
  simp only []
  split_ifs
  · exact stable_fail _
  · exact stable_keepEnd env

theorem stable_stateCopyModule2 (env : Env) : Stable (stateCopyModule2 env) := by
  unfold stateCopyModule2
  refine stable_bind (stable_readLength true) (fun x => ?_)
  obtain ⟨length, _⟩ := x
  simp only []
  split_ifs
  · unfold stateCopyBloomFilter
    refine stable_bind (stable_readUnsigned true) (fun _ => ?_)
    refine stable_bind (stable_readUnsigned true) (fun _ => ?_)
    refine stable_bind (stable_readUnsigned true) (fun _ => ?_)
    refine stable_bind (stable_readUnsigned true) (fun _ => ?_)
    refine stable_bind (stable_loopN _ stable_bloomEntry _) (fun _ => ?_)
    exact stable_moduleEOF env
  · unfold stateCopyCuckooFilter
    refine stable_bind (stable_readUnsigned true) (fun _ => ?_)
    refine stable_bind (stable_readUnsigned true) (fun _ => ?_)
    refine stable_bind (stable_readUnsigned true) (fun _ => ?_)
    refine stable_bind (stable_readUnsigned true) (fun _ => ?_)
    refine stable_bind (stable_readUnsigned true) (fun _ => ?_)
    refine stable_bind (stable_readUnsigned true) (fun _ => ?_)
    refine stable_bind (stable_readUnsigned true) (fun _ => ?_)
    refine stable_bind (stable_loopN _ stable_cuckooEntry _) (fun _ => ?_)
    exact stable_moduleEOF env
  · exact stable_fail _

theorem stable_stateMagic : Stable stateMagic := by
  unfold stateMagic
  refine stable_bind (stable_safeRead _) (fun signature => ?_)
  split_ifs
  · exact stable_fail _
  · refine stable_bind (stable_safeRead _) (fun versionRaw => ?_)
    cases Atoi versionRaw with
    | none => exact stable_fail _
    | some version =>
      simp only []
      split_ifs
      · exact stable_fail _
      · exact stable_bind (stable_lift _ (fun _ _ => rfl)) (fun _ => stable_pure _)

theorem stable_stateOp : Stable stateOp := by
  intro p t a q h
  have hcases : p.reader = [] ∨ ∃ op rest, p.reader = op :: rest := by
    cases p.reader <;> simp
  rcases hcases with hr | ⟨op, rest, hr⟩
  · rw [stateOp_nil p hr] at h
    simp at h
  · have hr2 : (withTail p t).reader = op :: (rest ++ t) := by
      simp [withTail, hr]
    cases hc : copierOf op with
    | some s =>
      rw [stateOp_value p op rest s hr hc] at h
      rw [stateOp_value (withTail p t) op (rest ++ t) s hr2 hc]
      simp only [Prod.mk.injEq, Except.ok.injEq] at h
      obtain ⟨h1, h2⟩ := h
      subst h1 h2
      rfl
    | none =>
      rw [stateOp_other p op rest hr hc] at h
      rw [stateOp_other (withTail p t) op (rest ++ t) hr2 hc]
      cases hf : framingOf op with
      | some s =>
        rw [hf] at h
        simp only [Prod.mk.injEq, Except.ok.injEq] at h
        obtain ⟨h1, h2⟩ := h
        subst h1 h2
        rfl
      | none =>
        rw [hf] at h
        simp only [] at h ⊢
        have hv : (withTail p t).rdbVersion = p.rdbVersion := rfl
        rw [hv]
        by_cases he : op = rdbOpEOF
        · rw [if_pos he] at h ⊢
          simp only [Prod.mk.injEq, Except.ok.injEq] at h
          obtain ⟨h1, h2⟩ := h
          subst h1 h2
          rfl
        · rw [if_neg he] at h
          simp at h

theorem stable_copier (env : Env) (m : M Unit) (hm : Stable m) :
    Stable (m >>= fun _ => keep env >>= fun _ => (pure (some State.stateOp) : M (Option State))) :=
  stable_bind hm (fun _ => stable_keepEnd env)

theorem stable_lengthCopier (env : Env) (body : M Unit) (hb : Stable body) :
    Stable (readLength true >>= fun x => loopN body x.1 >>= fun _ => keep env >>= fun _ =>
        (pure (some State.stateOp) : M (Option State))) :=
  stable_bind (stable_readLength true) (fun x =>
    stable_bind (stable_loopN body hb x.1) (fun _ => stable_keepEnd env))

/-- A state function that succeeds on a stream succeeds on every longer
stream, with the same next state and the added bytes left unread. -/
theorem stable_callState (env : Env) (st : State) : Stable (callState env st) := by
  cases st with
  | stateMagic => exact stable_stateMagic
  | stateOp => exact stable_stateOp
  | stateResizeDB =>
    exact stable_bind (stable_readLength false) (fun _ =>
      stable_bind (stable_readLength false) (fun _ => stable_pure _))
  | stateAux =>
    exact stable_bind (stable_readString false) (fun _ =>
      stable_bind (stable_readString false) (fun _ => stable_pure _))
  | stateDB => exact stable_bind (stable_readLength false) (fun _ => stable_pure _)
  | stateExpirySec =>
    show Stable (stateExpirySec env)
    unfold stateExpirySec
    refine stable_bind (stable_safeRead _) (fun d => ?_)
    refine stable_bind (stable_liftE _) (fun fd => ?_)
    exact stable_bind (stable_lift _ (fun _ _ => rfl)) (fun _ => stable_pure _)
  | stateExpiryMSec =>
    show Stable (stateExpiryMSec env)
    unfold stateExpiryMSec
    refine stable_bind (stable_safeRead _) (fun d => ?_)
    refine stable_bind (stable_liftE _) (fun fc => ?_)
    simp only []
    split_ifs
    · exact stable_bind (stable_lift _ (fun _ _ => rfl)) (fun _ => stable_pure _)
    · exact stable_bind (stable_lift _ (fun _ _ => rfl)) (fun _ => stable_pure _)
  | stateKey =>
    exact stable_bind (stable_readString false) (fun _ => stable_lift _ (fun _ _ => rfl))
  | stateCopyString => exact stable_copier env _ (stable_copyString true)
  | stateCopySetOrList => exact stable_lengthCopier env _ (stable_copyString true)
  | stateCopyHash =>
    exact stable_lengthCopier env _
      (stable_bind (stable_copyString true) (fun _ => stable_copyString true))
  | stateCopyZset => exact stable_lengthCopier env _ stable_zsetEntry
  | stateCopyZset2 => exact stable_lengthCopier env _ stable_zset2Entry
  | stateCopyQuicklist => exact stable_lengthCopier env _ (stable_copyString true)
  | stateCopyListpacks => exact stable_fail _
  | stateCopyModule2 => exact stable_stateCopyModule2 env
  | stateCRC64 => exact stable_bind (stable_safeRead _) (fun _ => stable_pure _)
  | statePadding => exact stable_pure _

theorem run_output_prefix (env : Env) :
    ∀ fuel st p, p.output <+: (runStates env fuel st p).2.output := by
  apply run_induction env
  · intro fuel p
    rw [runStates_none]
  · intro st p
    exact List.prefix_refl _
  · intro fuel st p e q h hf
    rw [runStates_error env fuel st p e q h, (failed_fields hf).1]
  · intro fuel st p next q h hs ih
    rw [runStates_ok env fuel st p next q h]
    refine List.IsPrefix.trans ?_ ih
    cases hs with
    | magic _ mid version v16 hr hl =>
      rw [show ({ mid with rdbVersion := version, rdbVersion16bit := v16 } : Parser).output =
        mid.output from rfl, (reads_fields hr).1]
    | opValue _ op rest c hr hc => exact List.prefix_refl _
    | opFraming _ op rest s hr hc hf => exact List.prefix_refl _
    | opEOF _ op rest hr hc hf he => exact List.prefix_refl _
    | skip _ _ _ hst2 hr =>
      rw [(reads_fields hr).1]
    | expiry _ _ mid e hst2 hr =>
      rw [show ({ mid with expiry := e } : Parser).output = mid.output from rfl,
        (reads_fields hr).1]
    | key _ mid k hk hr =>
      rw [show ({ mid with key := k } : Parser).output = mid.output from rfl,
        (reads_fields hr).1]
    | copier _ _ mid hcop hr =>
      rw [keep_output, ← (reads_fields hr).1]
      split_ifs
      · exact List.prefix_refl _
      · exact List.prefix_append _ _
    | crc _ _ hr =>
      rw [(reads_fields hr).1]
    | padding _ => exact List.prefix_refl _

theorem stable_run (env : Env) : ∀ (f1 : Nat) (st : Option State) (p : Parser) (t : Bytes)
    (f2 : Nat), f1 ≤ f2 →
    (runStates env f1 st p).2.output <+: (runStates env f2 st (withTail p t)).2.output := by
  intro f1
  induction f1 with
  | zero =>
    intro st p t f2 _
    cases st with
    | none =>
      rw [runStates_none, runStates_none]
      exact List.prefix_refl _
    | some s => exact run_output_prefix env f2 (some s) (withTail p t)
  | succ f1 ih =>
    intro st p t f2 hf
    cases st with
    | none =>
      rw [runStates_none, runStates_none]
      exact List.prefix_refl _
    | some s =>
      obtain ⟨f3, rfl⟩ : ∃ f3, f2 = f3 + 1 := ⟨f2 - 1, by omega⟩
      rcases hc : callState env s p with ⟨r, q⟩
      cases r with
      | error e =>
        rw [runStates_error env f1 s p e q hc, (failed_fields (failed_of_error env s p e q hc)).1]
        exact run_output_prefix env (f3 + 1) (some s) (withTail p t)
      | ok next =>
        rw [runStates_ok env f1 s p next q hc,
          runStates_ok env f3 s (withTail p t) next (withTail q t)
            (stable_callState env s p t next q hc)]
        exact ih next q t f3 (by omega)

theorem recordDone_error (env : Env) (st : State) (p : Parser) (e : Err) (q : Parser)
    (h : callState env st p = (.error e, q)) : recordDone env (st, p) = false := by
  simp [recordDone, h]

theorem recordDone_ok (env : Env) (st : State) (p : Parser) (next : Option State) (q : Parser)
    (h : callState env st p = (.ok next, q)) : recordDone env (st, p) = st.isCopier := by
  simp [recordDone, h]

theorem run_done_count (env : Env) :
    ∀ fuel st p, ∃ cmds, (runStates env fuel st p).2.output = p.output ++ cmds ∧
      cmds.length =
        if env.SkipRDB then 0 else ((visited env fuel st p).filter (recordDone env)).length := by
  apply run_induction env
  · intro fuel p
    rw [runStates_none, visited_none]
    exact ⟨[], by simp, by simp⟩
  · intro st p
    exact ⟨[], by simp [runStates], by simp [visited]⟩
  · intro fuel st p e q h hf
    rw [runStates_error env fuel st p e q h, visited_error env fuel st p e q h]
    refine ⟨[], by simp [(failed_fields hf).1], ?_⟩
    simp [List.filter, recordDone_error env st p e q h]
  · intro fuel st p next q h hs ih
    obtain ⟨cmds, h1, h2⟩ := ih
    rw [runStates_ok env fuel st p next q h, visited_ok env fuel st p next q h, List.filter_cons,
      recordDone_ok env st p next q h]
    have plain : st.isCopier = false → q.output = p.output →
        ∃ cmds, (runStates env fuel next q).2.output = p.output ++ cmds ∧
          cmds.length = if env.SkipRDB then 0 else
            (if st.isCopier = true then (st, p) :: (visited env fuel next q).filter (recordDone env)
              else (visited env fuel next q).filter (recordDone env)).length := by
      intro hcop hout
      rw [hcop]
      rw [hout] at h1
      exact ⟨cmds, h1, by simpa using h2⟩
    cases hs with
    | magic _ mid version v16 hr hl => exact plain rfl (reads_fields hr).1
    | opValue _ op rest c hr hc => exact plain rfl rfl
    | opFraming _ op rest s hr hc hf => exact plain rfl rfl
    | opEOF _ op rest hr hc hf he => exact plain rfl rfl
    | skip _ _ _ hst2 hr =>
      refine plain ?_ (reads_fields hr).1
      rcases hst2 with rfl | rfl | rfl <;> rfl
    | expiry _ _ mid e hst2 hr =>
      refine plain ?_ (reads_fields hr).1
      rcases hst2 with rfl | rfl <;> rfl
    | key _ mid k hk hr => exact plain rfl (reads_fields hr).1
    | copier _ _ mid hcop hr =>
      rw [hcop]
      have ho := (reads_fields hr).1
      rw [keep_output] at h1
      cases hskip : env.SkipRDB with
      | true =>
        rw [hskip] at h1 h2
        rw [← ho]
        exact ⟨cmds, by simpa using h1, by simpa using h2⟩
      | false =>
        rw [hskip] at h1 h2
        simp only [Bool.false_eq_true, if_false] at h1 h2 ⊢
        refine ⟨mkCommand env { mid with rawData := framed env mid.rawData mid.rdbVersion16bit }
          :: cmds, ?_, by simp [h2]⟩
        rw [h1, ← ho]
        simp
    | crc _ _ hr => exact plain rfl (reads_fields hr).1
    | padding _ => exact plain rfl rfl

theorem run_fails_at (env : Env) :
    ∀ fuel st p e, (runStates env fuel st p).1 = .error e → e ≠ .outOfFuel →
      ∃ st2 p2, (st2, p2) ∈ visited env fuel st p ∧ (callState env st2 p2).1 = .error e ∧
        (runStates env fuel st p).2.output = p2.output := by
  apply run_induction env
  · intro fuel p e h _
    rw [runStates_none] at h
    cases h
  · intro st p e h hne
    simp only [runStates, Except.error.injEq] at h
    exact absurd h.symm hne
  · intro fuel st p e q h hf e2 he _
    rw [runStates_error env fuel st p e q h] at he ⊢
    simp only [Except.error.injEq] at he
    subst he
    rw [visited_error env fuel st p e q h]
    exact ⟨st, p, by simp, by rw [h], (failed_fields hf).1⟩
  · intro fuel st p next q h hs ih e he hne
    rw [runStates_ok env fuel st p next q h] at he ⊢
    obtain ⟨st2, p2, hm, hc, ho⟩ := ih e he hne
    rw [visited_ok env fuel st p next q h]
    exact ⟨st2, p2, List.mem_cons_of_mem _ hm, hc, ho⟩

/-- C24: for every input `s` and every prefix `pre` of `s`, with the same
clock, `Replace` and `SkipRDB`, the commands `ParseRDB` emits on `pre` are a
prefix of the commands it emits on `s`.  On every input the commands emitted
are as many as the value records read completely, that is the visits of
a value copier that succeed (none with `SkipRDB` set); and when the parse
fails, the output is the output as it was before the call that failed. -/
theorem truncation_monotone (env : Env) (s pre : Bytes) (out : List RedisCommand)
    (ctr : Option Nat) (hpre : pre <+: s) :
    (ParseRDB env pre out ctr).2.output <+: (ParseRDB env s out ctr).2.output ∧
    (∃ cmds, (ParseRDB env s out ctr).2.output = out ++ cmds ∧
      cmds.length = if env.SkipRDB then 0
        else ((parseTrace env s out ctr).filter (recordDone env)).length) ∧
    (∀ e, (ParseRDB env s out ctr).1 = .error e →
      ∃ st p, (st, p) ∈ parseTrace env s out ctr ∧ (callState env st p).1 = .error e ∧
        (ParseRDB env s out ctr).2.output = p.output) := by
  refine ⟨?_, ?_, ?_⟩
  · obtain ⟨t, rfl⟩ := hpre
    have h := stable_run env (3 * pre.length + 3) (some .stateMagic) (newParser pre out ctr) t
      (3 * (pre ++ t).length + 3) (by
        rw [List.length_append]
        omega)
    exact h
  · exact run_done_count env _ _ _
  · intro e he
    exact run_fails_at env _ _ _ e he (by
      intro hfuel
      rw [hfuel] at he
      exact ParseRDB_fuel_enough env s out ctr he)

/-- The file with two keys cut inside its second record (C24): the parse of
the cut file fails and emits the command of the first record, which is the
first of the two commands of the whole file. -/
theorem truncation_monotone_witness :
    cutFile <+: twoKeysFile ∧
    (ParseRDB sampleEnv cutFile [] none).1 = .error .EOF ∧
    (ParseRDB sampleEnv cutFile [] none).2.output.length = 1 ∧
    (ParseRDB sampleEnv twoKeysFile [] none).2.output.length = 2 ∧
    (ParseRDB sampleEnv cutFile [] none).2.output <+:
      (ParseRDB sampleEnv twoKeysFile [] none).2.output :=
  ⟨List.take_prefix 29 twoKeysFile, by decide!, by decide!, by decide!,
   (truncation_monotone sampleEnv twoKeysFile cutFile [] none
      (List.take_prefix 29 twoKeysFile)).1⟩

/-! ## Termination (C25) -/

theorem lzfLoop_step (fuel : Nat) (inp : Bytes) (inLen : Int) (i o : Nat) (out : Bytes) :
    lzfLoop (fuel + 1) inp inLen i o out =
      if (i : Int) < inLen then
        match lzfStep inp i o out with
        | .error e => .error e
        | .ok (i2, o2, out2) => lzfLoop fuel inp inLen i2 o2 out2
      else .ok out := by
  rw [lzfLoop]
  unfold lzfStep
  split_ifs with h1
  · cases lzfIn inp i with
    | error e => rfl
    | ok ctrl =>
      simp only []
      split_ifs with h2 h3
      · rfl
      · cases lzfIn inp (i + 1) with
        | error e => rfl
        | ok ext =>
          simp only []
          cases lzfIn inp (i + 2) with
          | error e => rfl
          | ok d =>
            simp only []
            cases lzfBackref (ctrl >>> 5 + ext + 2)
                ((o : Int) - (((ctrl &&& 0x1f) <<< 8 : Nat) : Int) - (d : Int) - 1) o out with
            | error e => rfl
            | ok r => rfl
      · cases lzfIn inp (i + 1) with
        | error e => rfl
        | ok d =>
          simp only []
          cases lzfBackref (ctrl >>> 5 + 2)
              ((o : Int) - (((ctrl &&& 0x1f) <<< 8 : Nat) : Int) - (d : Int) - 1) o out with
          | error e => rfl
          | ok r => rfl
  · rfl

theorem lzfStep_advances (inp : Bytes) (i o : Nat) (out : Bytes) (i2 o2 : Nat) (out2 : Bytes)
    (h : lzfStep inp i o out = .ok (i2, o2, out2)) : i < i2 := by
  unfold lzfStep at h
  cases h0 : lzfIn inp i with
  | error e =>
    rw [h0] at h
    cases h
  | ok ctrl =>
    rw [h0] at h
    simp only [] at h
    split_ifs at h with h2 h3
    · have := lzfLiteral_index _ _ _ _ _ _ _ _ h
      omega
    · cases h1 : lzfIn inp (i + 1) with
      | error e =>
        rw [h1] at h
        cases h
      | ok ext =>
        rw [h1] at h
        simp only [] at h
        cases h4 : lzfIn inp (i + 2) with
        | error e =>
          rw [h4] at h
          cases h
        | ok d =>
          rw [h4] at h
          simp only [] at h
          cases h5 : lzfBackref (ctrl >>> 5 + ext + 2)
              ((o : Int) - (((ctrl &&& 0x1f) <<< 8 : Nat) : Int) - (d : Int) - 1) o out with
          | error e =>
            rw [h5] at h
            cases h
          | ok r =>
            rw [h5] at h
            simp only [Except.ok.injEq, Prod.mk.injEq] at h
            omega
    · cases h1 : lzfIn inp (i + 1) with
      | error e =>
        rw [h1] at h
        cases h
      | ok d =>
        rw [h1] at h
        simp only [] at h
        cases h5 : lzfBackref (ctrl >>> 5 + 2)
            ((o : Int) - (((ctrl &&& 0x1f) <<< 8 : Nat) : Int) - (d : Int) - 1) o out with
        | error e =>
          rw [h5] at h
          cases h
        | ok r =>
          rw [h5] at h
          simp only [Except.ok.injEq, Prod.mk.injEq] at h
          omega

theorem shrinks_bind {α β : Type} (save : Bool) {m : M α} {f : α → M β}
    (hm : OnOk Shrinks m) (hf : ∀ a, Always (Reads save) (f a)) : OnOk Shrinks (m >>= f) := by
  intro p b q h
  obtain ⟨a, p1, h1, h2⟩ := (bind_ok_iff m f p b q).mp h
  have hlen := reads_length (reads_of_ok (hf a) h2)
  have hs := hm p a p1 h1
  unfold Shrinks at *
  omega

theorem shrinks_readByte : OnOk Shrinks readByte := by
  intro p b q h
  unfold readByte at h
  have hcases : p.reader = [] ∨ ∃ c rest, p.reader = c :: rest := by
    cases p.reader <;> simp
  rcases hcases with hr | ⟨c, rest, hr⟩
  · rw [hr] at h
    simp at h
  · rw [hr] at h
    simp only [Prod.mk.injEq, Except.ok.injEq] at h
    unfold Shrinks
    rw [← h.2, hr]
    simp

theorem shrinks_readLength (save : Bool) : OnOk Shrinks (readLength save) := by
  unfold readLength
  refine shrinks_bind save shrinks_readByte (fun pfx => ?_)
  refine reads_bind (reads_commandWrite save _) (fun _ => ?_)
  simp only []
  split_ifs
  · exact reads_pure _ _
  · refine reads_bind (reads_readByte save) (fun d => ?_)
    refine reads_bind (reads_commandWrite save _) (fun _ => ?_)
    exact reads_pure _ _
  · refine reads_bind (reads_safeRead save _) (fun d => ?_)
    refine reads_bind (reads_commandWrite save _) (fun _ => ?_)
    refine reads_bind (reads_liftE save _) (fun _ => ?_)
    exact reads_pure _ _
  · refine reads_bind (reads_safeRead save _) (fun d => ?_)
    refine reads_bind (reads_commandWrite save _) (fun _ => ?_)
    refine reads_bind (reads_liftE save _) (fun _ => ?_)
    exact reads_pure _ _
  · exact reads_fail _ _
  · exact reads_pure _ _
  · exact reads_fail _ _

theorem shrinks_copyString (save : Bool) : OnOk Shrinks (copyString save) := by
  unfold copyString
  refine shrinks_bind save (shrinks_readLength save) (fun x => ?_)
  obtain ⟨length, encoding⟩ := x
  simp only []
  split_ifs
  · refine reads_bind (reads_safeRead save _) (fun d => ?_)
    exact reads_commandWrite save _
  · refine reads_bind (reads_safeRead save _) (fun d => ?_)
    exact reads_commandWrite save _
  · refine reads_bind (reads_readLength save) (fun x => ?_)
    obtain ⟨clength, _⟩ := x
    refine reads_bind (reads_readLength save) (fun x => ?_)
    refine reads_bind (reads_safeRead save _) (fun d => ?_)
    exact reads_commandWrite save _
  · exact reads_fail _ _

theorem shrinks_hashEntry :
    OnOk Shrinks (copyString true >>= fun _ => copyString true) :=
  shrinks_bind true (shrinks_copyString true) (fun _ => reads_copyString true)

theorem shrinks_zsetEntry : OnOk Shrinks zsetEntry := by
  unfold zsetEntry
  refine shrinks_bind true (shrinks_copyString true) (fun _ => ?_)
  refine reads_bind (reads_readByte true) (fun dlen => ?_)
  refine reads_bind (reads_commandWrite true _) (fun _ => ?_)
  split_ifs
  · refine reads_bind (reads_safeRead true _) (fun d => ?_)
    exact reads_commandWrite true _
  · exact reads_pure _ _

theorem shrinks_zset2Entry : OnOk Shrinks zset2Entry := by
  unfold zset2Entry
  refine shrinks_bind true (shrinks_copyString true) (fun _ => ?_)
  refine reads_bind (reads_safeRead true _) (fun d => ?_)
  refine reads_bind (reads_liftE true _) (fun _ => ?_)
  exact reads_pure _ _

theorem shrinks_readUnsigned (save : Bool) : OnOk Shrinks (readUnsigned save) := by
  unfold readUnsigned
  refine shrinks_bind save (shrinks_readLength save) (fun x => ?_)
  obtain ⟨val, _⟩ := x
  simp only []
  split_ifs
  · exact reads_fail _ _
  · refine reads_bind (reads_readLength save) (fun x => ?_)
    exact reads_pure _ _

theorem shrinks_bloomEntry : OnOk Shrinks bloomEntry := by
  unfold bloomEntry
  refine shrinks_bind true (shrinks_readUnsigned true) (fun _ => ?_)
  refine reads_bind reads_readDouble (fun _ => ?_)
  refine reads_bind (reads_readUnsigned true) (fun _ => ?_)
  refine reads_bind reads_readDouble (fun _ => ?_)
  refine reads_bind (reads_readUnsigned true) (fun _ => ?_)
  refine reads_bind (reads_readUnsigned true) (fun _ => ?_)
  refine reads_bind (reads_readStringBuffer true) (fun _ => ?_)
  refine reads_bind (reads_readUnsigned true) (fun _ => ?_)
  exact reads_pure _ _

theorem shrinks_cuckooEntry : OnOk Shrinks cuckooEntry := by
  unfold cuckooEntry
  refine shrinks_bind true (shrinks_readUnsigned true) (fun _ => ?_)
  refine reads_bind (reads_readStringBuffer true) (fun _ => ?_)
  exact reads_pure _ _

theorem loopN_consumes (body : M Unit) (hb : OnOk Shrinks body) :
    ∀ (n : Nat) (p q : Parser), loopN body n p = (.ok (), q) →
      q.reader.length + n ≤ p.reader.length := by
  intro n
  induction n with
  | zero =>
    intro p q h
    simp only [loopN, pure_apply, Prod.mk.injEq, true_and] at h
    rw [h]
    omega
  | succ n ih =>
    intro p q h
    rw [loopN] at h
    obtain ⟨_, p1, h1, h2⟩ := (bind_ok_iff _ _ p () q).mp h
    have hs := hb p _ p1 h1
    have := ih p1 q h2
    unfold Shrinks at hs
    omega

theorem callState_notGrows (env : Env) (st : State) (p : Parser) :
    (callState env st p).2.reader.length ≤ p.reader.length := by
  rcases hc : callState env st p with ⟨r, q⟩
  cases r with
  | error e =>
    obtain ⟨mid, hr, hq⟩ := failed_of_error env st p e q hc
    have := reads_length hr
    rw [hq]
    exact this
  | ok next =>
    have hs := step_of_ok env st p next q hc
    simp only []
    cases hs with
    | magic _ mid version v16 hr hl =>
      have := reads_length hr
      exact this
    | opValue _ op rest c hr hc =>
      simp only [hr, List.length_cons]
      omega
    | opFraming _ op rest s hr hc hf =>
      simp only [hr, List.length_cons]
      omega
    | opEOF _ op rest hr hc hf he =>
      simp only [hr, List.length_cons]
      omega
    | skip _ _ _ hst2 hr => exact reads_length hr
    | expiry _ _ mid e hst2 hr =>
      have := reads_length hr
      exact this
    | key _ mid k hk hr =>
      have := reads_length hr
      exact this
    | copier _ _ mid hcop hr =>
      rw [(keep_fields env mid).2.2.2.2.1]
      exact reads_length hr
    | crc _ _ hr => exact reads_length hr
    | padding _ => exact Nat.le_refl _

theorem stateOp_consumes (p : Parser) (next : Option State) (q : Parser)
    (h : stateOp p = (.ok next, q)) : q.reader.length + 1 = p.reader.length := by
  have hcases : p.reader = [] ∨ ∃ op rest, p.reader = op :: rest := by
    cases p.reader <;> simp
  rcases hcases with hr | ⟨op, rest, hr⟩
  · rw [stateOp_nil p hr] at h
    simp at h
  · cases hc : copierOf op with
    | some s =>
      rw [stateOp_value p op rest s hr hc] at h
      simp only [Prod.mk.injEq] at h
      rw [← h.2, hr]
      simp
    | none =>
      rw [stateOp_other p op rest hr hc] at h
      cases hf : framingOf op with
      | some s =>
        rw [hf] at h
        simp only [Prod.mk.injEq] at h
        rw [← h.2, hr]
        simp
      | none =>
        rw [hf] at h
        simp only [] at h
        by_cases he : op = rdbOpEOF
        · rw [if_pos he] at h
          simp only [Prod.mk.injEq] at h
          rw [← h.2, hr]
          simp
        · rw [if_neg he] at h
          simp at h

theorem visited_bound (env : Env) : ∀ (fuel : Nat) (st : Option State) (p : Parser)
    (e : State × Parser), e ∈ visited env fuel st p → e.2.reader.length ≤ p.reader.length := by
  intro fuel
  induction fuel with
  | zero =>
    intro st p e h
    cases st <;> simp [visited] at h
  | succ fuel ih =>
    intro st p e h
    cases st with
    | none => simp [visited] at h
    | some s =>
      rw [visited, List.mem_cons] at h
      rcases h with h | h
      · rw [h]
      · have hn := callState_notGrows env s p
        rcases hc : callState env s p with ⟨r, q⟩
        rw [hc] at h hn
        cases r with
        | error e2 => simp at h
        | ok next =>
          simp only [] at h hn
          have := ih next q e h
          omega

theorem visited_ops_decrease (env : Env) : ∀ (fuel : Nat) (st : Option State) (p : Parser),
    List.Pairwise (fun a b : State × Parser => b.2.reader.length < a.2.reader.length)
      ((visited env fuel st p).filter isOpVisit) := by
  intro fuel
  induction fuel with
  | zero =>
    intro st p
    cases st <;> simp [visited]
  | succ fuel ih =>
    intro st p
    cases st with
    | none => simp [visited]
    | some s =>
      rcases hc : callState env s p with ⟨r, q⟩
      cases r with
      | error e =>
        rw [visited_error env fuel s p e q hc]
        by_cases hop : isOpVisit (s, p) = true
        · simp [List.filter, hop]
        · simp [List.filter, hop]
      | ok next =>
        rw [visited_ok env fuel s p next q hc, List.filter_cons]
        by_cases hop : isOpVisit (s, p) = true
        · rw [if_pos hop, List.pairwise_cons]
          refine ⟨fun e he => ?_, ih next q⟩
          have hs : s = .stateOp := by simpa [isOpVisit] using hop
          subst hs
          have h1 := stateOp_consumes p next q hc
          have h2 := visited_bound env fuel next q e (List.mem_of_mem_filter he)
          simp only []
          omega
        · rw [if_neg hop]
          exact ih next q

/-- C25: `ParseRDB` terminates on every finite input: the loop of the
state functions ends within the `3 * length + 3` iterations the model gives
it, with a result or a failure.  Along the run, the bytes left in the stream
decrease from each call of `stateOp` to the next; every iteration of a
copier loop that succeeds consumes at least one byte, so a loop of `n`
iterations that succeeds has consumed at least `n` bytes, whatever count the
file declares; every iteration of the loop of `lzfDecompressNew`
advances the input index, and that loop ends within `inLen` iterations. -/
theorem parse_terminates (env : Env) :
    (∀ input out ctr, (ParseRDB env input out ctr).1 ≠ .error .outOfFuel) ∧
    (∀ input out ctr,
      List.Pairwise (fun a b : State × Parser => b.2.reader.length < a.2.reader.length)
        ((parseTrace env input out ctr).filter isOpVisit)) ∧
    (∀ p next q, stateOp p = (.ok next, q) → q.reader.length + 1 = p.reader.length) ∧
    (∀ st p, (callState env st p).2.reader.length ≤ p.reader.length) ∧
    (OnOk Shrinks (copyString true) ∧
      OnOk Shrinks (copyString true >>= fun _ => copyString true) ∧
      OnOk Shrinks zsetEntry ∧ OnOk Shrinks zset2Entry ∧
      OnOk Shrinks bloomEntry ∧ OnOk Shrinks cuckooEntry) ∧
    (∀ body : M Unit, OnOk Shrinks body → ∀ n p q, loopN body n p = (.ok (), q) →
      q.reader.length + n ≤ p.reader.length) ∧
    (∀ fuel inp inLen i o out,
      lzfLoop (fuel + 1) inp inLen i o out =
        if (i : Int) < inLen then
          match lzfStep inp i o out with
          | .error e => .error e
          | .ok (i2, o2, out2) => lzfLoop fuel inp inLen i2 o2 out2
        else .ok out) ∧
    (∀ inp i o out i2 o2 out2, lzfStep inp i o out = .ok (i2, o2, out2) → i < i2) ∧
    (∀ inp inLen outLen, lzfDecompressNew inp inLen outLen ≠ .error .outOfFuel) :=
  ⟨fun input out ctr => ParseRDB_fuel_enough env input out ctr,
   fun _ _ _ => visited_ops_decrease env _ _ _,
   stateOp_consumes,
   callState_notGrows env,
   ⟨shrinks_copyString true, shrinks_hashEntry, shrinks_zsetEntry, shrinks_zset2Entry,
    shrinks_bloomEntry, shrinks_cuckooEntry⟩,
   loopN_consumes,
   lzfLoop_step,
   lzfStep_advances,
   lzfDecompressNew_noFuel⟩

/-- The parts of C25 on samples: the parse of the file with two keys ends,
its five calls of `stateOp` see 31, 29, 20, 15 and 9 bytes left; `stateOp`
on the sample parser consumes its one byte; a literal block of two bytes
moves the input index of the LZF loop from 0 to 3. -/
theorem parse_terminates_witness :
    (ParseRDB sampleEnv twoKeysFile [] none).1 ≠ .error .outOfFuel ∧
    ((parseTrace sampleEnv twoKeysFile [] none).filter isOpVisit).map
      (fun e => e.2.reader.length) = [31, 29, 20, 15, 9] ∧
    (stateOp sampleParser).2.reader.length + 1 = sampleParser.reader.length ∧
    (0 : Nat) < 3 :=
  ⟨(parse_terminates sampleEnv).1 twoKeysFile [] none, by decide!,
   (parse_terminates sampleEnv).2.2.1 sampleParser (some .stateCRC64) (stateOp sampleParser).2
      (by decide!),
   (parse_terminates sampleEnv).2.2.2.2.2.2.2.1 [0x01, 0x61, 0x61] 0 0 [0, 0] 3 2 [0x61, 0x61]
      (by decide)⟩

/-! ## What `readString` captures, on every stream (C23) -/

theorem follows_bind {α β γ δ : Type} {V : α → β → Prop} {W : γ → δ → Prop}
    {m1 : M α} {m2 : M β} {f1 : α → M γ} {f2 : β → M δ}
    (hm : Follows V m1 m2) (hf : ∀ a b, V a b → Follows W (f1 a) (f2 b)) :
    Follows W (m1 >>= f1) (m2 >>= f2) := by
  intro p1 p2 c q1 hr h
  obtain ⟨a, mid1, h1, h2⟩ := (bind_ok_iff m1 f1 p1 c q1).1 h
  obtain ⟨b, mid2, h3, hv, hr2⟩ := hm p1 p2 a mid1 hr h1
  obtain ⟨d, q2, h4, hw, hr3⟩ := hf a b hv mid1 mid2 c q1 hr2 h2
  exact ⟨d, q2, (bind_ok_iff m2 f2 p2 d q2).2 ⟨b, mid2, h3, h4⟩, hw, hr3⟩

theorem follows_then {α β γ : Type} {V : α → β → Prop} {m1 : M α} {m2 : M β} {f : α → M γ}
    (hm : Follows V m1 m2) (hf : ∀ a p c q, f a p = (.ok c, q) → q.reader = p.reader) :
    Follows (fun _ _ => True) (m1 >>= f) m2 := by
  intro p1 p2 c q1 hr h
  obtain ⟨a, mid1, h1, h2⟩ := (bind_ok_iff m1 f p1 c q1).1 h
  obtain ⟨b, q2, h3, -, hr2⟩ := hm p1 p2 a mid1 hr h1
  exact ⟨b, q2, h3, trivial, by rw [hf a mid1 c q1 h2, hr2]⟩

theorem follows_pure {α β : Type} {V : α → β → Prop} (a : α) (b : β) (h : V a b) :
    Follows V (pure a : M α) (pure b : M β) := by
  intro p1 p2 c q1 hr hc
  rw [pure_apply] at hc
  simp only [Prod.mk.injEq, Except.ok.injEq] at hc
  refine ⟨b, p2, by rw [pure_apply], ?_, ?_⟩
  · rw [← hc.1]
    exact h
  · rw [← hc.2]
    exact hr

theorem follows_fail {α β : Type} (V : α → β → Prop) (e : Err) (m2 : M β) :
    Follows V (fail e : M α) m2 := by
  intro p1 p2 c q1 hr hc
  simp [fail] at hc

theorem follows_liftE {α : Type} (r : Except Err α) : Follows Eq (liftE r) (liftE r) := by
  intro p1 p2 c q1 hr hc
  simp only [liftE, Prod.mk.injEq] at hc
  refine ⟨c, p2, ?_, rfl, ?_⟩
  · simp only [liftE, Prod.mk.injEq, and_true]
    exact hc.1
  · rw [← hc.2]
    exact hr

theorem follows_readByte : Follows Eq readByte readByte := by
  intro p1 p2 c q1 hr hc
  unfold readByte at hc ⊢
  rw [← hr]
  have hcases : p1.reader = [] ∨ ∃ b rest, p1.reader = b :: rest := by
    cases p1.reader <;> simp
  rcases hcases with h0 | ⟨b, rest, h0⟩
  · rw [h0] at hc
    simp at hc
  · rw [h0] at hc ⊢
    simp only [Prod.mk.injEq, Except.ok.injEq] at hc
    refine ⟨b, _, rfl, hc.1.symm, ?_⟩
    rw [← hc.2]

theorem follows_safeRead (n : Nat) : Follows Eq (safeRead n) (safeRead n) := by
  intro p1 p2 c q1 hr hc
  obtain ⟨hn, hd, hq⟩ := safeRead_ok hc
  refine ⟨c, { p2 with reader := p2.reader.drop n }, ?_, rfl, ?_⟩
  · unfold safeRead
    rw [if_pos (by rw [← hr]; exact hn), hd, hr]
  · rw [hq, hr]

theorem follows_commandWrite (s1 s2 : Bool) (d1 d2 : Bytes) :
    Follows Eq (commandWrite s1 d1) (commandWrite s2 d2) := by
  intro p1 p2 c q1 hr hc
  have h1 : q1.reader = p1.reader := by
    unfold commandWrite at hc
    split_ifs at hc <;> simp only [Prod.mk.injEq] at hc <;> rw [← hc.2]
  refine ⟨(), (commandWrite s2 d2 p2).2, ?_, rfl, ?_⟩
  · unfold commandWrite
    split_ifs <;> rfl
  · rw [h1, hr]
    unfold commandWrite
    split_ifs <;> rfl

/-- The flag `save` of `readLength` changes neither its result nor the
bytes it consumes. -/
theorem follows_readLength (s1 s2 : Bool) : Follows Eq (readLength s1) (readLength s2) := by
  unfold readLength
  refine follows_bind follows_readByte (fun pfx b hb => ?_)
  subst hb
  refine follows_bind (follows_commandWrite s1 s2 _ _) (fun _ _ _ => ?_)
  simp only []
  split_ifs
  · exact follows_pure _ _ rfl
  · refine follows_bind follows_readByte (fun d b hb => ?_)
    subst hb
    refine follows_bind (follows_commandWrite s1 s2 _ _) (fun _ _ _ => ?_)
    exact follows_pure _ _ rfl
  · refine follows_bind (follows_safeRead _) (fun d b hb => ?_)
    subst hb
    refine follows_bind (follows_commandWrite s1 s2 _ _) (fun _ _ _ => ?_)
    refine follows_bind (follows_liftE _) (fun v b hb => ?_)
    subst hb
    exact follows_pure _ _ rfl
  · refine follows_bind (follows_safeRead _) (fun d b hb => ?_)
    subst hb
    refine follows_bind (follows_commandWrite s1 s2 _ _) (fun _ _ _ => ?_)
    refine follows_bind (follows_liftE _) (fun v b hb => ?_)
    subst hb
    exact follows_pure _ _ rfl
  · exact follows_fail _ _ _
  · exact follows_pure _ _ rfl
  · exact follows_fail _ _ _

theorem pure_keeps_reader {α : Type} (a : α) (p : Parser) (c : α) (q : Parser)
    (h : (pure a : M α) p = (.ok c, q)) : q.reader = p.reader := by
  rw [pure_apply] at h
  simp only [Prod.mk.injEq] at h
  rw [← h.2]

theorem liftE_keeps_reader {α : Type} (r : Except Err α) (p : Parser) (c : α) (q : Parser)
    (h : liftE r p = (.ok c, q)) : q.reader = p.reader := by
  simp only [liftE, Prod.mk.injEq] at h
  rw [← h.2]

/-- Where `readString save` succeeds, `copyString save2` succeeds on the
same stream and consumes the same bytes. -/
theorem follows_readString_copyString (s1 s2 : Bool) :
    Follows (fun _ _ => True) (readString s1) (copyString s2) := by
  unfold readString copyString
  refine follows_bind (follows_readLength false s2) (fun x y hxy => ?_)
  subst hxy
  obtain ⟨length, encoding⟩ := x
  simp only []
  split_ifs
  · refine follows_bind (follows_safeRead _) (fun d b hb => ?_)
    subst hb
    exact follows_then (follows_commandWrite s1 s2 _ _) (fun _ => pure_keeps_reader _)
  · refine follows_bind (follows_safeRead _) (fun d b hb => ?_)
    subst hb
    exact follows_then (follows_commandWrite s1 s2 _ _) (fun _ => pure_keeps_reader _)
  · refine follows_bind (follows_readLength s1 s2) (fun x y hxy => ?_)
    subst hxy
    obtain ⟨clength, _⟩ := x
    refine follows_bind (follows_readLength s1 s2) (fun x y hxy => ?_)
    subst hxy
    obtain ⟨ulength, _⟩ := x
    refine follows_bind (follows_safeRead _) (fun d b hb => ?_)
    subst hb
    exact follows_then (follows_commandWrite s1 s2 _ _) (fun _ => liftE_keeps_reader _)
  · exact follows_fail _ _ _

/-- After its prefix, `readString true` copies: the bytes it consumes after
the first `readLength` are the bytes it appends to the capture buffer. -/
theorem readString_copies_after_prefix (p q : Parser) (k : Bytes)
    (h : readString true p = (.ok k, q)) :
    ∃ x p1, readLength false p = (.ok x, p1) ∧ Copies p1 q := by
  unfold readString at h
  obtain ⟨x, p1, h1, h2⟩ := (bind_ok_iff _ _ p k q).1 h
  refine ⟨x, p1, h1, ?_⟩
  obtain ⟨length, encoding⟩ := x
  simp only [] at h2
  split_ifs at h2
  · exact copies_bytes _ (fun d => pure d) (fun _ => copies_pure _) p1 k q h2
  · exact copies_bytes _ (fun d => pure (decimal (intOfData encoding d)))
      (fun _ => copies_pure _) p1 k q h2
  · refine (copies_bind copies_readLength (fun x => ?_) : OnOk Copies _) p1 k q h2
    obtain ⟨clength, _⟩ := x
    refine copies_bind copies_readLength (fun x => ?_)
    obtain ⟨ulength, _⟩ := x
    exact copies_bytes _ _ (fun _ => copies_liftE _)
  · simp [fail] at h2

/-- C23, amended: on every stream on which `readString true` succeeds, the
bytes appended to the capture buffer are exactly the bytes `bs` consumed
after the length-or-encoding prefix `pre`, in order.  The prefix is not
empty, it is what the first `readLength` of `readString` consumes, and it
is not appended.  `copyString true` succeeds on the same stream, consumes
the same bytes, and appends the prefix, then the same bytes `bs`. -/
theorem readString_captures_after_prefix (p q : Parser) (k : Bytes)
    (h : readString true p = (.ok k, q)) :
    ∃ pre bs, pre ≠ [] ∧ p.reader = pre ++ (bs ++ q.reader) ∧
      (readLength false p).2 = { p with reader := bs ++ q.reader } ∧
      q = { p with reader := q.reader, rawData := p.rawData ++ bs } ∧
      copyString true p =
        (.ok (), { p with reader := q.reader, rawData := p.rawData ++ (pre ++ bs) }) := by
  obtain ⟨u, q2, hc, -, hrd⟩ := follows_readString_copyString true true p p k q rfl h
  obtain ⟨all, hall, hq2⟩ := copies_copyString p u q2 hc
  obtain ⟨x, p1, h1, bs, hbs, hq⟩ := readString_copies_after_prefix p q k h
  have hreads := reads_of_ok (reads_readLength false) h1
  have hshr : p1.reader.length < p.reader.length := shrinks_readLength false p x p1 h1
  obtain ⟨pre, w, hpre, hp1, hw⟩ := hreads
  rw [hw rfl, List.append_nil] at hp1
  have hne : pre ≠ [] := by
    intro h0
    rw [hpre, h0] at hshr
    simp at hshr
  have hsplit : p.reader = pre ++ (bs ++ q.reader) := by rw [hpre, hbs]
  have hall2 : all = pre ++ bs := by
    rw [← hrd, hsplit, ← List.append_assoc] at hall
    exact (List.append_cancel_right hall).symm
  refine ⟨pre, bs, hne, hsplit, ?_, ?_, ?_⟩
  · rw [h1, ← hbs]
    exact hp1
  · rw [hq, hp1]
    simp [Parser.advance]
  · rw [hc, hq2, hall2, ← hrd]
    simp [Parser.advance]

/-- The string `a` of `stringParser` (C23): the prefix is the byte 01, the
byte 61 after it is appended to the capture buffer, and `copyString true`
appends 01 61. -/
theorem readString_captures_after_prefix_witness :
    readString true stringParser = (.ok [0x61], stringParser.advance true [0x61] [0xFF]) ∧
    ∃ pre bs, pre ≠ [] ∧
      stringParser.reader = pre ++ (bs ++ (stringParser.advance true [0x61] [0xFF]).reader) ∧
      (readLength false stringParser).2 =
        { stringParser with reader := bs ++ (stringParser.advance true [0x61] [0xFF]).reader } ∧
      stringParser.advance true [0x61] [0xFF] =
        { stringParser with reader := (stringParser.advance true [0x61] [0xFF]).reader,
                            rawData := stringParser.rawData ++ bs } ∧
      copyString true stringParser =
        (.ok (), { stringParser with reader := (stringParser.advance true [0x61] [0xFF]).reader,
                                     rawData := stringParser.rawData ++ (pre ++ bs) }) :=
  ⟨by decide!, readString_captures_after_prefix stringParser
    (stringParser.advance true [0x61] [0xFF]) [0x61] (by decide!)⟩

end RDB
